import Mathlib

deriving instance DecidableEq for Except

/-! credgen: a shallow embedding of `src/credgen.c`

C strings are lists of characters; the terminator is `NUL`.  A pointer into a
constant array is the suffix of the array that starts at the pointee, so
`strchr`, `strlen` and the pointer walk of `nthword` become list operations.
`int` values are `Int`, `uint32_t` values are `Nat`; the places where the C
code converts between widths carry an explicit wrap (`toInt32`, `toUInt32`).
The random source `arc4random_uniform` is an oracle `rnd k upper` giving the
result of the `k`-th call.
-/

namespace Credgen

/-! ## Machine integers and C strings -/

/-- The terminator byte of a C string. -/
def NUL : Char := Char.ofNat 0

def INT_MAX : Int := 2147483647

def UINT_MAX : Nat := 4294967295

/-- Conversion of an integer value to `int` (32 bit, two's complement wrap). -/
def toInt32 (z : Int) : Int := (z + 2147483648) % 4294967296 - 2147483648

/-- Conversion of an integer value to `uint32_t`. -/
def toUInt32 (z : Int) : Nat := (z % 4294967296).toNat

/-- The characters of the C string a pointer designates: everything before the
first terminator. -/
def cstr (p : List Char) : List Char := p.takeWhile (fun c => c != NUL)

/-- C `strlen`. -/
def strlen (p : List Char) : Nat := (cstr p).length

/-- The byte a pointer designates; reading past the end of the modelled array
yields the terminator. -/
def deref (p : List Char) : Char := p.headD NUL

/-- C `strchr(p, 0)`: the suffix starting at the terminator of the string. -/
def strchr0 (p : List Char) : List Char := p.dropWhile (fun c => c != NUL)

/-- The `n` bytes `strncpy(dst, src, n)` writes: the string at `src` cut to `n`
characters and padded with terminators up to `n`. -/
def strncpyBytes (src : List Char) (n : Nat) : List Char :=
  (cstr src).take n ++ List.replicate (n - ((cstr src).take n).length) NUL

/-- Overwrite `buf` from offset `u` on with `bytes`. -/
def writeAt (buf : List Char) (u : Nat) (bytes : List Char) : List Char :=
  buf.take u ++ bytes ++ buf.drop (u + bytes.length)

/-! ## Constants and strings -/

def MIN_NORMAL : Int := 20
def MAX_NORMAL : Int := 30
def MIN_EASY : Int := 8
def MAX_EASY : Int := 12
def DLM_NORMAL : List Char := [' ']
def DLN_NORMAL : Int := 5

/-- The master alphabet `Qwerty` (without its terminator). -/
def Qwerty : List Char :=
  "abcdefghijklmnopqrstuvwxyzABCDEFGHIJKLMNOPQRSTUVWXYZ0123456789\x60-=[]\x5c;\x27,./~!@#$%^&*()_+\x7b\x7d|:\x22<>?".toList

/-- The size of the `Keyset` buffer, `sizeof Keyset`. -/
def KEYSET_SIZE : Nat := 1024

/-- The state `acquire` works on: the global buffer `Keyset` and the write
pointer `dst`, kept as an offset into the buffer. -/
structure KeysetState where
  Keyset : List Char
  dst : Nat
deriving DecidableEq, Repr

/-- The buffer after `memset(Keyset, 0, sizeof Keyset)` with `dst = Keyset`. -/
def KeysetState.init : KeysetState :=
  { Keyset := List.replicate KEYSET_SIZE NUL, dst := 0 }

/-- C `acquire(at, len, &dst)`; `none` is the `exit(1)` after
"excessive argument". -/
def acquire (at_ len : Nat) (s : KeysetState) : Option KeysetState :=
  if ((KEYSET_SIZE : Int) - 1 - (s.dst : Int)) < (len : Int) then none
  else some { Keyset := writeAt s.Keyset s.dst (strncpyBytes (Qwerty.drop at_) len),
              dst := s.dst + len }

/-! ## The word dictionary -/

/-- The loop of `nthword`: `str` is the walking pointer, `index` the record
counter (a `uint32_t`).  The result is the returned pointer (`none` for `NULL`)
together with the final value of `*position`.  The outer `none` means the fuel
ran out. -/
def nthwordLoop (position : Nat) : Nat → List Char → Nat → Option (Option (List Char) × Nat)
  | 0, _, _ => none
  | fuel + 1, str, index =>
    if deref str = NUL then some (none, index)
    else if index = position then some (some str, position)
    else nthwordLoop position fuel ((strchr0 str).drop 1) ((index + 1) % 4294967296)

/-- C `nthword(&position)` over the dictionary blob `credgen_words_txt`: the
returned pointer and the final value of `*position`.  The walk is run with
fuel `length + 1`, which `nthwordLoop_fuel` shows is always enough, so the
fallback of `getD` is never taken. -/
def nthword (credgen_words_txt : List Char) (position : Nat) : Option (List Char) × Nat :=
  (nthwordLoop position (credgen_words_txt.length + 1) credgen_words_txt 0).getD (none, position)

/-! ## The program -/

/-- What is fixed when the program is built: the dictionary blob of
`credgen_words.h` and the `BUILD_DATE` string. -/
structure Build where
  credgen_words_txt : List Char
  BUILD_DATE : List Char

/-- The random source: `rnd k upper` is what the `k`-th call of `randint`
returns when it is called with `upper`. -/
abbrev RandomSource := Nat → Nat → Nat

/-- Every draw lies in its requested range, as `arc4random_uniform` guarantees. -/
def InRange (rnd : RandomSource) : Prop := ∀ k upper, 0 < upper → rnd k upper < upper

/-- How a run ends: the exit code, what was written to the two streams and
how many times `randint` was called. -/
structure Outcome where
  code : Nat
  stdout : List Char
  stderr : List Char
  draws : Nat
deriving DecidableEq, Repr

/-- The text `printf(Usage, MIN_NORMAL, MAX_NORMAL, strlen(Qwerty), MIN_EASY,
MAX_EASY, DLN_NORMAL)` prints. -/
def usageText : List Char :=
  ("usage: credgen [options] [ len | min max ]\n" ++
   "    Pseudorandomly generate password credentials. By default, a credential of\n" ++
   "    20 to 30 character length from the 94 character Qwerty keyset is generated.\n" ++
   "Options:\n" ++
   "    -h        Print usage text.\n" ++
   "    -v        Print version string.\n" ++
   "    -[aA1sS]  Choose keyset from a-z, A-Z, 0-9, and lower/upper symbols.\n" ++
   "    -e        Easy mode. Same as \x27-aaaA1 8 12\x27.\n" ++
   "    -w        Generate strings of common words (last word may exceed max).\n" ++
   "    -d[=dlm]  Delimit characters (or words if -w) with spaces (or dlm).\n" ++
   "    -dn=n     Change delimiter frequency from 5 (not if -w).\n" ++
   "    len, min, and max allow changing range of possible password lengths.\n").toList

/-- The `goto bad` exit after a message on standard error. -/
def bad (msg : String) : Outcome :=
  { code := 1, stdout := [], stderr := msg.toList, draws := 0 }

/-- C `isspace` in the "C" locale. -/
def isspace (c : Char) : Bool :=
  c == Char.ofNat 32 || (9 ≤ c.toNat && c.toNat ≤ 13)

/-- C `isdigit`. -/
def isdigit (c : Char) : Bool := 48 ≤ c.toNat && c.toNat ≤ 57

/-- The value of a run of decimal digits. -/
def digitsValue (ds : List Char) : Nat :=
  ds.foldl (fun acc c => 10 * acc + (c.toNat - 48)) 0

/-- C `atoi`: optional white space, an optional sign, then decimal digits.  A
value outside `int` is undefined in C; as in glibc it is taken to be
`(int) strtol(s, NULL, 10)`, the `long` result saturated and then cut to 32 bits. -/
def atoi (s : List Char) : Int :=
  let t := (cstr s).dropWhile isspace
  let neg := t.head? == some '-'
  let u := if t.head? == some '-' || t.head? == some '+' then t.drop 1 else t
  let n : Int := digitsValue (u.takeWhile isdigit)
  toInt32 (if neg then max (-n) (-9223372036854775808) else min n 9223372036854775807)

/-- The variables of `main` that the argument loop updates. -/
structure State where
  ks : KeysetState
  minpl : Int
  maxpl : Int
  dln : Int
  min_default : Int
  max_default : Int
  wordspace : Nat
  dlm : Option (List Char)
deriving DecidableEq, Repr

/-- The variables of `main` at their initialisers, after the `memset`. -/
def State.init : State :=
  { ks := KeysetState.init, minpl := 0, maxpl := 0, dln := 0,
    min_default := MIN_NORMAL, max_default := MAX_NORMAL, wordspace := 0, dlm := none }

/-- The exit of `acquire` on a full buffer. -/
def excessive : Outcome := bad "excessive argument\n"

/-- One call of `acquire` inside `main`. -/
def acquireOr (at_ len : Nat) (ks : KeysetState) : Except Outcome KeysetState :=
  match acquire at_ len ks with
  | none => .error excessive
  | some ks1 => .ok ks1

/-- The message for an argument that is not understood. -/
def unrecognized (arg : List Char) : Outcome :=
  { code := 1, stdout := [],
    stderr := "unrecognized argument \x27".toList ++ cstr arg ++ "\x27\n".toList, draws := 0 }

/-- The `for` loop over the letters of a `-[aA1sS]` argument: `rest` is the
argument from index `ix` on. -/
def acquireClasses (arg : List Char) : List Char → KeysetState → Except Outcome KeysetState
  | [], ks => .ok ks
  | c :: rest, ks =>
    if c = NUL then .ok ks
    else if c = 'a' then (acquireOr 0 26 ks).bind (acquireClasses arg rest)
    else if c = 'A' then (acquireOr 26 26 ks).bind (acquireClasses arg rest)
    else if c = '1' then (acquireOr 52 10 ks).bind (acquireClasses arg rest)
    else if c = 's' then (acquireOr 62 11 ks).bind (acquireClasses arg rest)
    else if c = 'S' then (acquireOr 73 21 ks).bind (acquireClasses arg rest)
    else .error (unrecognized arg)

/-- The five calls of `acquire` made for `-e`. -/
def acquireEasy (ks : KeysetState) : Except Outcome KeysetState :=
  (acquireOr 0 26 ks).bind fun k1 =>
  (acquireOr 0 26 k1).bind fun k2 =>
  (acquireOr 0 26 k2).bind fun k3 =>
  (acquireOr 26 26 k3).bind fun k4 =>
  acquireOr 52 10 k4

/-- One round of the argument loop of `main` on `argv[1] = arg`; an error is
a run that ends here. -/
def processArg (b : Build) (s : State) (arg : List Char) : Except Outcome State :=
  if cstr arg = ['-', 'h'] then
    .error { code := 0, stdout := usageText, stderr := [], draws := 0 }
  else if cstr arg = ['-', 'v'] then
    .error { code := 0, stdout := cstr b.BUILD_DATE ++ ['\n'], stderr := [], draws := 0 }
  else if cstr arg = ['-', 'w'] then
    .ok { s with wordspace := (nthword b.credgen_words_txt UINT_MAX).2 }
  else if cstr arg = ['-', 'e'] then
    (acquireEasy s.ks).map fun ks1 =>
      { s with min_default := MIN_EASY, max_default := MAX_EASY, ks := ks1 }
  else if arg.getD 0 NUL = '-' then
    if arg.getD 1 NUL = 'd' then
      if arg.getD 2 NUL = 'n' then
        if arg.getD 3 NUL ≠ '=' then .error (bad "bad argument to -dn\n")
        else if atoi (arg.drop 4) < 1 then .error (bad "bad argument to -dn\n")
        else .ok { s with dln := atoi (arg.drop 4) }
      else
        let dlm := if arg.getD 2 NUL = '=' then arg.drop 3 else DLM_NORMAL
        if strlen dlm < 1 then .error (bad "bad argument to -d\n")
        else .ok { s with dlm := some dlm }
    else
      if arg.getD 1 NUL = NUL then .error (unrecognized arg)
      else (acquireClasses arg (arg.drop 1) s.ks).map fun ks1 => { s with ks := ks1 }
  else if s.minpl = 0 then
    if atoi arg ≤ 0 then .error (bad "bad min argument\n")
    else .ok { s with minpl := atoi arg }
  else if s.maxpl = 0 then
    if atoi arg ≤ 0 ∨ atoi arg < s.minpl then .error (bad "bad max argument\n")
    else .ok { s with maxpl := atoi arg }
  else .error (bad "too many arguments\n")

/-- The argument loop `while(argc >= 2)` over `argv[1..]`. -/
def processArgs (b : Build) : State → List (List Char) → Except Outcome State
  | s, [] => .ok s
  | s, arg :: rest =>
    match processArg b s arg with
    | .error o => .error o
    | .ok s1 => processArgs b s1 rest

/-- The configuration the generation part of `main` works with, after the
defaults have been filled in. -/
structure Config where
  Keyset : List Char
  pickSize : Nat
  dlm : Option (List Char)
  dln : Int
  minpl : Int
  maxpl : Int
deriving DecidableEq, Repr

/-- The test "Prohibit specification of keyset or -dn with -w". -/
def incompatible (s : State) : Bool :=
  s.wordspace != 0 && (deref s.ks.Keyset != NUL || decide (s.dln > 0))

/-- The buffer after "Set defaults if unspecified": the `strncpy` of `Qwerty`
when nothing was requested, then the terminator in the last slot. -/
def defaultKeyset (s : State) : List Char :=
  (if s.wordspace = 0 ∧ deref s.ks.Keyset = NUL
    then writeAt s.ks.Keyset 0 (strncpyBytes Qwerty KEYSET_SIZE)
    else s.ks.Keyset).set (KEYSET_SIZE - 1) NUL

/-- The block "Set defaults if unspecified" of `main`. -/
def setDefaults (s : State) : Config :=
  { Keyset := defaultKeyset s
    pickSize := if deref (defaultKeyset s) ≠ NUL then strlen (defaultKeyset s) else s.wordspace
    dlm := s.dlm
    dln := if s.dlm.isSome ∧ s.dln = 0 then DLN_NORMAL else s.dln
    minpl := if s.minpl = 0 then s.min_default else s.minpl
    maxpl := if s.maxpl = 0 then (if s.minpl = 0 then s.max_default else s.minpl) else s.maxpl }

/-- The statement `pass_len = minpl + randint(maxpl + 1 - minpl)`: the `int`
expression `maxpl + 1 - minpl` is passed as a `uint32_t`, the sum is formed in
`uint32_t` and stored in an `int`.  The draw is call number 0. -/
def chooseLength (rnd : RandomSource) (c : Config) : Int :=
  toInt32 (((toUInt32 c.minpl + rnd 0 (toUInt32 (toInt32 (toInt32 (c.maxpl + 1) - c.minpl))))
    % 4294967296 : Nat) : Int)

/-- The exit through `internal_error`, with what had been printed so far. -/
def internalError (out : List Char) (draws : Nat) : Outcome :=
  { code := 2, stdout := out, stderr := "internal error\n".toList, draws := draws }

/-- The delimiter argument of the character-mode `printf`:
`(dlm && pd && (pd%dln)==0) ? dlm : ""`. -/
def charDelim (c : Config) (pd : Int) : List Char :=
  match c.dlm with
  | none => []
  | some d => if pd ≠ 0 ∧ Int.tmod pd c.dln = 0 then cstr d else []

/-- The delimiter argument of the word-mode `printf`: `(dlm && pd) ? dlm : ""`. -/
def wordDelim (c : Config) (pd : Int) : List Char :=
  match c.dlm with
  | none => []
  | some d => if pd ≠ 0 then cstr d else []

/-- The generation loop `for(int pd = 0; pd < pass_len; )` and what follows
it.  `k` is the number of `randint` calls made so far, `out` what has been
printed.  `pd += strlen(tmp)` adds in `size_t` and stores into an `int`, hence
the wrap.  `none` means the fuel ran out before the loop ended. -/
def genLoop (b : Build) (rnd : RandomSource) (c : Config) (pass_len : Int) :
    Nat → Int → Nat → List Char → Option Outcome
  | 0, _, _, _ => none
  | fuel + 1, pd, k, out =>
    if pd < pass_len then
      if deref c.Keyset ≠ NUL then
        genLoop b rnd c pass_len fuel (pd + 1) (k + 1)
          (out ++ charDelim c pd ++ [c.Keyset.getD (rnd k c.pickSize) NUL])
      else
        match (nthword b.credgen_words_txt (rnd k c.pickSize)).1 with
        | none => some (internalError out (k + 1))
        | some tmp =>
          genLoop b rnd c pass_len fuel (toInt32 (pd + (strlen tmp : Int))) (k + 1)
            (out ++ wordDelim c pd ++ cstr tmp)
    else some { code := 0, stdout := out ++ ['\n'], stderr := [], draws := k }

/-- The part of `main` after the argument loop. -/
def generate (b : Build) (rnd : RandomSource) (fuel : Nat) (s : State) : Option Outcome :=
  if incompatible s then some (bad "incompatible with -w\n")
  else if (setDefaults s).minpl > (setDefaults s).maxpl then some (internalError [] 0)
  else genLoop b rnd (setDefaults s) (chooseLength rnd (setDefaults s)) fuel 0 1 []

/-- C `main` on the arguments `argv[1..]`; `none` means the generation loop
did not end within `fuel` rounds. -/
def main (b : Build) (rnd : RandomSource) (fuel : Nat) (args : List (List Char)) :
    Option Outcome :=
  match processArgs b State.init args with
  | .error o => some o
  | .ok s => generate b rnd fuel s

/-! ## Vocabulary of the statements -/

/-- The part of the master alphabet a class `(at, len)` designates. -/
def slice (at_ len : Nat) : List Char := (Qwerty.drop at_).take len

/-- The letters a-z. -/
def lowercase : List Char := (List.range 26).map fun i => Char.ofNat (97 + i)

/-- The letters A-Z. -/
def uppercase : List Char := (List.range 26).map fun i => Char.ofNat (65 + i)

/-- The digits 0-9. -/
def digits : List Char := (List.range 10).map fun i => Char.ofNat (48 + i)

/-- The alphabet the usage text promises for `-e`. -/
def easyKeyset : List Char := lowercase ++ lowercase ++ lowercase ++ uppercase ++ digits

/-- The buffer state in which exactly `content` has been appended to the
zeroed buffer. -/
def KeysetState.ofContent (content : List Char) : KeysetState :=
  { Keyset := content ++ List.replicate (KEYSET_SIZE - content.length) NUL,
    dst := content.length }

/-- The buffer holds `content`, taken from the master alphabet, and leaves the
last slot free. -/
def Holds (ks : KeysetState) (content : List Char) : Prop :=
  ks = KeysetState.ofContent content ∧ content.length ≤ KEYSET_SIZE - 1 ∧
    ∀ c ∈ content, c ∈ Qwerty

/-- The slice a class letter stands for (nothing for any other letter). -/
def classSlice (c : Char) : List Char :=
  if c = 'a' then slice 0 26
  else if c = 'A' then slice 26 26
  else if c = '1' then slice 52 10
  else if c = 's' then slice 62 11
  else if c = 'S' then slice 73 21
  else []

/-- The characters one argument asks to be appended to the Keyset. -/
def requestedBy (arg : List Char) : List Char :=
  if cstr arg = ['-', 'e'] then easyKeyset
  else if arg.getD 0 NUL = '-' ∧ arg.getD 1 NUL ≠ 'd' then (cstr (arg.drop 1)).flatMap classSlice
  else []

/-- The characters an argument list asks for, in argument order. -/
def requested (args : List (List Char)) : List Char := args.flatMap requestedBy

/-- A dictionary blob: each record followed by its terminator. -/
def encodeWords (ws : List (List Char)) : List Char := ws.flatMap fun w => w ++ [NUL]

/-- A well-formed list of records: every record is non-empty and free of
terminators. -/
def WellFormed (ws : List (List Char)) : Prop := ∀ w ∈ ws, w ≠ [] ∧ ∀ c ∈ w, c ≠ NUL

/-- What the argument loop maintains: the buffer holds `content`, the lengths
and the frequency are non-negative `int` values, a maximum is only set after a
minimum and is not below it, a delimiter is never empty, and the default
range is one of the two presets. -/
structure StateInv (s : State) (content : List Char) : Prop where
  holds : Holds s.ks content
  minpl_nonneg : 0 ≤ s.minpl
  minpl_le : s.minpl ≤ INT_MAX
  maxpl_nonneg : 0 ≤ s.maxpl
  maxpl_le : s.maxpl ≤ INT_MAX
  max_after_min : s.maxpl ≠ 0 → 1 ≤ s.minpl ∧ s.minpl ≤ s.maxpl
  dln_nonneg : 0 ≤ s.dln
  dln_le : s.dln ≤ INT_MAX
  dlm_nonempty : ∀ d, s.dlm = some d → 1 ≤ strlen d
  defaults : (s.min_default = MIN_NORMAL ∧ s.max_default = MAX_NORMAL) ∨
    (s.min_default = MIN_EASY ∧ s.max_default = MAX_EASY)
  wordspace_le : s.wordspace ≤ UINT_MAX

/-- The characters the Keyset holds when generation starts: what was
requested, or the whole master alphabet when nothing was requested and no
dictionary is in use. -/
def effectiveContent (content : List Char) (wordspace : Nat) : List Char :=
  if content = [] ∧ wordspace = 0 then Qwerty else content

/-- What round `i` of the character-mode loop prints: position `i`, draw
number `i + 1` (draw 0 chose the length). -/
def charPiece (rnd : RandomSource) (c : Config) (i : Nat) : List Char :=
  charDelim c (i : Int) ++ [c.Keyset.getD (rnd (i + 1) c.pickSize) NUL]

/-- The character the character-mode loop emits in round `i`. -/
def charAt (rnd : RandomSource) (c : Config) (i : Nat) : Char :=
  c.Keyset.getD (rnd (i + 1) c.pickSize) NUL

/-! ## Concrete inputs used to exercise the theorems -/

/-- A build with a three-record dictionary. -/
def demoBuild : Build :=
  { credgen_words_txt := "cat\x00dog\x00elephant\x00\x00".toList,
    BUILD_DATE := "2025-01-01".toList }

/-- A random source whose draws are always in range. -/
def demoRnd : RandomSource := fun k upper => (7 * k + 3) % upper

/-- The arguments `-a -d=-- -dn=3 7 9`. -/
def demoCharArgs : List (List Char) :=
  ["-a".toList, "-d=--".toList, "-dn=3".toList, "7".toList, "9".toList]

/-- The state the argument loop reaches on `demoCharArgs`. -/
def demoCharState : State :=
  { State.init with
    ks := KeysetState.ofContent (slice 0 26), minpl := 7, maxpl := 9, dln := 3,
    dlm := some ['-', '-'] }

/-- The state the argument loop reaches on the single argument `-e`. -/
def easyState : State :=
  { State.init with
    min_default := MIN_EASY, max_default := MAX_EASY, ks := KeysetState.ofContent easyKeyset }

/-- The buffer after 39 requests of the lowercase class: 1014 characters. -/
def lowercase39 : KeysetState :=
  KeysetState.ofContent (List.replicate 39 (slice 0 26)).flatten

/-- The arguments `-a 10`. -/
def lowerTenArgs : List (List Char) := [['-', 'a'], ['1', '0']]

/-- The state the argument loop reaches on `-a 10`. -/
def lowerTenState : State :=
  { State.init with ks := KeysetState.ofContent (slice 0 26), minpl := 10 }

/-- An argument that is not an option: a length. -/
def isLengthArg (arg : List Char) : Bool := arg.getD 0 NUL != '-'

/-- An argument of the `-d...` family: delimiter or delimiter frequency. -/
def isDelimArg (arg : List Char) : Bool := arg.getD 0 NUL == '-' && arg.getD 1 NUL == 'd'

/-- The arguments `-d 15`. -/
def plainArgs : List (List Char) := [['-', 'd'], ['1', '5']]

/-- The state the argument loop reaches on `-d 15`. -/
def plainState : State := { State.init with dlm := some DLM_NORMAL, minpl := 15 }

/-- The records of the dictionary of `demoBuild`. -/
def demoWords : List (List Char) := ["cat".toList, "dog".toList, "elephant".toList]

/-- The text printed between words: the delimiter string, or nothing. -/
def delimText (c : Config) : List Char :=
  match c.dlm with
  | none => []
  | some d => cstr d

/-- The word the `k`-th call of `randint` selects from the dictionary. -/
def drawnWord (b : Build) (rnd : RandomSource) (c : Config) (k : Nat) : List Char :=
  match (nthword b.credgen_words_txt (rnd k c.pickSize)).1 with
  | some p => cstr p
  | none => []

/-- What the word-mode loop prints for the words `words` when it starts at
position `pd`: the first word after the delimiter due at `pd`, every later
word after the delimiter. -/
def wordsOut (c : Config) (pd : Int) : List (List Char) → List Char
  | [] => []
  | w :: t => wordDelim c pd ++ w ++ t.flatMap (fun x => delimText c ++ x)

/-- A build whose dictionary holds the records "ab" and "a". -/
def abaBuild : Build := { credgen_words_txt := "ab\x00a\x00\x00".toList, BUILD_DATE := [] }

/-- The arguments `-w 2147483647`. -/
def overflowArgs : List (List Char) := [['-', 'w'], "2147483647".toList]

/-- The state the argument loop reaches on `-w 2147483647` with `abaBuild`. -/
def overflowState : State := { State.init with wordspace := 2, minpl := 2147483647 }

/-- Draws that select "a" at call 1073741825 and "ab" at every other call. -/
def overflowRnd : RandomSource := fun k upper => if k = 1073741825 then 1 % upper else 0

/-- What the run of `overflowArgs` with `overflowRnd` prints before the
newline: 1073741824 times "ab", once "a", 2147483647 times "ab". -/
def overflowOutput : List Char :=
  ['a', 'b'] ++ (List.replicate 1073741822 ['a', 'b']).flatten ++ ['a', 'b'] ++ ['a'] ++
    (List.replicate 2147483647 ['a', 'b']).flatten

/-- The records of the dictionary of `abaBuild`. -/
def abaWords : List (List Char) := [['a', 'b'], ['a']]

/-- The arguments `-w -d 2147483647`. -/
def delimOverflowArgs : List (List Char) := [['-', 'w'], ['-', 'd'], "2147483647".toList]

/-- The state the argument loop reaches on `-w -d 2147483647` with `abaBuild`. -/
def delimOverflowState : State :=
  { State.init with wordspace := 2, minpl := 2147483647, dlm := some DLM_NORMAL }

/-- Draws that select "a" at call 3221225472 and "ab" at every other call. -/
def delimOverflowRnd : RandomSource := fun k upper => if k = 3221225472 then 1 % upper else 0

/-- The words the run of `delimOverflowArgs` with `delimOverflowRnd` draws:
3221225471 times "ab", then "a". -/
def delimOverflowWords : List (List Char) :=
  ['a', 'b'] :: (List.replicate 3221225470 ['a', 'b'] ++ [['a']])

/-- What that run prints before the newline.  The fifth segment is the word
drawn when the position has come back to 0: it follows its predecessor with
no delimiter in between. -/
def delimOverflowOutput : List Char :=
  ['a', 'b'] ++ (List.replicate 1073741822 ([' '] ++ ['a', 'b'])).flatten ++
    ([' '] ++ ['a', 'b']) ++ (List.replicate 1073741824 ([' '] ++ ['a', 'b'])).flatten ++
    ['a', 'b'] ++ (List.replicate 1073741822 ([' '] ++ ['a', 'b'])).flatten ++
    ([' '] ++ ['a'])

/-- The arguments `-w -d 12`. -/
def demoWordArgs : List (List Char) := [['-', 'w'], ['-', 'd'], ['1', '2']]

/-- The state the argument loop reaches on `-w -d 12` with `demoBuild`. -/
def demoWordState : State :=
  { State.init with wordspace := 3, minpl := 12, dlm := some DLM_NORMAL }

/-- The arguments `-a -d=<newline> -dn=2 5`. -/
def newlineArgs : List (List Char) :=
  [['-', 'a'], ['-', 'd', '=', '\n'], ['-', 'd', 'n', '=', '2'], ['5']]

/-- The upper bound passed to `randint` for the length: the `int` expression
`maxpl + 1 - minpl` converted to `uint32_t`. -/
def lengthRange (c : Config) : Nat := toUInt32 (toInt32 (toInt32 (c.maxpl + 1) - c.minpl))

/-- The length stored in `pass_len` when the draw is `r`: `minpl + r` formed
in `uint32_t` and converted to `int`. -/
def lengthOf (c : Config) (r : Nat) : Int :=
  toInt32 (((toUInt32 c.minpl + r) % 4294967296 : Nat) : Int)

/-- An argument of the form `-dn...`. -/
def isFreqArg (arg : List Char) : Bool :=
  arg.getD 0 NUL == '-' && arg.getD 1 NUL == 'd' && arg.getD 2 NUL == 'n'

/-- An argument of the form `-d...` that is not `-dn...`: a delimiter. -/
def isDelimSpecArg (arg : List Char) : Bool :=
  arg.getD 0 NUL == '-' && arg.getD 1 NUL == 'd' && arg.getD 2 NUL != 'n'

/-- An argument whose first flag letter is one of the class letters. -/
def isClassArg (arg : List Char) : Bool :=
  arg.getD 0 NUL == '-' && ['a', 'A', '1', 's', 'S'].contains (arg.getD 1 NUL)

/-- The arguments `-a -dn=3 4`. -/
def freqOnlyArgs : List (List Char) := [['-', 'a'], ['-', 'd', 'n', '=', '3'], ['4']]

/-- The state the argument loop reaches on `-a -dn=3 4`. -/
def freqOnlyState : State :=
  { State.init with ks := KeysetState.ofContent (slice 0 26), dln := 3, minpl := 4 }

/-- The single argument `-` followed by forty letters `a`. -/
def fortyArgs : List (List Char) := [ '-' :: List.replicate 40 'a' ]

/-- The arguments `-w -a`. -/
def wordClassArgs : List (List Char) := [['-', 'w'], ['-', 'a']]

/-- A random source that always returns 0. -/
def zeroRnd : RandomSource := fun _ _ => 0

/-- The documented expansion of `-e`: the arguments `-aaaA1 8 12`. -/
def easyExpansion : List (List Char) := [['-', 'a', 'a', 'a', 'A', '1'], ['8'], ['1', '2']]

/-- The state the argument loop reaches on `-aaaA1 8 12`. -/
def easyExpandedState : State :=
  { State.init with
    minpl := MIN_EASY, maxpl := MAX_EASY, ks := KeysetState.ofContent easyKeyset }

/-- The relation between the state `s` of a run that began with `-e` and the
state `t` of a run that began with `-aaaA1 8 12`, as long as only options
follow: same buffer, delimiter, frequency and word space; `s` has no explicit
length and the easy defaults, `t` has the explicit lengths 8 and 12. -/
def EasyRel (s t : State) : Prop :=
  s.ks = t.ks ∧ s.dln = t.dln ∧ s.wordspace = t.wordspace ∧ s.dlm = t.dlm ∧
  s.minpl = 0 ∧ s.maxpl = 0 ∧ s.min_default = MIN_EASY ∧ s.max_default = MAX_EASY ∧
  t.minpl = MIN_EASY ∧ t.maxpl = MAX_EASY

/-- The options `-d -S`. -/
def delimSymbolOpts : List (List Char) := [['-', 'd'], ['-', 'S']]

end Credgen

namespace Credgen

/-! ## Machine integers, strings and the buffer -/

theorem toInt32_of_range (z : Int) (h1 : -2147483648 ≤ z) (h2 : z ≤ 2147483647) :
    toInt32 z = z := by
  unfold toInt32; omega

theorem toInt32_range (z : Int) : -2147483648 ≤ toInt32 z ∧ toInt32 z ≤ 2147483647 := by
  unfold toInt32; omega

theorem Qwerty_no_NUL : ∀ c ∈ Qwerty, c ≠ NUL := by decide

theorem Qwerty_length : Qwerty.length = 94 := by decide

theorem cstr_eq_self {l : List Char} (h : ∀ c ∈ l, c ≠ NUL) : cstr l = l := by
  unfold cstr
  rw [List.takeWhile_eq_self_iff]
  intro c hc
  simpa using h c hc

theorem cstr_append_NUL {l : List Char} (h : ∀ c ∈ l, c ≠ NUL) (r : List Char) :
    cstr (l ++ NUL :: r) = l := by
  unfold cstr
  induction l with
  | nil => simp
  | cons a t ih =>
    have ha : a ≠ NUL := h a (List.mem_cons_self _ _)
    have ht : ∀ c ∈ t, c ≠ NUL := fun c hc => h c (List.mem_cons_of_mem _ hc)
    simp [List.takeWhile_cons, ha, ih ht]

theorem strchr0_append_NUL {l : List Char} (h : ∀ c ∈ l, c ≠ NUL) (r : List Char) :
    strchr0 (l ++ NUL :: r) = NUL :: r := by
  unfold strchr0
  induction l with
  | nil => simp
  | cons a t ih =>
    have ha : a ≠ NUL := h a (List.mem_cons_self _ _)
    have ht : ∀ c ∈ t, c ≠ NUL := fun c hc => h c (List.mem_cons_of_mem _ hc)
    simp [List.dropWhile_cons, ha, ih ht]

theorem slice_length (at_ len : Nat) (h : at_ + len ≤ 94) : (slice at_ len).length = len := by
  unfold slice
  rw [List.length_take, List.length_drop, Qwerty_length]; omega

theorem slice_mem_Qwerty (at_ len : Nat) : ∀ c ∈ slice at_ len, c ∈ Qwerty := by
  intro c hc
  exact List.mem_of_mem_drop (List.mem_of_mem_take hc)

theorem strncpyBytes_Qwerty (at_ len : Nat) (h : at_ + len ≤ 94) :
    strncpyBytes (Qwerty.drop at_) len = slice at_ len := by
  have hc : cstr (Qwerty.drop at_) = Qwerty.drop at_ :=
    cstr_eq_self (fun c hc => Qwerty_no_NUL c (List.mem_of_mem_drop hc))
  have hs := slice_length at_ len h
  unfold slice at hs
  unfold strncpyBytes slice
  rw [hc, hs]; simp

theorem writeAt_length (buf : List Char) (u : Nat) (bytes : List Char)
    (h : u + bytes.length ≤ buf.length) : (writeAt buf u bytes).length = buf.length := by
  simp only [writeAt, List.length_append, List.length_take, List.length_drop]
  omega

theorem writeAt_take (buf : List Char) (u : Nat) (bytes : List Char)
    (h : u + bytes.length ≤ buf.length) : (writeAt buf u bytes).take u = buf.take u := by
  have ht : (buf.take u).length = u := by rw [List.length_take]; omega
  rw [writeAt, List.append_assoc, List.take_left' ht]

theorem writeAt_drop (buf : List Char) (u : Nat) (bytes : List Char)
    (h : u + bytes.length ≤ buf.length) :
    (writeAt buf u bytes).drop u = bytes ++ buf.drop (u + bytes.length) := by
  have ht : (buf.take u).length = u := by rw [List.length_take]; omega
  rw [writeAt, List.append_assoc, List.drop_left' ht]

theorem writeAt_drop_end (buf : List Char) (u : Nat) (bytes : List Char)
    (h : u + bytes.length ≤ buf.length) :
    (writeAt buf u bytes).drop (u + bytes.length) = buf.drop (u + bytes.length) := by
  rw [← List.drop_drop, writeAt_drop buf u bytes h, List.drop_left]

/-! ## The buffer invariant -/

theorem ofContent_cstr {content : List Char} (hlen : content.length ≤ KEYSET_SIZE - 1)
    (hq : ∀ c ∈ content, c ∈ Qwerty) :
    cstr (KeysetState.ofContent content).Keyset = content := by
  have h1 : KEYSET_SIZE - content.length = (KEYSET_SIZE - content.length - 1) + 1 := by
    simp only [KEYSET_SIZE] at *; omega
  show cstr (content ++ List.replicate (KEYSET_SIZE - content.length) NUL) = content
  rw [h1, List.replicate_succ]
  exact cstr_append_NUL (fun c hc => Qwerty_no_NUL c (hq c hc)) _

theorem Holds_init : Holds KeysetState.init [] := by
  refine ⟨rfl, by simp [KEYSET_SIZE], by simp⟩

/-- In terms of the appended content: `acquire` refuses exactly when the
content would grow beyond 1023 characters, and otherwise appends the slice. -/
theorem acquire_Holds {ks : KeysetState} {content : List Char} (h : Holds ks content)
    (at_ len : Nat) (hcls : at_ + len ≤ 94) :
    acquire at_ len ks =
      if KEYSET_SIZE - 1 < content.length + len then none
      else some (KeysetState.ofContent (content ++ slice at_ len)) := by
  obtain ⟨rfl, hlen, hq⟩ := h
  have hs := slice_length at_ len hcls
  unfold acquire
  rw [strncpyBytes_Qwerty at_ len hcls]
  simp only [KEYSET_SIZE, KeysetState.ofContent] at *
  by_cases hc : 1024 - 1 < content.length + len
  · rw [if_pos hc, if_pos (by omega)]
  · rw [if_neg hc, if_neg (by omega)]
    simp only [Option.some.injEq, KeysetState.mk.injEq, List.length_append, hs, and_true]
    rw [writeAt, List.take_left, hs, ← List.drop_drop, List.drop_left,
      List.drop_replicate]
    congr 2
    omega

theorem Holds_acquire {ks ks1 : KeysetState} {content : List Char} (h : Holds ks content)
    (at_ len : Nat) (hcls : at_ + len ≤ 94) (hok : acquire at_ len ks = some ks1) :
    Holds ks1 (content ++ slice at_ len) := by
  rw [acquire_Holds h at_ len hcls] at hok
  have hs := slice_length at_ len hcls
  by_cases hc : KEYSET_SIZE - 1 < content.length + len
  · rw [if_pos hc] at hok; simp at hok
  · rw [if_neg hc] at hok
    simp only [Option.some.injEq] at hok
    refine ⟨hok.symm, ?_, ?_⟩
    · rw [List.length_append, hs]; omega
    · intro c hc
      rcases List.mem_append.mp hc with h1 | h1
      · exact h.2.2 c h1
      · exact slice_mem_Qwerty _ _ c h1

theorem Holds_acquireOr {ks ks1 : KeysetState} {content : List Char} (h : Holds ks content)
    (at_ len : Nat) (hcls : at_ + len ≤ 94) (hok : acquireOr at_ len ks = .ok ks1) :
    Holds ks1 (content ++ slice at_ len) := by
  unfold acquireOr at hok
  cases ha : acquire at_ len ks with
  | none => rw [ha] at hok; simp at hok
  | some k =>
    rw [ha] at hok
    simp only [Except.ok.injEq] at hok
    subst hok
    exact Holds_acquire h at_ len hcls ha

end Credgen

namespace Credgen

/-! ## The argument loop -/

theorem Except_bind_ok {ε α β : Type} {x : Except ε α} {f : α → Except ε β} {y : β}
    (h : x.bind f = .ok y) : ∃ a, x = .ok a ∧ f a = .ok y := by
  cases x with
  | error e => simp [Except.bind] at h
  | ok a => exact ⟨a, rfl, h⟩

theorem Except_map_ok {ε α β : Type} {x : Except ε α} {f : α → β} {y : β}
    (h : x.map f = .ok y) : ∃ a, x = .ok a ∧ f a = y := by
  cases x with
  | error e => simp [Except.map] at h
  | ok a => exact ⟨a, rfl, by simpa [Except.map] using h⟩

theorem cstr_cons_of_ne {c : Char} (hc : c ≠ NUL) (rest : List Char) :
    cstr (c :: rest) = c :: cstr rest := by
  simp [cstr, List.takeWhile_cons, hc]

theorem cstr_cons_NUL (rest : List Char) : cstr (NUL :: rest) = [] := by
  simp [cstr, List.takeWhile_cons]

theorem Holds_acquireClasses (arg : List Char) :
    ∀ (flags : List Char) (ks ks1 : KeysetState) (content : List Char), Holds ks content →
      acquireClasses arg flags ks = .ok ks1 →
      Holds ks1 (content ++ (cstr flags).flatMap classSlice) := by
  intro flags
  induction flags with
  | nil =>
    intro ks ks1 content h hok
    simp only [acquireClasses, Except.ok.injEq] at hok
    subst hok
    simpa [cstr] using h
  | cons c rest ih =>
    intro ks ks1 content h hok
    by_cases h0 : c = NUL
    · subst h0
      simp only [acquireClasses, if_true, Except.ok.injEq] at hok
      subst hok
      simpa [cstr_cons_NUL] using h
    · rw [cstr_cons_of_ne h0, List.flatMap_cons, ← List.append_assoc]
      rw [acquireClasses, if_neg h0] at hok
      by_cases h1 : c = 'a'
      · rw [if_pos h1] at hok
        obtain ⟨k, hk, hr⟩ := Except_bind_ok hok
        have := ih k ks1 _ (Holds_acquireOr h 0 26 (by decide) hk) hr
        simpa [classSlice, h1] using this
      rw [if_neg h1] at hok
      by_cases h2 : c = 'A'
      · rw [if_pos h2] at hok
        obtain ⟨k, hk, hr⟩ := Except_bind_ok hok
        have := ih k ks1 _ (Holds_acquireOr h 26 26 (by decide) hk) hr
        simpa [classSlice, h2] using this
      rw [if_neg h2] at hok
      by_cases h3 : c = '1'
      · rw [if_pos h3] at hok
        obtain ⟨k, hk, hr⟩ := Except_bind_ok hok
        have := ih k ks1 _ (Holds_acquireOr h 52 10 (by decide) hk) hr
        simpa [classSlice, h3] using this
      rw [if_neg h3] at hok
      by_cases h4 : c = 's'
      · rw [if_pos h4] at hok
        obtain ⟨k, hk, hr⟩ := Except_bind_ok hok
        have := ih k ks1 _ (Holds_acquireOr h 62 11 (by decide) hk) hr
        simpa [classSlice, h4] using this
      rw [if_neg h4] at hok
      by_cases h5 : c = 'S'
      · rw [if_pos h5] at hok
        obtain ⟨k, hk, hr⟩ := Except_bind_ok hok
        have := ih k ks1 _ (Holds_acquireOr h 73 21 (by decide) hk) hr
        simpa [classSlice, h5] using this
      rw [if_neg h5] at hok
      simp at hok

theorem easyKeyset_eq : easyKeyset = slice 0 26 ++ slice 0 26 ++ slice 0 26 ++ slice 26 26 ++ slice 52 10 := by
  decide

theorem Holds_acquireEasy {ks ks1 : KeysetState} {content : List Char} (h : Holds ks content)
    (hok : acquireEasy ks = .ok ks1) : Holds ks1 (content ++ easyKeyset) := by
  unfold acquireEasy at hok
  obtain ⟨k1, hk1, hok⟩ := Except_bind_ok hok
  obtain ⟨k2, hk2, hok⟩ := Except_bind_ok hok
  obtain ⟨k3, hk3, hok⟩ := Except_bind_ok hok
  obtain ⟨k4, hk4, hok⟩ := Except_bind_ok hok
  have h1 := Holds_acquireOr h 0 26 (by decide) hk1
  have h2 := Holds_acquireOr h1 0 26 (by decide) hk2
  have h3 := Holds_acquireOr h2 0 26 (by decide) hk3
  have h4 := Holds_acquireOr h3 26 26 (by decide) hk4
  have h5 := Holds_acquireOr h4 52 10 (by decide) hok
  rw [easyKeyset_eq]
  simpa [List.append_assoc] using h5

theorem nthwordLoop_snd_lt (position : Nat) (hp : position < 4294967296) :
    ∀ (fuel : Nat) (str : List Char) (index : Nat) (r : Option (List Char) × Nat),
      index < 4294967296 → nthwordLoop position fuel str index = some r → r.2 < 4294967296 := by
  intro fuel
  induction fuel with
  | zero => intro str index r _ h; simp [nthwordLoop] at h
  | succ n ih =>
    intro str index r hi h
    rw [nthwordLoop] at h
    split at h
    · simp only [Option.some.injEq] at h; subst h; exact hi
    · split at h
      · simp only [Option.some.injEq] at h; subst h; exact hp
      · exact ih _ _ r (Nat.mod_lt _ (by norm_num)) h

theorem nthword_snd_le (blob : List Char) (position : Nat) (hp : position ≤ UINT_MAX) :
    (nthword blob position).2 ≤ UINT_MAX := by
  unfold UINT_MAX at *
  unfold nthword
  cases h : nthwordLoop position (blob.length + 1) blob 0 with
  | none => simpa using hp
  | some r =>
    have := nthwordLoop_snd_lt position (by omega) _ _ _ r (by norm_num) h
    simp only [Option.getD_some]
    omega

theorem atoi_range (s : List Char) : -2147483648 ≤ atoi s ∧ atoi s ≤ 2147483647 := by
  unfold atoi
  exact toInt32_range _

theorem StateInv_init : StateInv State.init [] := by
  refine ⟨Holds_init, ?_, ?_, ?_, ?_, ?_, ?_, ?_, ?_, ?_, ?_⟩ <;>
    simp [State.init, INT_MAX, UINT_MAX]

theorem cstr_eq_cons {arg : List Char} {c : Char} {rest : List Char}
    (h : cstr arg = c :: rest) : ∃ t, arg = c :: t ∧ cstr t = rest ∧ c ≠ NUL := by
  cases arg with
  | nil => simp [cstr] at h
  | cons a t =>
    by_cases ha : a = NUL
    · subst ha; rw [cstr_cons_NUL] at h; simp at h
    · rw [cstr_cons_of_ne ha] at h
      simp only [List.cons.injEq] at h
      exact ⟨t, by rw [h.1], h.2, h.1 ▸ ha⟩

theorem requestedBy_w {arg : List Char} (h : cstr arg = ['-', 'w']) : requestedBy arg = [] := by
  obtain ⟨t, rfl, ht, _⟩ := cstr_eq_cons h
  obtain ⟨u, rfl, hu, _⟩ := cstr_eq_cons ht
  unfold requestedBy
  rw [if_neg (by rw [h]; decide)]
  split
  · simp only [List.drop_succ_cons, List.drop_zero]
    rw [cstr_cons_of_ne (by decide), hu]
    decide
  · rfl

theorem StateInv_processArg (b : Build) {s s1 : State} {content : List Char} (arg : List Char)
    (h : StateInv s content) (hok : processArg b s arg = .ok s1) :
    StateInv s1 (content ++ requestedBy arg) := by
  unfold processArg at hok
  split at hok
  · simp at hok
  split at hok
  · simp at hok
  split at hok
  · rename_i h1 h2 hw
    simp only [Except.ok.injEq] at hok
    subst hok
    rw [requestedBy_w hw, List.append_nil]
    exact { h with wordspace_le := nthword_snd_le _ _ (le_refl _) }
  rename_i hnh hnv hnw
  split at hok
  · rename_i he
    obtain ⟨k, hk, rfl⟩ := Except_map_ok hok
    have hh := Holds_acquireEasy h.holds hk
    unfold requestedBy
    rw [if_pos he]
    exact { h with holds := hh, defaults := Or.inr ⟨rfl, rfl⟩ }
  rename_i hne
  have hreq : requestedBy arg =
      if arg.getD 0 NUL = '-' ∧ arg.getD 1 NUL ≠ 'd' then (cstr (arg.drop 1)).flatMap classSlice
      else [] := by
    unfold requestedBy; rw [if_neg hne]
  by_cases hdash : arg.getD 0 NUL = '-'
  · rw [if_pos hdash] at hok
    by_cases hd : arg.getD 1 NUL = 'd'
    · rw [if_pos hd] at hok
      rw [hreq, if_neg (fun hx => hx.2 hd), List.append_nil]
      by_cases hn : arg.getD 2 NUL = 'n'
      · rw [if_pos hn] at hok
        by_cases heq : arg.getD 3 NUL ≠ '='
        · rw [if_pos heq] at hok; simp at hok
        rw [if_neg heq] at hok
        by_cases hlt : atoi (arg.drop 4) < 1
        · rw [if_pos hlt] at hok; simp at hok
        rw [if_neg hlt] at hok
        simp only [Except.ok.injEq] at hok
        subst hok
        have hr := atoi_range (arg.drop 4)
        exact { h with dln_nonneg := (by omega : 0 ≤ atoi (arg.drop 4)),
                       dln_le := (by unfold INT_MAX; omega : atoi (arg.drop 4) ≤ INT_MAX) }
      · rw [if_neg hn] at hok
        dsimp only at hok
        generalize (if arg.getD 2 NUL = '=' then arg.drop 3 else DLM_NORMAL) = dlm at hok
        by_cases hlen : strlen dlm < 1
        · rw [if_pos hlen] at hok; simp at hok
        rw [if_neg hlen] at hok
        simp only [Except.ok.injEq] at hok
        subst hok
        have hne2 : ∀ d, some dlm = some d → 1 ≤ strlen d := by
          intro d hd2
          have : dlm = d := by simpa using hd2
          subst this; omega
        exact { h with dlm_nonempty := hne2 }
    · rw [if_neg hd] at hok
      by_cases h1 : arg.getD 1 NUL = NUL
      · rw [if_pos h1] at hok; simp at hok
      rw [if_neg h1] at hok
      obtain ⟨k, hk, rfl⟩ := Except_map_ok hok
      rw [hreq, if_pos ⟨hdash, hd⟩]
      exact { h with holds := Holds_acquireClasses arg _ _ _ _ h.holds hk }
  · rw [if_neg hdash] at hok
    rw [hreq, if_neg (fun hx => hdash hx.1), List.append_nil]
    have hr := atoi_range arg
    by_cases hmin : s.minpl = 0
    · rw [if_pos hmin] at hok
      by_cases hle : atoi arg ≤ 0
      · rw [if_pos hle] at hok; simp at hok
      rw [if_neg hle] at hok
      simp only [Except.ok.injEq] at hok
      subst hok
      have hm : s.maxpl ≠ 0 → 1 ≤ atoi arg ∧ atoi arg ≤ s.maxpl := by
        intro hmx
        have := (h.max_after_min hmx).1
        omega
      exact { h with minpl_nonneg := (by omega : 0 ≤ atoi arg),
                     minpl_le := (by unfold INT_MAX; omega : atoi arg ≤ INT_MAX),
                     max_after_min := hm }
    · rw [if_neg hmin] at hok
      by_cases hmax : s.maxpl = 0
      · rw [if_pos hmax] at hok
        by_cases hle : atoi arg ≤ 0 ∨ atoi arg < s.minpl
        · rw [if_pos hle] at hok; simp at hok
        rw [if_neg hle] at hok
        simp only [Except.ok.injEq] at hok
        subst hok
        have hn := h.minpl_nonneg
        exact { h with maxpl_nonneg := (by omega : 0 ≤ atoi arg),
                       maxpl_le := (by unfold INT_MAX; omega : atoi arg ≤ INT_MAX),
                       max_after_min := fun _ =>
                         (by omega : 1 ≤ s.minpl ∧ s.minpl ≤ atoi arg) }
      · rw [if_neg hmax] at hok; simp at hok

theorem StateInv_processArgs (b : Build) :
    ∀ (args : List (List Char)) (s s1 : State) (content : List Char), StateInv s content →
      processArgs b s args = .ok s1 → StateInv s1 (content ++ requested args) := by
  intro args
  induction args with
  | nil =>
    intro s s1 content h hok
    simp only [processArgs, Except.ok.injEq] at hok
    subst hok
    simpa [requested] using h
  | cons arg rest ih =>
    intro s s1 content h hok
    rw [processArgs] at hok
    cases hp : processArg b s arg with
    | error o => rw [hp] at hok; simp at hok
    | ok s2 =>
      rw [hp] at hok
      have := ih s2 s1 _ (StateInv_processArg b arg h hp) hok
      simpa [requested, List.append_assoc] using this

/-- Every state the argument loop accepts satisfies the invariant, with the
buffer holding what the arguments requested. -/
theorem StateInv_accepted (b : Build) {args : List (List Char)} {s : State}
    (hok : processArgs b State.init args = .ok s) : StateInv s (requested args) := by
  simpa using StateInv_processArgs b args _ _ _ StateInv_init hok

end Credgen

namespace Credgen

/-! ## Defaults and the choice of the length -/

theorem ofContent_length {content : List Char} (hlen : content.length ≤ KEYSET_SIZE - 1) :
    (KeysetState.ofContent content).Keyset.length = KEYSET_SIZE := by
  simp only [KeysetState.ofContent, List.length_append, List.length_replicate, KEYSET_SIZE] at *
  omega

theorem ofContent_deref {content : List Char} (hq : ∀ c ∈ content, c ∈ Qwerty) :
    deref (KeysetState.ofContent content).Keyset = NUL ↔ content = [] := by
  cases content with
  | nil => exact ⟨fun _ => rfl, fun _ => by decide⟩
  | cons a t =>
    have : a ≠ NUL := Qwerty_no_NUL a (hq a (List.mem_cons_self _ _))
    simp [KeysetState.ofContent, deref, this]

theorem ofContent_getD {content : List Char} (i : Nat) (hi : i < content.length) :
    (KeysetState.ofContent content).Keyset.getD i NUL = content.get ⟨i, hi⟩ := by
  simp only [KeysetState.ofContent, List.getD_eq_getElem?_getD]
  rw [List.getElem?_append_left hi, List.getElem?_eq_getElem hi]
  rfl

theorem set_eq_self_of_getElem? {l : List Char} {i : Nat} {a : Char} (h : l[i]? = some a) :
    l.set i a = l := by
  induction l generalizing i with
  | nil => rfl
  | cons x t ih =>
    cases i with
    | zero =>
      simp only [List.getElem?_cons_zero, Option.some.injEq] at h
      simp [h]
    | succ j =>
      simp only [List.getElem?_cons_succ] at h
      simp [ih h]

theorem ofContent_set_last {content : List Char} (hlen : content.length ≤ KEYSET_SIZE - 1) :
    (KeysetState.ofContent content).Keyset.set (KEYSET_SIZE - 1) NUL =
      (KeysetState.ofContent content).Keyset := by
  apply set_eq_self_of_getElem?
  simp only [KeysetState.ofContent]
  rw [List.getElem?_append_right hlen, List.getElem?_replicate, if_pos]
  simp only [KEYSET_SIZE] at *
  omega

theorem strncpyBytes_Qwerty_full :
    strncpyBytes Qwerty KEYSET_SIZE = (KeysetState.ofContent Qwerty).Keyset := by
  unfold strncpyBytes
  rw [cstr_eq_self Qwerty_no_NUL,
    List.take_of_length_le (by rw [Qwerty_length]; simp [KEYSET_SIZE])]
  rfl

theorem defaultKeyset_blank :
    (writeAt (KeysetState.ofContent []).Keyset 0 (strncpyBytes Qwerty KEYSET_SIZE)).set
      (KEYSET_SIZE - 1) NUL = (KeysetState.ofContent Qwerty).Keyset := by
  have hq : Qwerty.length ≤ KEYSET_SIZE - 1 := by rw [Qwerty_length]; simp [KEYSET_SIZE]
  have hl := ofContent_length hq
  have h0 : (KeysetState.ofContent []).Keyset.length = KEYSET_SIZE :=
    ofContent_length (by simp)
  rw [strncpyBytes_Qwerty_full, writeAt, List.take_zero, List.nil_append, Nat.zero_add,
    List.drop_eq_nil_of_le (by rw [h0, hl]), List.append_nil]
  exact ofContent_set_last hq

/-- The buffer the generation loop reads is the zero-padded effective content. -/
theorem defaultKeyset_eq {s : State} {content : List Char} (h : StateInv s content) :
    defaultKeyset s = (KeysetState.ofContent (effectiveContent content s.wordspace)).Keyset := by
  obtain ⟨hks, hlen, hq⟩ := h.holds
  unfold defaultKeyset effectiveContent
  rw [hks]
  simp only [ofContent_deref hq]
  by_cases hw : s.wordspace = 0 ∧ content = []
  · rw [if_pos hw, if_pos ⟨hw.2, hw.1⟩, hw.2]
    exact defaultKeyset_blank
  · rw [if_neg hw, if_neg (fun hx => hw ⟨hx.2, hx.1⟩)]
    exact ofContent_set_last hlen

theorem effectiveContent_props {s : State} {content : List Char} (h : StateInv s content) :
    (effectiveContent content s.wordspace).length ≤ KEYSET_SIZE - 1 ∧
    ∀ c ∈ effectiveContent content s.wordspace, c ∈ Qwerty := by
  unfold effectiveContent
  split
  · exact ⟨by simp [Qwerty_length, KEYSET_SIZE], fun c hc => hc⟩
  · exact ⟨h.holds.2.1, h.holds.2.2⟩

theorem setDefaults_Keyset {s : State} {content : List Char} (h : StateInv s content) :
    (setDefaults s).Keyset =
      (KeysetState.ofContent (effectiveContent content s.wordspace)).Keyset :=
  defaultKeyset_eq h

theorem setDefaults_cstr {s : State} {content : List Char} (h : StateInv s content) :
    cstr (setDefaults s).Keyset = effectiveContent content s.wordspace := by
  rw [setDefaults_Keyset h]
  exact ofContent_cstr (effectiveContent_props h).1 (effectiveContent_props h).2

theorem setDefaults_mode {s : State} {content : List Char} (h : StateInv s content) :
    deref (setDefaults s).Keyset ≠ NUL ↔ effectiveContent content s.wordspace ≠ [] := by
  rw [setDefaults_Keyset h, Ne, ofContent_deref (effectiveContent_props h).2]

theorem setDefaults_pickSize_char {s : State} {content : List Char} (h : StateInv s content)
    (hmode : deref (setDefaults s).Keyset ≠ NUL) :
    (setDefaults s).pickSize = (effectiveContent content s.wordspace).length := by
  have h2 : deref (defaultKeyset s) ≠ NUL := hmode
  show (if deref (defaultKeyset s) ≠ NUL then strlen (defaultKeyset s) else s.wordspace) = _
  rw [if_pos h2]
  show (cstr (setDefaults s).Keyset).length = _
  rw [setDefaults_cstr h]

theorem setDefaults_range {s : State} {content : List Char} (h : StateInv s content) :
    1 ≤ (setDefaults s).minpl ∧ (setDefaults s).minpl ≤ (setDefaults s).maxpl ∧
      (setDefaults s).maxpl ≤ INT_MAX := by
  have h1 := h.minpl_nonneg
  have h2 := h.minpl_le
  have h3 := h.maxpl_nonneg
  have h4 := h.maxpl_le
  have h5 := h.max_after_min
  have h6 := h.defaults
  simp only [setDefaults, INT_MAX, MIN_NORMAL, MAX_NORMAL, MIN_EASY, MAX_EASY] at *
  by_cases hmin : s.minpl = 0
  · have hmax : s.maxpl = 0 := by
      by_contra hne
      have := (h5 hne).1
      omega
    rw [if_pos hmin, if_pos hmax, if_pos hmin]
    omega
  · rw [if_neg hmin]
    by_cases hmax : s.maxpl = 0
    · rw [if_pos hmax, if_neg hmin]; omega
    · rw [if_neg hmax]
      have := h5 hmax
      omega

theorem setDefaults_dln {s : State} {content : List Char} (h : StateInv s content)
    (hd : (setDefaults s).dlm ≠ none) : 1 ≤ (setDefaults s).dln := by
  have h1 := h.dln_nonneg
  have hs : s.dlm.isSome := by
    cases hx : s.dlm with
    | none => exact absurd hx hd
    | some d => rfl
  simp only [setDefaults, DLN_NORMAL]
  by_cases h0 : s.dln = 0
  · rw [if_pos ⟨hs, h0⟩]; norm_num
  · rw [if_neg (fun hx => h0 hx.2)]; omega

/-- The length draw: with `1 ≤ minpl ≤ maxpl ≤ INT_MAX` the range passed to
`randint` is `maxpl + 1 - minpl ≥ 1` and the chosen length lies in the range. -/
theorem chooseLength_spec (rnd : RandomSource) (c : Config) (hr : InRange rnd)
    (h1 : 1 ≤ c.minpl) (h2 : c.minpl ≤ c.maxpl) (h3 : c.maxpl ≤ INT_MAX) :
    toUInt32 (toInt32 (toInt32 (c.maxpl + 1) - c.minpl)) = (c.maxpl + 1 - c.minpl).toNat ∧
    chooseLength rnd c = c.minpl + (rnd 0 (c.maxpl + 1 - c.minpl).toNat : Int) ∧
    c.minpl ≤ chooseLength rnd c ∧ chooseLength rnd c ≤ c.maxpl := by
  unfold INT_MAX at h3
  have hu : toUInt32 (toInt32 (toInt32 (c.maxpl + 1) - c.minpl)) = (c.maxpl + 1 - c.minpl).toNat := by
    unfold toUInt32 toInt32; omega
  have hlt := hr 0 (c.maxpl + 1 - c.minpl).toNat (by omega)
  have hm : toUInt32 c.minpl = c.minpl.toNat := by unfold toUInt32; omega
  have hc : chooseLength rnd c = c.minpl + (rnd 0 (c.maxpl + 1 - c.minpl).toNat : Int) := by
    unfold chooseLength
    rw [hu, hm]
    unfold toInt32
    omega
  refine ⟨hu, hc, ?_, ?_⟩ <;> rw [hc] <;> omega

end Credgen

namespace Credgen

/-! ## The generation loop in character mode -/

/-- In character mode the loop runs once per remaining position and prints
the pieces of the positions `pd, pd + 1, ..., pass_len - 1` in order. -/
theorem genLoop_char (b : Build) (rnd : RandomSource) (c : Config) (L : Nat)
    (hmode : deref c.Keyset ≠ NUL) :
    ∀ (m fuel pd : Nat) (out : List Char), pd + m = L → m < fuel →
      genLoop b rnd c (L : Int) fuel (pd : Int) (pd + 1) out =
        some { code := 0,
               stdout := out ++ (List.range' pd m).flatMap (charPiece rnd c) ++ ['\n'],
               stderr := [], draws := pd + 1 + m } := by
  intro m
  induction m with
  | zero =>
    intro fuel pd out hL hf
    obtain ⟨f, rfl⟩ : ∃ f, fuel = f + 1 := ⟨fuel - 1, by omega⟩
    have hnot : ¬ ((pd : Int) < (L : Int)) := by omega
    rw [genLoop, if_neg hnot]
    simp
  | succ n ih =>
    intro fuel pd out hL hf
    obtain ⟨f, rfl⟩ : ∃ f, fuel = f + 1 := ⟨fuel - 1, by omega⟩
    have hlt : (pd : Int) < (L : Int) := by omega
    rw [genLoop, if_pos hlt, if_pos hmode]
    have := ih f (pd + 1) (out ++ charDelim c pd ++ [c.Keyset.getD (rnd (pd + 1) c.pickSize) NUL])
      (by omega) (by omega)
    rw [show ((pd : Int) + 1) = ((pd + 1 : Nat) : Int) by push_cast; rfl, this]
    simp only [List.range'_succ, List.flatMap_cons, charPiece, List.append_assoc,
      Option.some.injEq, Outcome.mk.injEq, true_and, and_true]
    omega

/-- The credential a character-mode run prints for a chosen length. -/
theorem generate_char (b : Build) (rnd : RandomSource) (s : State) (L : Nat)
    (hcompat : incompatible s = false)
    (hrange : (setDefaults s).minpl ≤ (setDefaults s).maxpl)
    (hmode : deref (setDefaults s).Keyset ≠ NUL)
    (hL : chooseLength rnd (setDefaults s) = (L : Int)) (fuel : Nat) (hf : L < fuel) :
    generate b rnd fuel s =
      some { code := 0,
             stdout := (List.range L).flatMap (charPiece rnd (setDefaults s)) ++ ['\n'],
             stderr := [], draws := L + 1 } := by
  unfold generate
  rw [hcompat, if_neg (by simp), if_neg (by omega), hL]
  have := genLoop_char b rnd (setDefaults s) L hmode L fuel 0 [] (by omega) hf
  simp only [Nat.cast_zero, Nat.zero_add, List.nil_append] at this
  rw [this, List.range_eq_range']
  simp [Nat.add_comm]

/-- The backbone of the character-mode claims: an accepted character-mode run
chooses a length `L` in the configured range, draws `L` more times and prints
the `L` pieces followed by a newline. -/
theorem main_char (b : Build) (rnd : RandomSource) (args : List (List Char)) (s : State)
    (hok : processArgs b State.init args = .ok s) (hcompat : incompatible s = false)
    (hmode : deref (setDefaults s).Keyset ≠ NUL) (hr : InRange rnd) :
    ∃ L : Nat, chooseLength rnd (setDefaults s) = (L : Int) ∧
      (setDefaults s).minpl ≤ (L : Int) ∧ (L : Int) ≤ (setDefaults s).maxpl ∧
      ∀ fuel, L < fuel →
        main b rnd fuel args =
          some { code := 0,
                 stdout := (List.range L).flatMap (charPiece rnd (setDefaults s)) ++ ['\n'],
                 stderr := [], draws := L + 1 } := by
  have hinv := StateInv_accepted b hok
  obtain ⟨h1, h2, h3⟩ := setDefaults_range hinv
  obtain ⟨_, _, h5, h6⟩ := chooseLength_spec rnd (setDefaults s) hr h1 h2 h3
  refine ⟨(chooseLength rnd (setDefaults s)).toNat, by omega, by omega, by omega, ?_⟩
  intro fuel hf
  unfold main
  rw [hok]
  exact generate_char b rnd s _ hcompat h2 hmode (by omega) fuel hf

end Credgen

namespace Credgen

/-! ## Character mode: length, delimiter timing, membership -/

theorem demoRnd_inRange : InRange demoRnd := fun k _ h => Nat.mod_lt (7 * k + 3) h

theorem charPiece_eq (rnd : RandomSource) (c : Config) (i : Nat) :
    charPiece rnd c i = charDelim c (i : Int) ++ [charAt rnd c i] := rfl

theorem charDelim_none {c : Config} (h : c.dlm = none) (pd : Int) : charDelim c pd = [] := by
  simp [charDelim, h]

theorem flatMap_singleton_map {α β : Type} (f : α → β) (l : List α) :
    l.flatMap (fun i => [f i]) = l.map f := by
  induction l with
  | nil => rfl
  | cons a t ih => simp [List.flatMap_cons, ih]

/-- C1 (character mode length): an accepted character-mode run has
`1 ≤ minpl ≤ maxpl`, chooses a target length `L` with `minpl ≤ L ≤ maxpl`, and
its loop ends after exactly `L` rounds, each of which prints one Keyset
character (after the delimiter, if one is due): the run makes `L + 1` draws
and prints the `L` pieces and a newline.  Without a delimiter the credential
is the `L` drawn characters, so its length is exactly `L`. -/
theorem char_mode_length (b : Build) (rnd : RandomSource) (args : List (List Char)) (s : State)
    (hok : processArgs b State.init args = .ok s) (hcompat : incompatible s = false)
    (hmode : deref (setDefaults s).Keyset ≠ NUL) (hr : InRange rnd) :
    1 ≤ (setDefaults s).minpl ∧ (setDefaults s).minpl ≤ (setDefaults s).maxpl ∧
    ∃ L : Nat, chooseLength rnd (setDefaults s) = (L : Int) ∧
      (setDefaults s).minpl ≤ (L : Int) ∧ (L : Int) ≤ (setDefaults s).maxpl ∧
      ∀ fuel, L < fuel → ∃ o, main b rnd fuel args = some o ∧ o.code = 0 ∧ o.draws = L + 1 ∧
        o.stdout = (List.range L).flatMap
          (fun i => charDelim (setDefaults s) (i : Int) ++ [charAt rnd (setDefaults s) i]) ++ ['\n'] ∧
        ((List.range L).map (charAt rnd (setDefaults s))).length = L ∧
        ((setDefaults s).dlm = none →
          o.stdout = (List.range L).map (charAt rnd (setDefaults s)) ++ ['\n'] ∧
          o.stdout.length = L + 1) := by
  have hinv := StateInv_accepted b hok
  obtain ⟨h1, h2, _⟩ := setDefaults_range hinv
  obtain ⟨L, hL, hlo, hhi, hrun⟩ := main_char b rnd args s hok hcompat hmode hr
  refine ⟨h1, h2, L, hL, hlo, hhi, fun fuel hf => ⟨_, hrun fuel hf, rfl, rfl, rfl, by simp, ?_⟩⟩
  intro hnone
  have : (List.range L).flatMap (charPiece rnd (setDefaults s)) =
      (List.range L).map (charAt rnd (setDefaults s)) := by
    have hfun : charPiece rnd (setDefaults s) = fun i => [charAt rnd (setDefaults s) i] := by
      funext i
      rw [charPiece_eq, charDelim_none hnone, List.nil_append]
    rw [hfun, flatMap_singleton_map]
  rw [this]
  exact ⟨rfl, by simp⟩

set_option maxRecDepth 100000 in
theorem demoChar_accepted : processArgs demoBuild State.init demoCharArgs = .ok demoCharState := by
  decide

/-- The run `credgen -a -d=-- -dn=3 7 9` satisfies the hypotheses of
`char_mode_length`, which gives it a length between 7 and 9. -/
theorem char_mode_length_witness :
    incompatible demoCharState = false ∧ deref (setDefaults demoCharState).Keyset ≠ NUL ∧
    ∃ L : Nat, (7 : Int) ≤ (L : Int) ∧ (L : Int) ≤ 9 ∧
      ∀ fuel, L < fuel → ∃ o, main demoBuild demoRnd fuel demoCharArgs = some o ∧
        o.code = 0 ∧ o.draws = L + 1 := by
  refine ⟨by decide, by decide, ?_⟩
  obtain ⟨_, _, L, _, hlo, hhi, hrun⟩ :=
    char_mode_length demoBuild demoRnd demoCharArgs demoCharState demoChar_accepted
      (by decide) (by decide) demoRnd_inRange
  refine ⟨L, hlo, hhi, fun fuel hf => ?_⟩
  obtain ⟨o, ho, hc, hd, _⟩ := hrun fuel hf
  exact ⟨o, ho, hc, hd⟩

theorem charDelim_some {c : Config} {d : List Char} {n : Nat} (hd : c.dlm = some d)
    (hn : c.dln = (n : Int)) (h1 : 1 ≤ n) (i : Nat) :
    ((∃ j, 1 ≤ j ∧ i = j * n) ∧ charDelim c (i : Int) = cstr d) ∨
    ((¬ ∃ j, 1 ≤ j ∧ i = j * n) ∧ charDelim c (i : Int) = []) := by
  have hmod : Int.tmod (i : Int) c.dln = ((i % n : Nat) : Int) := by
    rw [hn]; exact (Int.ofNat_tmod i n).symm
  simp only [charDelim, hd, hmod]
  by_cases hc : (i : Int) ≠ 0 ∧ ((i % n : Nat) : Int) = 0
  · left
    rw [if_pos hc]
    refine ⟨?_, rfl⟩
    have h0 : i ≠ 0 := by omega
    have hm : i % n = 0 := by omega
    obtain ⟨j, hj⟩ : n ∣ i := Nat.dvd_of_mod_eq_zero hm
    refine ⟨j, ?_, by rw [hj, Nat.mul_comm]⟩
    rcases Nat.eq_zero_or_pos j with hz | hp
    · rw [hz, Nat.mul_zero] at hj; exact absurd hj h0
    · exact hp
  · right
    rw [if_neg hc]
    refine ⟨?_, rfl⟩
    rintro ⟨j, hj, rfl⟩
    apply hc
    constructor
    · have : 1 * 1 ≤ j * n := Nat.mul_le_mul hj h1
      omega
    · simp

/-- C3 (character-mode delimiter timing): in an accepted character-mode run
with delimiter `d`, the frequency in force is some `n ≥ 1`, and the printed
credential is the concatenation of one piece per position `i < L`, where the
piece is `d` followed by the character when `i` is one of `n, 2n, 3n, ...` and
the bare character otherwise.  So `d` stands immediately before the
characters at positions `n, 2n, ...` below `L` and nowhere else: not before
position 0, and not after the last character. -/
theorem char_delimiter_timing (b : Build) (rnd : RandomSource) (args : List (List Char))
    (s : State) (d : List Char)
    (hok : processArgs b State.init args = .ok s) (hcompat : incompatible s = false)
    (hmode : deref (setDefaults s).Keyset ≠ NUL) (hr : InRange rnd)
    (hd : (setDefaults s).dlm = some d) :
    ∃ n L : Nat, (setDefaults s).dln = (n : Int) ∧ 1 ≤ n ∧
      chooseLength rnd (setDefaults s) = (L : Int) ∧
      ∀ fuel, L < fuel → ∃ (o : Outcome) (pieces : List (List Char)), main b rnd fuel args = some o ∧
        o.stdout = pieces.flatten ++ ['\n'] ∧ pieces.length = L ∧
        (∀ i, i < L →
          ((∃ j, 1 ≤ j ∧ i = j * n) ∧
            pieces[i]? = some (cstr d ++ [charAt rnd (setDefaults s) i])) ∨
          ((¬ ∃ j, 1 ≤ j ∧ i = j * n) ∧
            pieces[i]? = some [charAt rnd (setDefaults s) i])) ∧
        (0 < L → pieces[0]? = some [charAt rnd (setDefaults s) 0]) := by
  have hinv := StateInv_accepted b hok
  have hdln := setDefaults_dln hinv (by rw [hd]; simp)
  obtain ⟨L, hL, _, _, hrun⟩ := main_char b rnd args s hok hcompat hmode hr
  have hn : (setDefaults s).dln = (((setDefaults s).dln.toNat : Nat) : Int) := by omega
  refine ⟨(setDefaults s).dln.toNat, L, hn, by omega, hL, fun fuel hf => ?_⟩
  have hpiece : ∀ i, i < L →
      ((List.range L).map (charPiece rnd (setDefaults s)))[i]? =
        some (charDelim (setDefaults s) (i : Int) ++ [charAt rnd (setDefaults s) i]) := by
    intro i hi
    rw [List.getElem?_map, List.getElem?_range hi]
    rfl
  refine ⟨_, (List.range L).map (charPiece rnd (setDefaults s)), hrun fuel hf, ?_, by simp, ?_, ?_⟩
  · show _ ++ _ = _ ++ _
    rw [List.flatMap_def]
  · intro i hi
    rcases charDelim_some hd hn (by omega) i with ⟨hj, he⟩ | ⟨hj, he⟩
    · exact Or.inl ⟨hj, by rw [hpiece i hi, he]⟩
    · exact Or.inr ⟨hj, by rw [hpiece i hi, he, List.nil_append]⟩
  · intro h0
    rcases charDelim_some hd hn (by omega) 0 with ⟨⟨j, hj, hj2⟩, _⟩ | ⟨_, he⟩
    · exfalso
      have h1n : 1 ≤ (setDefaults s).dln.toNat := by omega
      have : 1 * 1 ≤ j * (setDefaults s).dln.toNat := Nat.mul_le_mul hj h1n
      omega
    · rw [hpiece 0 h0, he, List.nil_append]

/-- The run `credgen -a -d=-- -dn=3 7 9` satisfies the hypotheses of
`char_delimiter_timing` with the delimiter `--`. -/
theorem char_delimiter_timing_witness :
    incompatible demoCharState = false ∧ deref (setDefaults demoCharState).Keyset ≠ NUL ∧
    (setDefaults demoCharState).dlm = some ['-', '-'] ∧
    ∃ n L : Nat, (setDefaults demoCharState).dln = (n : Int) ∧ 1 ≤ n ∧
      ∀ fuel, L < fuel → ∃ (o : Outcome) (pieces : List (List Char)), main demoBuild demoRnd fuel demoCharArgs = some o ∧
        o.stdout = pieces.flatten ++ ['\n'] ∧ pieces.length = L := by
  refine ⟨by decide, by decide, by decide, ?_⟩
  obtain ⟨n, L, hn, h1, _, hrun⟩ :=
    char_delimiter_timing demoBuild demoRnd demoCharArgs demoCharState ['-', '-']
      demoChar_accepted (by decide) (by decide) demoRnd_inRange (by decide)
  refine ⟨n, L, hn, h1, fun fuel hf => ?_⟩
  obtain ⟨o, pieces, ho, hs, hl, _⟩ := hrun fuel hf
  exact ⟨o, pieces, ho, hs, hl⟩

end Credgen

namespace Credgen

/-! ## The class table, easy mode and `acquire` -/

theorem processArgs_single_classes (b : Build) (arg : List Char)
    (h1 : cstr arg ≠ ['-', 'h']) (h2 : cstr arg ≠ ['-', 'v']) (h3 : cstr arg ≠ ['-', 'w'])
    (h4 : cstr arg ≠ ['-', 'e']) (h5 : arg.getD 0 NUL = '-') (h6 : arg.getD 1 NUL ≠ 'd')
    (h7 : arg.getD 1 NUL ≠ NUL) (s : State) :
    processArgs b s [arg] =
      match (acquireClasses arg (arg.drop 1) s.ks).map (fun ks1 => { s with ks := ks1 }) with
      | .error o => .error o
      | .ok s1 => .ok s1 := by
  simp only [processArgs, processArg, if_neg h1, if_neg h2, if_neg h3, if_neg h4, if_pos h5,
    if_neg h6, if_neg h7]

set_option maxRecDepth 100000 in
/-- C7 (class table): the master alphabet has 94 pairwise distinct characters;
the slices (0,26), (26,26), (52,10), (62,11), (73,21) are a-z, A-Z, 0-9 and two
symbol sets of 11 and 21 characters; laid end to end they are the master
alphabet (so they are contiguous, cover it, and, the alphabet having no
repetition, are pairwise disjoint); each of the flags a, A, 1, s, S makes
`main` append its slice, and `-aA1sS` builds a Keyset equal to the master
alphabet. -/
theorem class_table (b : Build) :
    Qwerty.length = 94 ∧ Qwerty.Nodup ∧
    slice 0 26 = lowercase ∧ slice 26 26 = uppercase ∧ slice 52 10 = digits ∧
    (slice 62 11).length = 11 ∧ (slice 73 21).length = 21 ∧
    slice 0 26 ++ slice 26 26 ++ slice 52 10 ++ slice 62 11 ++ slice 73 21 = Qwerty ∧
    (slice 0 26 ++ slice 26 26 ++ slice 52 10 ++ slice 62 11 ++ slice 73 21).Nodup ∧
    List.Pairwise (fun x y => ∀ c ∈ x, c ∉ y)
      [slice 0 26, slice 26 26, slice 52 10, slice 62 11, slice 73 21] ∧
    processArgs b State.init [['-', 'a']] =
      .ok { State.init with ks := KeysetState.ofContent (slice 0 26) } ∧
    processArgs b State.init [['-', 'A']] =
      .ok { State.init with ks := KeysetState.ofContent (slice 26 26) } ∧
    processArgs b State.init [['-', '1']] =
      .ok { State.init with ks := KeysetState.ofContent (slice 52 10) } ∧
    processArgs b State.init [['-', 's']] =
      .ok { State.init with ks := KeysetState.ofContent (slice 62 11) } ∧
    processArgs b State.init [['-', 'S']] =
      .ok { State.init with ks := KeysetState.ofContent (slice 73 21) } ∧
    processArgs b State.init [['-', 'a', 'A', '1', 's', 'S']] =
      .ok { State.init with ks := KeysetState.ofContent Qwerty } ∧
    cstr (KeysetState.ofContent Qwerty).Keyset = Qwerty := by
  refine ⟨by decide, by decide, by decide, by decide, by decide, by decide, by decide,
    by decide, by decide, by decide, ?_, ?_, ?_, ?_, ?_, ?_, by decide⟩
  all_goals
    rw [processArgs_single_classes b _ (by decide) (by decide) (by decide) (by decide)
      (by decide) (by decide) (by decide)]
    decide

set_option maxRecDepth 100000 in
/-- C6 (easy-mode Keyset): the single option `-e` on the empty buffer leaves
the lowercase alphabet three times, then the uppercase alphabet, then the
digits, in that order, selects the range 8..12 as default, and the size used
for drawing is 114. -/
theorem easy_mode_keyset (b : Build) :
    processArgs b State.init [['-', 'e']] = .ok easyState ∧
    easyState.ks.Keyset.take 114 =
      lowercase ++ lowercase ++ lowercase ++ uppercase ++ digits ∧
    easyState.ks.Keyset.drop 114 = List.replicate (KEYSET_SIZE - 114) NUL ∧
    cstr (setDefaults easyState).Keyset =
      lowercase ++ lowercase ++ lowercase ++ uppercase ++ digits ∧
    (setDefaults easyState).pickSize = 114 ∧
    incompatible easyState = false ∧
    (setDefaults easyState).minpl = 8 ∧ (setDefaults easyState).maxpl = 12 := by
  have h : processArgs b State.init [['-', 'e']] =
      processArgs demoBuild State.init [['-', 'e']] := rfl
  rw [h]
  refine ⟨by decide, by decide, by decide, by decide, by decide, by decide, by decide,
    by decide⟩

/-- C10 as amended (accept/reject condition of `acquire`): on the 1024-slot
buffer with fill level `dst` and a class `(at, len)` inside the master
alphabet, `acquire` ends the run with the capacity error exactly when
`dst + len > 1023`, that is when the capacity that remains after keeping one
slot for the terminator, `1023 - dst`, is less than `len`; the failing call
produces no new buffer.  Otherwise it writes exactly the `len` characters of
the master alphabet from `at` on at the fill level, leaves the slots before
and after them unchanged, and advances the fill level by `len`. -/
theorem acquire_accept_reject (at_ len : Nat) (ks : KeysetState)
    (hbuf : ks.Keyset.length = KEYSET_SIZE) (hcls : at_ + len ≤ 94) :
    (acquire at_ len ks = none ↔ KEYSET_SIZE - 1 < ks.dst + len) ∧
    (∀ ks1, acquire at_ len ks = some ks1 →
      ks1.dst = ks.dst + len ∧ ks1.Keyset.length = KEYSET_SIZE ∧
      ks1.Keyset.take ks.dst = ks.Keyset.take ks.dst ∧
      (ks1.Keyset.drop ks.dst).take len = slice at_ len ∧
      ks1.Keyset.drop (ks.dst + len) = ks.Keyset.drop (ks.dst + len)) := by
  unfold acquire
  rw [strncpyBytes_Qwerty at_ len hcls]
  have hs := slice_length at_ len hcls
  simp only [KEYSET_SIZE] at *
  by_cases hc : ((1024 : Nat) : Int) - 1 - (ks.dst : Int) < (len : Int)
  · rw [if_pos hc]
    exact ⟨⟨fun _ => by omega, fun _ => rfl⟩, fun ks1 h => by simp at h⟩
  · rw [if_neg hc]
    refine ⟨⟨fun h => by simp at h, fun h => absurd h (by omega)⟩, fun ks1 h => ?_⟩
    simp only [Option.some.injEq] at h
    subst h
    have hd : ks.dst + (slice at_ len).length ≤ ks.Keyset.length := by omega
    refine ⟨rfl, ?_, ?_, ?_, ?_⟩
    · show (writeAt _ _ _).length = _
      rw [writeAt_length _ _ _ hd, hbuf]
    · exact writeAt_take _ _ _ hd
    · show ((writeAt _ _ _).drop _).take _ = _
      rw [writeAt_drop _ _ _ hd, List.take_left' hs]
    · have := writeAt_drop_end _ _ _ hd
      rw [hs] at this
      exact this


set_option maxRecDepth 100000 in
/-- The call `acquire(52, 10, &dst)` on the empty buffer is accepted. -/
theorem acquire_accept_reject_witness :
    KeysetState.init.Keyset.length = KEYSET_SIZE ∧ 52 + 10 ≤ 94 ∧
    (acquire 52 10 KeysetState.init = none ↔ KEYSET_SIZE - 1 < KeysetState.init.dst + 10) ∧
    (∀ ks1, acquire 52 10 KeysetState.init = some ks1 →
      ks1.dst = KeysetState.init.dst + 10 ∧ ks1.Keyset.length = KEYSET_SIZE ∧
      ks1.Keyset.take KeysetState.init.dst = KeysetState.init.Keyset.take KeysetState.init.dst ∧
      (ks1.Keyset.drop KeysetState.init.dst).take 10 = slice 52 10 ∧
      ks1.Keyset.drop (KeysetState.init.dst + 10) =
        KeysetState.init.Keyset.drop (KeysetState.init.dst + 10)) :=
  ⟨by decide, by decide, acquire_accept_reject 52 10 KeysetState.init (by decide) (by decide)⟩

theorem acquireClasses_replicate_a (arg : List Char) :
    ∀ (n : Nat) (content : List Char) (ks : KeysetState), Holds ks content →
      content.length + 26 * n ≤ KEYSET_SIZE - 1 →
      acquireClasses arg (List.replicate n 'a') ks =
        .ok (KeysetState.ofContent (content ++ (List.replicate n (slice 0 26)).flatten)) := by
  intro n
  induction n with
  | zero =>
    intro content ks h _
    simp only [List.replicate_zero, acquireClasses, List.flatten_nil, List.append_nil]
    rw [h.1]
  | succ m ih =>
    intro content ks h hle
    have hacq := acquire_Holds h 0 26 (by decide)
    rw [if_neg (by omega)] at hacq
    have hk := Holds_acquire h 0 26 (by decide) hacq
    have hl : (content ++ slice 0 26).length + 26 * m ≤ KEYSET_SIZE - 1 := by
      rw [List.length_append, slice_length 0 26 (by decide)]; omega
    have := ih _ _ hk hl
    rw [List.replicate_succ, acquireClasses, if_neg (by decide), if_pos rfl, acquireOr, hacq]
    simp only [Except.bind]
    rw [this, List.append_assoc, List.replicate_succ, List.flatten_cons]

set_option maxRecDepth 100000 in
/-- C10 as stated fails: after 39 requests of the lowercase class the fill
level is 1014, so 1024 - 1014 = 10 slots remain, which is not less than the
10 digits requested next; yet `acquire(52, 10, &dst)` ends the run. -/
theorem acquire_capacity_counterexample :
    acquireClasses [] (List.replicate 39 'a') KeysetState.init = .ok lowercase39 ∧
    lowercase39.dst = 1014 ∧ lowercase39.Keyset.length = KEYSET_SIZE ∧
    ¬ (acquire 52 10 lowercase39 = none ↔ KEYSET_SIZE - lowercase39.dst < 10) := by
  refine ⟨?_, by decide, by decide, by decide⟩
  have := acquireClasses_replicate_a [] 39 [] KeysetState.init Holds_init (by decide)
  rw [this]
  rfl

end Credgen

namespace Credgen

/-! ## Character membership -/

/-- Every character drawn in character mode is one of the characters the
Keyset holds. -/
theorem charAt_mem (rnd : RandomSource) {s : State} {content : List Char}
    (h : StateInv s content) (hmode : deref (setDefaults s).Keyset ≠ NUL) (hr : InRange rnd)
    (i : Nat) :
    0 < (setDefaults s).pickSize ∧
    rnd (i + 1) (setDefaults s).pickSize < (setDefaults s).pickSize ∧
    charAt rnd (setDefaults s) i ∈ effectiveContent content s.wordspace := by
  have hp := setDefaults_pickSize_char h hmode
  have hne := (setDefaults_mode h).mp hmode
  have hpos : 0 < (setDefaults s).pickSize := by
    rw [hp]; exact List.length_pos.mpr hne
  have hlt := hr (i + 1) _ hpos
  refine ⟨hpos, hlt, ?_⟩
  unfold charAt
  rw [setDefaults_Keyset h, ofContent_getD _ (by rw [← hp]; exact hlt)]
  exact List.get_mem _ _ _

set_option maxRecDepth 100000 in
theorem lowerTen_accepted (b : Build) :
    processArgs b State.init lowerTenArgs = .ok lowerTenState := by
  have h : processArgs b State.init lowerTenArgs =
      processArgs demoBuild State.init lowerTenArgs := rfl
  rw [h]
  decide

/-- C9 (character membership): in an accepted character-mode run the Keyset
text is what the arguments requested (the whole master alphabet when they
requested nothing), the size used for drawing is its length, every draw is
below that size, and every emitted character is `Keyset[idx]` for such a
draw: a member of the Keyset text, hence of the requested classes, never the
terminator and never a character outside the selection.  For the arguments
`-a 10` the Keyset is the 26 distinct letters a-z and the output is exactly
10 characters, each in a-z, followed by the newline. -/
theorem char_membership (b : Build) (rnd : RandomSource) (args : List (List Char)) (s : State)
    (hok : processArgs b State.init args = .ok s) (hcompat : incompatible s = false)
    (hmode : deref (setDefaults s).Keyset ≠ NUL) (hr : InRange rnd) :
    cstr (setDefaults s).Keyset = effectiveContent (requested args) s.wordspace ∧
    (setDefaults s).pickSize = (cstr (setDefaults s).Keyset).length ∧
    (∀ i, rnd (i + 1) (setDefaults s).pickSize < (setDefaults s).pickSize ∧
      charAt rnd (setDefaults s) i =
        (setDefaults s).Keyset.getD (rnd (i + 1) (setDefaults s).pickSize) NUL ∧
      charAt rnd (setDefaults s) i ∈ cstr (setDefaults s).Keyset ∧
      charAt rnd (setDefaults s) i ≠ NUL ∧
      charAt rnd (setDefaults s) i ∈ Qwerty ∧
      (requested args ≠ [] → charAt rnd (setDefaults s) i ∈ requested args)) ∧
    (∃ L : Nat, chooseLength rnd (setDefaults s) = (L : Int) ∧
      ∀ fuel, L < fuel → ∃ o, main b rnd fuel args = some o ∧
        o.stdout = (List.range L).flatMap
          (fun i => charDelim (setDefaults s) (i : Int) ++ [charAt rnd (setDefaults s) i]) ++
            ['\n']) ∧
    (args = lowerTenArgs →
      cstr (setDefaults s).Keyset = lowercase ∧ lowercase.Nodup ∧ lowercase.length = 26 ∧
      ∀ fuel, 10 < fuel → ∃ o, main b rnd fuel args = some o ∧ o.code = 0 ∧
        o.stdout = (List.range 10).map (charAt rnd (setDefaults s)) ++ ['\n'] ∧
        ((List.range 10).map (charAt rnd (setDefaults s))).length = 10 ∧
        ∀ ch ∈ (List.range 10).map (charAt rnd (setDefaults s)), ch ∈ lowercase) := by
  have hinv := StateInv_accepted b hok
  have hcs := setDefaults_cstr hinv
  have hps := setDefaults_pickSize_char hinv hmode
  have hmem : ∀ i, charAt rnd (setDefaults s) i ∈ effectiveContent (requested args) s.wordspace :=
    fun i => (charAt_mem rnd hinv hmode hr i).2.2
  obtain ⟨L, hL, hlo, hhi, hrun⟩ := main_char b rnd args s hok hcompat hmode hr
  refine ⟨hcs, by rw [hcs, hps], ?_, ⟨L, hL, fun fuel hf => ⟨_, hrun fuel hf, rfl⟩⟩, ?_⟩
  · intro i
    have hq := (effectiveContent_props hinv).2 _ (hmem i)
    refine ⟨(charAt_mem rnd hinv hmode hr i).2.1, rfl, by rw [hcs]; exact hmem i,
      Qwerty_no_NUL _ hq, hq, ?_⟩
    intro hne
    have := hmem i
    unfold effectiveContent at this
    rw [if_neg (fun hx => hne hx.1)] at this
    exact this
  · intro hargs
    subst hargs
    have hs : s = lowerTenState := by
      have := lowerTen_accepted b
      rw [hok] at this
      exact Except.ok.inj this
    subst hs
    have hkey : cstr (setDefaults lowerTenState).Keyset = lowercase := by
      rw [hcs]; decide
    have hL10 : L = 10 := by
      have h1 : (setDefaults lowerTenState).minpl = 10 := by decide
      have h2 : (setDefaults lowerTenState).maxpl = 10 := by decide
      rw [h1] at hlo; rw [h2] at hhi
      omega
    subst hL10
    refine ⟨hkey, by decide, by decide, fun fuel hf => ?_⟩
    have hnone : (setDefaults lowerTenState).dlm = none := by decide
    have hfun : charPiece rnd (setDefaults lowerTenState) =
        fun i => [charAt rnd (setDefaults lowerTenState) i] := by
      funext i
      rw [charPiece_eq, charDelim_none hnone, List.nil_append]
    refine ⟨_, hrun fuel hf, rfl, ?_, by simp, ?_⟩
    · show _ ++ _ = _ ++ _
      rw [hfun, flatMap_singleton_map]
    · intro ch hch
      obtain ⟨i, _, rfl⟩ := List.mem_map.mp hch
      rw [← hkey, hcs]
      exact hmem i

set_option maxRecDepth 100000 in
/-- The run `credgen -a 10` satisfies the hypotheses of `char_membership`:
its output is ten letters and a newline. -/
theorem char_membership_witness :
    incompatible lowerTenState = false ∧ deref (setDefaults lowerTenState).Keyset ≠ NUL ∧
    ∀ fuel, 10 < fuel → ∃ o, main demoBuild demoRnd fuel lowerTenArgs = some o ∧ o.code = 0 ∧
      o.stdout = (List.range 10).map (charAt demoRnd (setDefaults lowerTenState)) ++ ['\n'] ∧
      ∀ ch ∈ (List.range 10).map (charAt demoRnd (setDefaults lowerTenState)),
        ch ∈ lowercase := by
  refine ⟨by decide, by decide, fun fuel hf => ?_⟩
  obtain ⟨_, _, _, _, hex⟩ :=
    char_membership demoBuild demoRnd lowerTenArgs lowerTenState (lowerTen_accepted demoBuild)
      (by decide) (by decide) demoRnd_inRange
  obtain ⟨_, _, _, hrun⟩ := hex rfl
  obtain ⟨o, ho, hc, hs, _, hm⟩ := hrun fuel hf
  exact ⟨o, ho, hc, hs, hm⟩

end Credgen

namespace Credgen

/-! ## Defaults -/

theorem isLengthArg_iff (arg : List Char) :
    isLengthArg arg = true ↔ arg.getD 0 NUL ≠ '-' := by
  simp only [isLengthArg, bne_iff_ne, ne_eq]

theorem isDelimArg_iff (arg : List Char) :
    isDelimArg arg = true ↔ arg.getD 0 NUL = '-' ∧ arg.getD 1 NUL = 'd' := by
  simp only [isDelimArg, Bool.and_eq_true, beq_iff_eq]

theorem cstr_getD_zero {arg : List Char} {c : Char} {rest : List Char}
    (h : cstr arg = c :: rest) : arg.getD 0 NUL = c := by
  obtain ⟨t, rfl, _, _⟩ := cstr_eq_cons h
  rfl

theorem cstr_getD_one {arg : List Char} {c e : Char} {rest : List Char}
    (h : cstr arg = c :: e :: rest) : arg.getD 1 NUL = e := by
  obtain ⟨t, rfl, ht, _⟩ := cstr_eq_cons h
  obtain ⟨u, rfl, _, _⟩ := cstr_eq_cons ht
  rfl

/-- What one round of the argument loop does for a length or a `-d...`
argument: the buffer, the dictionary size and the default range stay, a `-d...`
argument leaves the lengths alone, and a length fills `minpl` first and
`maxpl` second. -/
theorem processArg_plain (b : Build) {s s1 : State} {arg : List Char}
    (hplain : isLengthArg arg = true ∨ isDelimArg arg = true)
    (hok : processArg b s arg = .ok s1) :
    s1.ks = s.ks ∧ s1.wordspace = s.wordspace ∧ s1.min_default = s.min_default ∧
    s1.max_default = s.max_default ∧
    (isDelimArg arg = true → s1.minpl = s.minpl ∧ s1.maxpl = s.maxpl) ∧
    (isLengthArg arg = true →
      (s.minpl = 0 → s1.minpl = atoi arg ∧ s1.maxpl = s.maxpl ∧ atoi arg ≠ 0) ∧
      (s.minpl ≠ 0 → s1.minpl = s.minpl ∧ s1.maxpl = atoi arg)) := by
  have hne : ∀ x : Char, x ≠ 'd' → cstr arg ≠ ['-', x] := by
    intro x hx hc
    have h0 := cstr_getD_zero hc
    have h1 := cstr_getD_one hc
    rcases hplain with h | h
    · exact (isLengthArg_iff arg).mp h h0
    · have := ((isDelimArg_iff arg).mp h).2
      rw [h1] at this
      exact hx this
  unfold processArg at hok
  rw [if_neg (hne 'h' (by decide)), if_neg (hne 'v' (by decide)), if_neg (hne 'w' (by decide)),
    if_neg (hne 'e' (by decide))] at hok
  by_cases hdash : arg.getD 0 NUL = '-'
  · have hd : arg.getD 1 NUL = 'd' := by
      rcases hplain with h | h
      · exact absurd hdash ((isLengthArg_iff arg).mp h)
      · exact ((isDelimArg_iff arg).mp h).2
    have hnl : isLengthArg arg ≠ true := fun hx => (isLengthArg_iff arg).mp hx hdash
    rw [if_pos hdash, if_pos hd] at hok
    by_cases hn : arg.getD 2 NUL = 'n'
    · rw [if_pos hn] at hok
      by_cases heq : arg.getD 3 NUL ≠ '='
      · rw [if_pos heq] at hok; simp at hok
      rw [if_neg heq] at hok
      by_cases hlt : atoi (arg.drop 4) < 1
      · rw [if_pos hlt] at hok; simp at hok
      rw [if_neg hlt] at hok
      simp only [Except.ok.injEq] at hok
      subst hok
      exact ⟨rfl, rfl, rfl, rfl, fun _ => ⟨rfl, rfl⟩, fun hl => absurd hl hnl⟩
    · rw [if_neg hn] at hok
      dsimp only at hok
      generalize (if arg.getD 2 NUL = '=' then arg.drop 3 else DLM_NORMAL) = dlm at hok
      by_cases hlen : strlen dlm < 1
      · rw [if_pos hlen] at hok; simp at hok
      rw [if_neg hlen] at hok
      simp only [Except.ok.injEq] at hok
      subst hok
      exact ⟨rfl, rfl, rfl, rfl, fun _ => ⟨rfl, rfl⟩, fun hl => absurd hl hnl⟩
  · have hnd : isDelimArg arg ≠ true := fun hx => hdash ((isDelimArg_iff arg).mp hx).1
    rw [if_neg hdash] at hok
    by_cases hmin : s.minpl = 0
    · rw [if_pos hmin] at hok
      by_cases hle : atoi arg ≤ 0
      · rw [if_pos hle] at hok; simp at hok
      rw [if_neg hle] at hok
      simp only [Except.ok.injEq] at hok
      subst hok
      exact ⟨rfl, rfl, rfl, rfl, fun hx => absurd hx hnd,
        fun _ => ⟨fun _ => ⟨rfl, rfl, by omega⟩, fun hx => absurd hmin hx⟩⟩
    · rw [if_neg hmin] at hok
      by_cases hmax : s.maxpl = 0
      · rw [if_pos hmax] at hok
        by_cases hle : atoi arg ≤ 0 ∨ atoi arg < s.minpl
        · rw [if_pos hle] at hok; simp at hok
        rw [if_neg hle] at hok
        simp only [Except.ok.injEq] at hok
        subst hok
        exact ⟨rfl, rfl, rfl, rfl, fun hx => absurd hx hnd,
          fun _ => ⟨fun hx => absurd hx hmin, fun _ => ⟨rfl, rfl⟩⟩⟩
      · rw [if_neg hmax] at hok; simp at hok

theorem processArgs_plain (b : Build) :
    ∀ (args : List (List Char)) (s s1 : State),
      (∀ a ∈ args, isLengthArg a = true ∨ isDelimArg a = true) →
      processArgs b s args = .ok s1 →
      s1.ks = s.ks ∧ s1.wordspace = s.wordspace ∧ s1.min_default = s.min_default ∧
      s1.max_default = s.max_default ∧
      (args.filter isLengthArg = [] → s1.minpl = s.minpl ∧ s1.maxpl = s.maxpl) ∧
      (∀ x, args.filter isLengthArg = [x] → s.minpl = 0 →
        s1.minpl = atoi x ∧ s1.maxpl = s.maxpl ∧ atoi x ≠ 0) := by
  intro args
  induction args with
  | nil =>
    intro s s1 _ hok
    simp only [processArgs, Except.ok.injEq] at hok
    subst hok
    exact ⟨rfl, rfl, rfl, rfl, fun _ => ⟨rfl, rfl⟩, fun x hx => by simp at hx⟩
  | cons arg rest ih =>
    intro s s1 hplain hok
    rw [processArgs] at hok
    cases hp : processArg b s arg with
    | error o => rw [hp] at hok; simp at hok
    | ok s2 =>
      rw [hp] at hok
      obtain ⟨k1, k2, k3, k4, k5, k6⟩ :=
        processArg_plain b (hplain arg (List.mem_cons_self _ _)) hp
      obtain ⟨r1, r2, r3, r4, r5, r6⟩ :=
        ih s2 s1 (fun a ha => hplain a (List.mem_cons_of_mem _ ha)) hok
      refine ⟨r1.trans k1, r2.trans k2, r3.trans k3, r4.trans k4, ?_, ?_⟩
      · intro hf
        by_cases hl : isLengthArg arg = true
        · rw [List.filter_cons_of_pos hl] at hf; simp at hf
        · have hd : isDelimArg arg = true := by
            rcases hplain arg (List.mem_cons_self _ _) with h | h
            · exact absurd h hl
            · exact h
          rw [List.filter_cons_of_neg hl] at hf
          obtain ⟨a1, a2⟩ := k5 hd
          obtain ⟨c1, c2⟩ := r5 hf
          exact ⟨c1.trans a1, c2.trans a2⟩
      · intro x hf hmin
        by_cases hl : isLengthArg arg = true
        · rw [List.filter_cons_of_pos hl] at hf
          simp only [List.cons.injEq] at hf
          obtain ⟨rfl, hrest⟩ := hf
          obtain ⟨a1, a2, a3⟩ := (k6 hl).1 hmin
          obtain ⟨c1, c2⟩ := r5 hrest
          exact ⟨c1.trans a1, c2.trans a2, a3⟩
        · have hd : isDelimArg arg = true := by
            rcases hplain arg (List.mem_cons_self _ _) with h | h
            · exact absurd h hl
            · exact h
          rw [List.filter_cons_of_neg hl] at hf
          obtain ⟨a1, a2⟩ := k5 hd
          obtain ⟨c1, c2, c3⟩ := r6 x hf (a1.trans hmin)
          exact ⟨c1, c2.trans a2, c3⟩

/-- C8 (defaults): when every argument of an accepted list is a length or a
`-d...` option (no class, no `-e`, no `-w`), nothing was requested, the run
is in character mode and the Keyset used for drawing is the full master
alphabet, of size 94; with no length argument the range is 20..30, and with
a single length argument `x` it is `atoi x .. atoi x`. -/
theorem defaults_applied (b : Build) (args : List (List Char)) (s : State)
    (hok : processArgs b State.init args = .ok s)
    (hplain : ∀ a ∈ args, isLengthArg a = true ∨ isDelimArg a = true) :
    requested args = [] ∧ s.wordspace = 0 ∧ incompatible s = false ∧
    deref (setDefaults s).Keyset ≠ NUL ∧
    cstr (setDefaults s).Keyset = Qwerty ∧ (setDefaults s).pickSize = 94 ∧
    (args.filter isLengthArg = [] →
      (setDefaults s).minpl = 20 ∧ (setDefaults s).maxpl = 30) ∧
    (∀ x, args.filter isLengthArg = [x] →
      (setDefaults s).minpl = atoi x ∧ (setDefaults s).maxpl = atoi x) := by
  have hinv := StateInv_accepted b hok
  obtain ⟨p1, p2, p3, p4, p5, p6⟩ := processArgs_plain b args _ _ hplain hok
  have hreq : requested args = [] := by
    have h1 := hinv.holds.1
    rw [p1] at h1
    have h2 : (KeysetState.ofContent (requested args)).dst = 0 := by rw [← h1]; rfl
    exact List.length_eq_zero.mp h2
  have hw : s.wordspace = 0 := p2
  have heff : effectiveContent (requested args) s.wordspace = Qwerty := by
    unfold effectiveContent
    rw [if_pos ⟨hreq, hw⟩]
  have hmode : deref (setDefaults s).Keyset ≠ NUL := by
    rw [setDefaults_mode hinv, heff]; decide
  refine ⟨hreq, hw, ?_, hmode, ?_, ?_, ?_, ?_⟩
  · simp [incompatible, hw]
  · rw [setDefaults_cstr hinv, heff]
  · rw [setDefaults_pickSize_char hinv hmode, heff, Qwerty_length]
  · intro hf
    obtain ⟨a1, a2⟩ := p5 hf
    have hmin : s.minpl = 0 := a1
    have hmax : s.maxpl = 0 := a2
    have hd1 : s.min_default = 20 := p3
    have hd2 : s.max_default = 30 := p4
    simp only [setDefaults, hmin, hmax, if_true, hd1, hd2, and_self]
  · intro x hf
    obtain ⟨a1, a2, a3⟩ := p6 x hf rfl
    have hmax : s.maxpl = 0 := a2
    have hne : s.minpl ≠ 0 := by rw [a1]; exact a3
    simp only [setDefaults, hmax, if_true, a1, if_neg a3, and_self]

set_option maxRecDepth 100000 in
/-- The run `credgen -d 15` satisfies the hypotheses of `defaults_applied`:
it draws from the master alphabet and its length is 15. -/
theorem defaults_applied_witness :
    processArgs demoBuild State.init plainArgs = .ok plainState ∧
    (∀ a ∈ plainArgs, isLengthArg a = true ∨ isDelimArg a = true) ∧
    cstr (setDefaults plainState).Keyset = Qwerty ∧ (setDefaults plainState).pickSize = 94 ∧
    (setDefaults plainState).minpl = atoi ['1', '5'] ∧
    (setDefaults plainState).maxpl = atoi ['1', '5'] ∧ atoi ['1', '5'] = 15 := by
  have h := defaults_applied demoBuild plainArgs plainState (by decide) (by decide)
  exact ⟨by decide, by decide, h.2.2.2.2.1, h.2.2.2.2.2.1,
    (h.2.2.2.2.2.2.2 ['1', '5'] (by decide)).1, (h.2.2.2.2.2.2.2 ['1', '5'] (by decide)).2,
    by decide⟩

end Credgen

namespace Credgen

/-! ## The dictionary walk -/

theorem strchr0_length_le (p : List Char) : (strchr0 p).length ≤ p.length := by
  unfold strchr0
  induction p with
  | nil => simp
  | cons a t ih =>
    rw [List.dropWhile_cons]
    split
    · exact Nat.le_succ_of_le ih
    · exact Nat.le_refl _

/-- The fuel `nthword` gives its loop is enough for every blob: each round
moves the pointer forward. -/
theorem nthwordLoop_fuel (position : Nat) :
    ∀ (fuel : Nat) (str : List Char) (index : Nat), str.length < fuel →
      (nthwordLoop position fuel str index).isSome = true := by
  intro fuel
  induction fuel with
  | zero => intro str index h; omega
  | succ n ih =>
    intro str index h
    rw [nthwordLoop]
    by_cases h0 : deref str = NUL
    · rw [if_pos h0]; rfl
    · rw [if_neg h0]
      by_cases h1 : index = position
      · rw [if_pos h1]; rfl
      · rw [if_neg h1]
        apply ih
        have hne : 0 < str.length := by
          cases str with
          | nil => exact absurd rfl h0
          | cons a t => simp
        have h2 := strchr0_length_le str
        rw [List.length_drop]
        omega

theorem encodeWords_cons (w : List Char) (ws : List (List Char)) :
    encodeWords (w :: ws) = w ++ NUL :: encodeWords ws := by
  simp [encodeWords, List.flatMap_cons]

theorem encodeWords_length_ge (ws : List (List Char)) : ws.length ≤ (encodeWords ws).length := by
  induction ws with
  | nil => simp [encodeWords]
  | cons w t ih =>
    rw [encodeWords_cons, List.length_append, List.length_cons, List.length_cons]
    omega

/-- The walk over a well-formed blob from record counter `index`: the record
`position - index` records ahead is found if there is one, and otherwise the
walk ends at the empty record having counted every record. -/
theorem nthwordLoop_wellformed (position : Nat) (hp : position < 4294967296)
    (rest : List Char) :
    ∀ (ws : List (List Char)) (fuel index : Nat), WellFormed ws → ws.length < fuel →
      index ≤ position →
      nthwordLoop position fuel (encodeWords ws ++ NUL :: rest) index =
        if position - index < ws.length
        then some (some (encodeWords (ws.drop (position - index)) ++ NUL :: rest), position)
        else some (none, index + ws.length) := by
  intro ws
  induction ws with
  | nil =>
    intro fuel index _ hf _
    obtain ⟨f, rfl⟩ : ∃ f, fuel = f + 1 := ⟨fuel - 1, by simp at hf; omega⟩
    rw [nthwordLoop]
    simp [encodeWords, deref]
  | cons w t ih =>
    intro fuel index hwf hf hle
    obtain ⟨f, rfl⟩ : ∃ f, fuel = f + 1 := ⟨fuel - 1, by omega⟩
    have hw := hwf w (List.mem_cons_self _ _)
    have hwt : WellFormed t := fun x hx => hwf x (List.mem_cons_of_mem _ hx)
    have hstr : encodeWords (w :: t) ++ NUL :: rest = w ++ NUL :: (encodeWords t ++ NUL :: rest) := by
      rw [encodeWords_cons]; simp
    have hderef : deref (encodeWords (w :: t) ++ NUL :: rest) ≠ NUL := by
      rw [hstr]
      cases w with
      | nil => exact absurd rfl hw.1
      | cons a u => exact hw.2 a (List.mem_cons_self _ _)
    rw [nthwordLoop, if_neg hderef]
    by_cases hidx : index = position
    · rw [if_pos hidx, hidx, Nat.sub_self, if_pos (by simp), List.drop_zero]
    · rw [if_neg hidx]
      have hlt : index < position := by omega
      have hnext : (strchr0 (encodeWords (w :: t) ++ NUL :: rest)).drop 1 =
          encodeWords t ++ NUL :: rest := by
        rw [hstr, strchr0_append_NUL hw.2]; rfl
      have hmod : (index + 1) % 4294967296 = index + 1 := Nat.mod_eq_of_lt (by omega)
      rw [hnext, hmod, ih f (index + 1) hwt (by simp at hf; omega) (by omega)]
      have hsub : position - index = (position - (index + 1)) + 1 := by omega
      rw [hsub, List.drop_succ_cons, List.length_cons]
      by_cases hc : position - (index + 1) < t.length
      · rw [if_pos hc, if_pos (by omega)]
      · rw [if_neg hc, if_neg (by omega)]
        congr 2
        omega

/-- The result of `nthword` on a well-formed blob. -/
theorem nthword_wellformed (ws : List (List Char)) (rest : List Char) (hwf : WellFormed ws)
    (i : Nat) (hi : i ≤ UINT_MAX) :
    nthword (encodeWords ws ++ NUL :: rest) i =
      if i < ws.length then (some (encodeWords (ws.drop i) ++ NUL :: rest), i)
      else (none, ws.length) := by
  unfold UINT_MAX at hi
  unfold nthword
  have hfuel : ws.length < (encodeWords ws ++ NUL :: rest).length + 1 := by
    have := encodeWords_length_ge ws
    rw [List.length_append, List.length_cons]
    omega
  rw [nthwordLoop_wellformed i (by omega) rest ws _ 0 hwf hfuel (by omega)]
  simp only [Nat.sub_zero, Nat.zero_add]
  split <;> rfl

theorem cstr_record (ws : List (List Char)) (rest : List Char) (hwf : WellFormed ws)
    (i : Nat) (hi : i < ws.length) :
    cstr (encodeWords (ws.drop i) ++ NUL :: rest) = ws.get ⟨i, hi⟩ := by
  rw [List.drop_eq_getElem_cons hi, encodeWords_cons, List.append_assoc, List.cons_append]
  exact cstr_append_NUL (hwf _ (List.getElem_mem _)).2 _

/-- C5 (dictionary lookup): on a well-formed blob holding the records `ws`
(non-empty, terminator-free tokens, each followed by a terminator, then the
empty record) `nthword` with an ordinal `i < n` returns the pointer to record
`i`, whose string is `ws[i]`, and leaves the ordinal unchanged; with an
ordinal `i ≥ n` it returns `NULL` and rewrites the ordinal to `n`.  In
particular ordinal 0 gives the first record, `n - 1` the last, and `n` gives
`NULL` with the count `n`. -/
theorem nthword_lookup (ws : List (List Char)) (rest : List Char) (hwf : WellFormed ws)
    (i : Nat) (hi : i ≤ UINT_MAX) :
    (∀ h : i < ws.length,
      nthword (encodeWords ws ++ NUL :: rest) i =
        (some (encodeWords (ws.drop i) ++ NUL :: rest), i) ∧
      (nthword (encodeWords ws ++ NUL :: rest) i).1.map cstr = some (ws.get ⟨i, h⟩)) ∧
    (ws.length ≤ i → nthword (encodeWords ws ++ NUL :: rest) i = (none, ws.length)) ∧
    (nthword (encodeWords ws ++ NUL :: rest) i).1.map cstr = ws[i]? ∧
    (∀ h : 0 < ws.length,
      (nthword (encodeWords ws ++ NUL :: rest) 0).1.map cstr = some (ws.get ⟨0, h⟩) ∧
      (nthword (encodeWords ws ++ NUL :: rest) 0).1.map cstr = ws.head?) ∧
    (∀ h : 0 < ws.length, ws.length - 1 ≤ UINT_MAX →
      (nthword (encodeWords ws ++ NUL :: rest) (ws.length - 1)).1.map cstr =
        some (ws.get ⟨ws.length - 1, Nat.sub_lt h Nat.one_pos⟩) ∧
      (nthword (encodeWords ws ++ NUL :: rest) (ws.length - 1)).1.map cstr = ws.getLast?) ∧
    (ws.length ≤ UINT_MAX →
      nthword (encodeWords ws ++ NUL :: rest) ws.length = (none, ws.length)) := by
  have hfound : ∀ j (hj : j < ws.length), j ≤ UINT_MAX →
      nthword (encodeWords ws ++ NUL :: rest) j =
        (some (encodeWords (ws.drop j) ++ NUL :: rest), j) ∧
      (nthword (encodeWords ws ++ NUL :: rest) j).1.map cstr = some (ws.get ⟨j, hj⟩) := by
    intro j hj hju
    have := nthword_wellformed ws rest hwf j hju
    rw [if_pos hj] at this
    rw [this]
    exact ⟨rfl, by simp only [Option.map_some']; rw [cstr_record ws rest hwf j hj]⟩
  have hmiss : ∀ j, ws.length ≤ j → j ≤ UINT_MAX →
      nthword (encodeWords ws ++ NUL :: rest) j = (none, ws.length) := by
    intro j hj hju
    have := nthword_wellformed ws rest hwf j hju
    rw [if_neg (by omega)] at this
    exact this
  refine ⟨fun h => hfound i h hi, fun h => hmiss i h hi, ?_, ?_, ?_, fun h => hmiss _ (le_refl _) h⟩
  · by_cases h : i < ws.length
    · rw [(hfound i h hi).2, List.getElem?_eq_getElem h]; rfl
    · rw [hmiss i (by omega) hi, List.getElem?_eq_none (by omega)]; rfl
  · intro h
    have h0 := (hfound 0 h (by unfold UINT_MAX; omega)).2
    refine ⟨h0, ?_⟩
    rw [h0]
    cases ws with
    | nil => simp at h
    | cons a t => rfl
  · intro h hu
    have h1 := (hfound (ws.length - 1) (Nat.sub_lt h Nat.one_pos) hu).2
    refine ⟨h1, ?_⟩
    rw [h1, List.getLast?_eq_getElem?, List.getElem?_eq_getElem (Nat.sub_lt h Nat.one_pos)]
    rfl

theorem demoWords_wellFormed : WellFormed demoWords := by
  unfold WellFormed
  decide

theorem demoBuild_blob : demoBuild.credgen_words_txt = encodeWords demoWords ++ NUL :: [] := by
  decide

/-- On the dictionary cat, dog, elephant: ordinal 1 is "dog" and ordinal 3
reports the count 3. -/
theorem nthword_lookup_witness :
    WellFormed demoWords ∧
    (nthword (encodeWords demoWords ++ NUL :: []) 1).1.map cstr = some ['d', 'o', 'g'] ∧
    nthword (encodeWords demoWords ++ NUL :: []) 3 = (none, 3) :=
  ⟨demoWords_wellFormed,
    ((nthword_lookup demoWords [] demoWords_wellFormed 1 (by decide)).1 (by decide)).2,
    (nthword_lookup demoWords [] demoWords_wellFormed 3 (by decide)).2.1 (by decide)⟩

end Credgen

namespace Credgen

/-! ## Word mode -/

theorem processArg_wordspace (b : Build) {s s1 : State} {arg : List Char}
    (hok : processArg b s arg = .ok s1) :
    s1.wordspace = s.wordspace ∨ s1.wordspace = (nthword b.credgen_words_txt UINT_MAX).2 := by
  unfold processArg at hok
  split at hok
  · simp at hok
  split at hok
  · simp at hok
  split at hok
  · simp only [Except.ok.injEq] at hok
    subst hok
    exact Or.inr rfl
  split at hok
  · obtain ⟨k, _, rfl⟩ := Except_map_ok hok
    exact Or.inl rfl
  by_cases hdash : arg.getD 0 NUL = '-'
  · rw [if_pos hdash] at hok
    by_cases hd : arg.getD 1 NUL = 'd'
    · rw [if_pos hd] at hok
      by_cases hn : arg.getD 2 NUL = 'n'
      · rw [if_pos hn] at hok
        by_cases heq : arg.getD 3 NUL ≠ '='
        · rw [if_pos heq] at hok; simp at hok
        rw [if_neg heq] at hok
        by_cases hlt : atoi (arg.drop 4) < 1
        · rw [if_pos hlt] at hok; simp at hok
        rw [if_neg hlt] at hok
        simp only [Except.ok.injEq] at hok
        subst hok
        exact Or.inl rfl
      · rw [if_neg hn] at hok
        dsimp only at hok
        generalize (if arg.getD 2 NUL = '=' then arg.drop 3 else DLM_NORMAL) = dlm at hok
        by_cases hlen : strlen dlm < 1
        · rw [if_pos hlen] at hok; simp at hok
        rw [if_neg hlen] at hok
        simp only [Except.ok.injEq] at hok
        subst hok
        exact Or.inl rfl
    · rw [if_neg hd] at hok
      by_cases h1 : arg.getD 1 NUL = NUL
      · rw [if_pos h1] at hok; simp at hok
      rw [if_neg h1] at hok
      obtain ⟨k, _, rfl⟩ := Except_map_ok hok
      exact Or.inl rfl
  · rw [if_neg hdash] at hok
    by_cases hmin : s.minpl = 0
    · rw [if_pos hmin] at hok
      by_cases hle : atoi arg ≤ 0
      · rw [if_pos hle] at hok; simp at hok
      rw [if_neg hle] at hok
      simp only [Except.ok.injEq] at hok
      subst hok
      exact Or.inl rfl
    · rw [if_neg hmin] at hok
      by_cases hmax : s.maxpl = 0
      · rw [if_pos hmax] at hok
        by_cases hle : atoi arg ≤ 0 ∨ atoi arg < s.minpl
        · rw [if_pos hle] at hok; simp at hok
        rw [if_neg hle] at hok
        simp only [Except.ok.injEq] at hok
        subst hok
        exact Or.inl rfl
      · rw [if_neg hmax] at hok; simp at hok

theorem processArgs_wordspace (b : Build) :
    ∀ (args : List (List Char)) (s s1 : State), processArgs b s args = .ok s1 →
      s1.wordspace = s.wordspace ∨ s1.wordspace = (nthword b.credgen_words_txt UINT_MAX).2 := by
  intro args
  induction args with
  | nil =>
    intro s s1 hok
    simp only [processArgs, Except.ok.injEq] at hok
    subst hok
    exact Or.inl rfl
  | cons arg rest ih =>
    intro s s1 hok
    rw [processArgs] at hok
    cases hp : processArg b s arg with
    | error o => rw [hp] at hok; simp at hok
    | ok s2 =>
      rw [hp] at hok
      rcases ih s2 s1 hok with h | h
      · rcases processArg_wordspace b hp with h2 | h2
        · exact Or.inl (h.trans h2)
        · exact Or.inr (h.trans h2)
      · exact Or.inr h

/-- In word mode nothing was requested, the dictionary size is not zero and
is the range of the draws. -/
theorem word_mode_config {s : State} {content : List Char} (h : StateInv s content)
    (hmode : deref (setDefaults s).Keyset = NUL) :
    content = [] ∧ s.wordspace ≠ 0 ∧ (setDefaults s).pickSize = s.wordspace := by
  have heff : effectiveContent content s.wordspace = [] := by
    by_contra hne
    exact (setDefaults_mode h).mpr hne hmode
  have hps : (setDefaults s).pickSize = s.wordspace := by
    have h2 : ¬ deref (defaultKeyset s) ≠ NUL := fun hx => hx hmode
    show (if deref (defaultKeyset s) ≠ NUL then strlen (defaultKeyset s) else s.wordspace) = _
    rw [if_neg h2]
  unfold effectiveContent at heff
  by_cases hc : content = [] ∧ s.wordspace = 0
  · rw [if_pos hc] at heff
    exact absurd heff (by decide)
  · rw [if_neg hc] at heff
    exact ⟨heff, fun hw => hc ⟨heff, hw⟩, hps⟩

/-- The dictionary size `-w` computes for a well-formed blob. -/
theorem wordspace_wellformed (ws : List (List Char)) (rest : List Char) (hwf : WellFormed ws) :
    (nthword (encodeWords ws ++ NUL :: rest) UINT_MAX).2 =
      if UINT_MAX < ws.length then UINT_MAX else ws.length := by
  rw [nthword_wellformed ws rest hwf UINT_MAX (le_refl _)]
  split <;> rfl

/-- One round of the loop in word mode. -/
theorem genLoop_word_step (b : Build) (rnd : RandomSource) (c : Config) (L : Int)
    (hmode : deref c.Keyset = NUL) (fuel : Nat) (pd : Int) (k : Nat) (out : List Char)
    (hlt : pd < L) (tmp : List Char)
    (htmp : (nthword b.credgen_words_txt (rnd k c.pickSize)).1 = some tmp) :
    genLoop b rnd c L (fuel + 1) pd k out =
      genLoop b rnd c L fuel (toInt32 (pd + ((cstr tmp).length : Int))) (k + 1)
        (out ++ wordDelim c pd ++ cstr tmp) := by
  rw [genLoop, if_pos hlt, if_neg (fun hx => hx hmode)]
  simp only [htmp]
  rfl

theorem wordDelim_of_ne (c : Config) {pd : Int} (h : pd ≠ 0) : wordDelim c pd = delimText c := by
  unfold wordDelim delimText
  cases c.dlm with
  | none => rfl
  | some d => simp [h]

theorem wordDelim_zero (c : Config) : wordDelim c 0 = [] := by
  unfold wordDelim
  cases c.dlm with
  | none => rfl
  | some d => simp

theorem wordsOut_of_ne (c : Config) {pd : Int} (h : pd ≠ 0) (words : List (List Char)) :
    wordsOut c pd words = words.flatMap (fun x => delimText c ++ x) := by
  cases words with
  | nil => rfl
  | cons w t => simp [wordsOut, wordDelim_of_ne c h, List.flatMap_cons]

theorem intercalate_cons_flatMap (sep w : List Char) (t : List (List Char)) :
    List.intercalate sep (w :: t) = w ++ t.flatMap (fun x => sep ++ x) := by
  induction t generalizing w with
  | nil => simp [List.intercalate, List.intersperse]
  | cons a u ih =>
    have := ih a
    simp only [List.intercalate, List.intersperse, List.flatten_cons, List.flatMap_cons] at this ⊢
    rw [this]
    simp

theorem wordsOut_zero (c : Config) (words : List (List Char)) :
    wordsOut c 0 words = List.intercalate (delimText c) words := by
  cases words with
  | nil => simp [wordsOut, List.intercalate, List.intersperse]
  | cons w t => rw [intercalate_cons_flatMap, wordsOut, wordDelim_zero, List.nil_append]

/-- The word-mode loop while the position stays inside `int`: it ends, having
printed the drawn words from the first one on until the position reaches the
target, with the delimiter before every word but the one at position 0. -/
theorem genLoop_word (b : Build) (rnd : RandomSource) (c : Config) (L : Nat)
    (hmode : deref c.Keyset = NUL)
    (hdraw : ∀ k, ∃ tmp, (nthword b.credgen_words_txt (rnd k c.pickSize)).1 = some tmp ∧
      1 ≤ (cstr tmp).length ∧ L + (cstr tmp).length ≤ 2147483648) :
    ∀ (m pd k : Nat), L - pd ≤ m →
      ∃ words : List (List Char),
        words = (List.range words.length).map (fun j => drawnWord b rnd c (k + j)) ∧
        L ≤ pd + (words.map List.length).sum ∧
        (pd < L → words ≠ [] ∧ pd + (words.dropLast.map List.length).sum < L) ∧
        (L ≤ pd → words = []) ∧
        ∀ (fuel : Nat) (out : List Char), m < fuel →
          genLoop b rnd c (L : Int) fuel (pd : Int) k out =
            some { code := 0, stdout := out ++ wordsOut c (pd : Int) words ++ ['\n'],
                   stderr := [], draws := k + words.length } := by
  have hdone : ∀ (pd k : Nat), L ≤ pd →
      ∃ words : List (List Char),
        words = (List.range words.length).map (fun j => drawnWord b rnd c (k + j)) ∧
        L ≤ pd + (words.map List.length).sum ∧
        (pd < L → words ≠ [] ∧ pd + (words.dropLast.map List.length).sum < L) ∧
        (L ≤ pd → words = []) ∧
        ∀ (fuel : Nat) (out : List Char), 0 < fuel →
          genLoop b rnd c (L : Int) fuel (pd : Int) k out =
            some { code := 0, stdout := out ++ wordsOut c (pd : Int) words ++ ['\n'],
                   stderr := [], draws := k + words.length } := by
    intro pd k hle
    refine ⟨[], rfl, by simpa using hle, fun h => absurd h (by omega), fun _ => rfl, ?_⟩
    intro fuel out hf
    obtain ⟨f, rfl⟩ : ∃ f, fuel = f + 1 := ⟨fuel - 1, by omega⟩
    rw [genLoop, if_neg (by omega)]
    simp [wordsOut]
  intro m
  induction m with
  | zero =>
    intro pd k hm
    obtain ⟨words, q1, q2, q3, q4, q5⟩ := hdone pd k (by omega)
    exact ⟨words, q1, q2, q3, q4, fun fuel out hf => q5 fuel out hf⟩
  | succ n ih =>
    intro pd k hm
    by_cases hle : L ≤ pd
    · obtain ⟨words, q1, q2, q3, q4, q5⟩ := hdone pd k hle
      exact ⟨words, q1, q2, q3, q4, fun fuel out hf => q5 fuel out (by omega)⟩
    · obtain ⟨tmp, htmp, h1, h2⟩ := hdraw k
      have hw : drawnWord b rnd c k = cstr tmp := by
        unfold drawnWord; rw [htmp]
      have hpd : toInt32 ((pd : Int) + ((cstr tmp).length : Int)) =
          ((pd + (cstr tmp).length : Nat) : Int) := by
        rw [toInt32_of_range _ (by omega) (by omega)]
        push_cast
        rfl
      obtain ⟨words, hwords, hsum, hlast, hnil, hrun⟩ :=
        ih (pd + (cstr tmp).length) (k + 1) (by omega)
      refine ⟨cstr tmp :: words, ?_, ?_, ?_, fun h => absurd h hle, ?_⟩
      · rw [List.length_cons, List.range_succ_eq_map, List.map_cons, List.map_map]
        rw [Nat.add_zero, hw]
        refine congrArg (List.cons (cstr tmp)) ?_
        conv_lhs => rw [hwords]
        apply List.map_congr_left
        intro j _
        show drawnWord b rnd c (k + 1 + j) = drawnWord b rnd c (k + (j + 1))
        rw [Nat.add_assoc, Nat.add_comm 1 j]
      · simp only [List.map_cons, List.sum_cons]
        omega
      · intro _
        refine ⟨by simp, ?_⟩
        cases words with
        | nil => simpa using Nat.lt_of_not_le hle
        | cons a t =>
          have hne : pd + (cstr tmp).length < L := by
            by_contra hx
            have := hnil (by omega)
            simp at this
          have := (hlast hne).2
          simp only [List.dropLast_cons₂, List.map_cons, List.sum_cons]
          omega
      · intro fuel out hf
        obtain ⟨f, rfl⟩ : ∃ f, fuel = f + 1 := ⟨fuel - 1, by omega⟩
        have hstep := genLoop_word_step b rnd c (L : Int) hmode f (pd : Int) k out (by omega)
          tmp htmp
        rw [hpd] at hstep
        rw [hstep, hrun f _ (by omega)]
        have hpos : ((pd + (cstr tmp).length : Nat) : Int) ≠ 0 := by omega
        rw [wordsOut_of_ne c hpos]
        simp only [wordsOut, List.append_assoc, List.length_cons, Option.some.injEq,
          Outcome.mk.injEq, true_and, and_true, List.append_cancel_left_eq]
        omega

/-- In word mode over a well-formed blob every in-range draw selects a
record of the dictionary. -/
theorem word_mode_draw (b : Build) (rnd : RandomSource) (args : List (List Char)) (s : State)
    (ws : List (List Char)) (rest : List Char)
    (hok : processArgs b State.init args = .ok s)
    (hmode : deref (setDefaults s).Keyset = NUL) (hr : InRange rnd)
    (hblob : b.credgen_words_txt = encodeWords ws ++ NUL :: rest) (hwf : WellFormed ws) :
    0 < (setDefaults s).pickSize ∧ (setDefaults s).pickSize ≤ ws.length ∧
    (setDefaults s).pickSize =
      (if UINT_MAX < ws.length then UINT_MAX else ws.length) ∧
    ∀ k, ∃ (tmp : List Char) (h : rnd k (setDefaults s).pickSize < ws.length),
      rnd k (setDefaults s).pickSize < (setDefaults s).pickSize ∧
      (nthword b.credgen_words_txt (rnd k (setDefaults s).pickSize)).1 = some tmp ∧
      cstr tmp = ws.get ⟨rnd k (setDefaults s).pickSize, h⟩ ∧
      drawnWord b rnd (setDefaults s) k = ws.get ⟨rnd k (setDefaults s).pickSize, h⟩ ∧
      1 ≤ (cstr tmp).length := by
  have hinv := StateInv_accepted b hok
  obtain ⟨_, hw0, hps⟩ := word_mode_config hinv hmode
  have hwsp : s.wordspace = if UINT_MAX < ws.length then UINT_MAX else ws.length := by
    rcases processArgs_wordspace b args _ _ hok with h | h
    · exact absurd h hw0
    · rw [h, hblob, wordspace_wellformed ws rest hwf]
  have hpick : (setDefaults s).pickSize =
      (if UINT_MAX < ws.length then UINT_MAX else ws.length) := hps.trans hwsp
  have hpos : 0 < (setDefaults s).pickSize := by rw [hps]; omega
  have hle : (setDefaults s).pickSize ≤ ws.length ∧ (setDefaults s).pickSize ≤ UINT_MAX := by
    rw [hpick]; split <;> constructor <;> omega
  refine ⟨hpos, hle.1, hpick, fun k => ?_⟩
  have hlt := hr k _ hpos
  have hidx : rnd k (setDefaults s).pickSize < ws.length := by omega
  have hnth := nthword_wellformed ws rest hwf (rnd k (setDefaults s).pickSize) (by omega)
  rw [if_pos hidx] at hnth
  have hrec := cstr_record ws rest hwf _ hidx
  have hne := (hwf _ (List.get_mem ws _ hidx)).1
  refine ⟨_, hidx, hlt, by rw [hblob, hnth], hrec, ?_, ?_⟩
  · unfold drawnWord
    rw [hblob, hnth]
    exact hrec
  · rw [hrec]
    exact List.length_pos.mpr hne

/-- The backbone of the word-mode claims, for runs whose position stays
inside `int`: when the largest length that can be chosen plus the length of
any record is at most `INT_MAX + 1`, an accepted word-mode run chooses a
length `L` in the configured range, prints the drawn records joined by the
delimiter text and a newline, stops with the first word that brings the sum
of the lengths to `L` or beyond, and exits with 0. -/
theorem main_word (b : Build) (rnd : RandomSource) (args : List (List Char)) (s : State)
    (ws : List (List Char)) (rest : List Char)
    (hok : processArgs b State.init args = .ok s) (hcompat : incompatible s = false)
    (hmode : deref (setDefaults s).Keyset = NUL) (hr : InRange rnd)
    (hblob : b.credgen_words_txt = encodeWords ws ++ NUL :: rest) (hwf : WellFormed ws)
    (hfit : ∀ w ∈ ws, (setDefaults s).maxpl + (w.length : Int) ≤ 2147483648) :
    ∃ (L : Nat) (words : List (List Char)),
      chooseLength rnd (setDefaults s) = (L : Int) ∧
      (setDefaults s).minpl ≤ (L : Int) ∧ (L : Int) ≤ (setDefaults s).maxpl ∧
      words = (List.range words.length).map (fun j => drawnWord b rnd (setDefaults s) (j + 1)) ∧
      words ≠ [] ∧ L ≤ (words.map List.length).sum ∧
      (words.dropLast.map List.length).sum < L ∧
      ∀ fuel, L < fuel →
        main b rnd fuel args =
          some { code := 0,
                 stdout := List.intercalate (delimText (setDefaults s)) words ++ ['\n'],
                 stderr := [], draws := words.length + 1 } := by
  have hinv := StateInv_accepted b hok
  obtain ⟨h1, h2, h3⟩ := setDefaults_range hinv
  obtain ⟨_, _, h5, h6⟩ := chooseLength_spec rnd (setDefaults s) hr h1 h2 h3
  obtain ⟨L, hL⟩ : ∃ L : Nat, chooseLength rnd (setDefaults s) = (L : Int) :=
    ⟨(chooseLength rnd (setDefaults s)).toNat,
      (Int.toNat_of_nonneg (le_trans (by norm_num) (le_trans h1 h5))).symm⟩
  rw [hL] at h5 h6
  have hlt : 0 < L := by
    have : (1 : Int) ≤ (L : Int) := le_trans h1 h5
    exact_mod_cast this
  have hdraw2 : ∀ k, ∃ tmp,
      (nthword b.credgen_words_txt (rnd k (setDefaults s).pickSize)).1 = some tmp ∧
      1 ≤ (cstr tmp).length ∧ L + (cstr tmp).length ≤ 2147483648 := by
    intro k
    obtain ⟨tmp, hidx, _, hn, hc, _, hlen⟩ :=
      (word_mode_draw b rnd args s ws rest hok hmode hr hblob hwf).2.2.2 k
    refine ⟨tmp, hn, hlen, ?_⟩
    have h7 := hfit _ (List.get_mem ws _ hidx)
    rw [← hc] at h7
    have h8 : (L : Int) + ((cstr tmp).length : Int) ≤ 2147483648 :=
      le_trans (add_le_add_right h6 _) h7
    exact_mod_cast h8
  obtain ⟨words, hwords, hsum, hlast, _, hrun⟩ :=
    genLoop_word b rnd (setDefaults s) L hmode hdraw2 L 0 1 (Nat.sub_le _ _)
  refine ⟨L, words, hL, h5, h6, ?_, (hlast hlt).1, ?_, ?_, fun fuel hf => ?_⟩
  · conv_lhs => rw [hwords]
    apply List.map_congr_left
    intro j _
    rw [Nat.add_comm]
  · rw [Nat.zero_add] at hsum; exact hsum
  · have := (hlast hlt).2
    rw [Nat.zero_add] at this; exact this
  · have hg := hrun fuel [] hf
    unfold main
    rw [hok]
    show generate b rnd fuel s = _
    unfold generate
    rw [hcompat, if_neg (by simp), if_neg (not_lt.mpr h2), hL]
    rw [show ((0 : Nat) : Int) = 0 from rfl] at hg
    rw [hg, wordsOut_zero, List.nil_append, Nat.add_comm]

end Credgen

namespace Credgen

/-! ## Word mode when the position leaves `int` -/

/-- A stretch of `n` rounds of the word-mode loop in which every draw selects
the same two-letter record, the position does not pass `INT_MAX` and is never
0: each round prints the delimiter text and the record. -/
theorem genLoop_word_rounds (b : Build) (rnd : RandomSource) (c : Config) (L : Int)
    (hmode : deref c.Keyset = NUL) (idx : Nat) (tmp : List Char)
    (hnth : (nthword b.credgen_words_txt idx).1 = some tmp) (hlen : (cstr tmp).length = 2) :
    ∀ (n fuel : Nat) (pd : Int) (k : Nat) (out : List Char),
      (∀ j, j < n → rnd (k + j) c.pickSize = idx) →
      -2147483648 ≤ pd → pd + 2 * (n : Int) ≤ 2147483647 → pd + 2 * (n : Int) ≤ L + 1 →
      (∀ j : Nat, j < n → pd + 2 * (j : Int) ≠ 0) →
      genLoop b rnd c L (fuel + n) pd k out =
        genLoop b rnd c L fuel (pd + 2 * (n : Int)) (k + n)
          (out ++ (List.replicate n (delimText c ++ cstr tmp)).flatten) := by
  intro n
  induction n with
  | zero =>
    intro fuel pd k out _ _ _ _ _
    simp
  | succ m ih =>
    intro fuel pd k out hrnd hlo hhi hL hnz
    have h0 : rnd k c.pickSize = idx := by simpa using hrnd 0 (Nat.succ_pos _)
    have hpd : pd ≠ 0 := by simpa using hnz 0 (Nat.succ_pos _)
    have hstep := genLoop_word_step b rnd c L hmode (fuel + m) pd k out (by omega) tmp
      (by rw [h0]; exact hnth)
    rw [hlen, toInt32_of_range _ (by omega) (by omega), wordDelim_of_ne c hpd] at hstep
    rw [show fuel + (m + 1) = fuel + m + 1 by omega, hstep]
    rw [ih fuel (pd + ((2 : Nat) : Int)) (k + 1) _
      (fun j hj => by rw [Nat.add_assoc, Nat.add_comm 1 j]; exact hrnd (j + 1) (by omega))
      (by omega) (by omega) (by omega)
      (fun j hj => by have := hnz (j + 1) (by omega); push_cast at this ⊢; omega)]
    have e1 : pd + ((2 : Nat) : Int) + 2 * (m : Int) = pd + 2 * ((m + 1 : Nat) : Int) := by
      push_cast; omega
    have e2 : k + 1 + m = k + (m + 1) := by omega
    rw [e1, e2, List.replicate_succ, List.flatten_cons]
    simp only [List.append_assoc]

theorem main_eq_genLoop (b : Build) (rnd : RandomSource) (fuel : Nat)
    (args : List (List Char)) (s : State)
    (hok : processArgs b State.init args = .ok s) (hcompat : incompatible s = false)
    (hrange : (setDefaults s).minpl ≤ (setDefaults s).maxpl) :
    main b rnd fuel args =
      genLoop b rnd (setDefaults s) (chooseLength rnd (setDefaults s)) fuel 0 1 [] := by
  unfold main
  rw [hok]
  show generate b rnd fuel s = _
  unfold generate
  rw [hcompat, if_neg (by simp), if_neg (not_lt.mpr hrange)]

theorem length_flatten_replicate (n : Nat) (w : List Char) :
    (List.replicate n w).flatten.length = n * w.length := by
  induction n with
  | zero => simp
  | succ m ih =>
    rw [List.replicate_succ, List.flatten_cons, List.length_append, ih]
    rw [Nat.succ_mul, Nat.add_comm]

theorem abaBuild_nth0 :
    (nthword abaBuild.credgen_words_txt 0).1 = some abaBuild.credgen_words_txt := by decide

theorem abaBuild_nth1 :
    (nthword abaBuild.credgen_words_txt 1).1 = some ['a', NUL, NUL] := by decide

theorem abaBuild_cstr0 : cstr abaBuild.credgen_words_txt = ['a', 'b'] := by decide

theorem abaBuild_cstr1 : cstr ['a', NUL, NUL] = ['a'] := by decide

/-- One round that draws "ab" from `abaBuild`. -/
theorem aba_step_ab (rnd : RandomSource) (c : Config) (L : Int)
    (hmode : deref c.Keyset = NUL) (hps : c.pickSize = 2) (fuel : Nat) (pd : Int) (k : Nat)
    (out : List Char) (hlt : pd < L) (hr : rnd k 2 = 0) :
    genLoop abaBuild rnd c L (fuel + 1) pd k out =
      genLoop abaBuild rnd c L fuel (toInt32 (pd + 2)) (k + 1)
        (out ++ wordDelim c pd ++ ['a', 'b']) := by
  have := genLoop_word_step abaBuild rnd c L hmode fuel pd k out hlt _
    (by rw [hps, hr]; exact abaBuild_nth0)
  rw [abaBuild_cstr0] at this
  exact this

/-- One round that draws "a" from `abaBuild`. -/
theorem aba_step_a (rnd : RandomSource) (c : Config) (L : Int)
    (hmode : deref c.Keyset = NUL) (hps : c.pickSize = 2) (fuel : Nat) (pd : Int) (k : Nat)
    (out : List Char) (hlt : pd < L) (hr : rnd k 2 = 1) :
    genLoop abaBuild rnd c L (fuel + 1) pd k out =
      genLoop abaBuild rnd c L fuel (toInt32 (pd + 1)) (k + 1)
        (out ++ wordDelim c pd ++ ['a']) := by
  have := genLoop_word_step abaBuild rnd c L hmode fuel pd k out hlt _
    (by rw [hps, hr]; exact abaBuild_nth1)
  rw [abaBuild_cstr1] at this
  exact this

/-- A stretch of rounds that all draw "ab" from `abaBuild`. -/
theorem aba_rounds_ab (rnd : RandomSource) (c : Config) (L : Int)
    (hmode : deref c.Keyset = NUL) (hps : c.pickSize = 2) (n fuel : Nat) (pd : Int) (k : Nat)
    (out : List Char) (hrnd : ∀ j, j < n → rnd (k + j) 2 = 0)
    (hlo : -2147483648 ≤ pd) (hhi : pd + 2 * (n : Int) ≤ 2147483647)
    (hL : pd + 2 * (n : Int) ≤ L + 1) (hnz : ∀ j : Nat, j < n → pd + 2 * (j : Int) ≠ 0) :
    genLoop abaBuild rnd c L (fuel + n) pd k out =
      genLoop abaBuild rnd c L fuel (pd + 2 * (n : Int)) (k + n)
        (out ++ (List.replicate n (delimText c ++ ['a', 'b'])).flatten) := by
  have := genLoop_word_rounds abaBuild rnd c L hmode 0 _ abaBuild_nth0
    (by rw [abaBuild_cstr0]; rfl) n fuel pd k out (by rw [hps]; exact hrnd) hlo hhi hL hnz
  rw [abaBuild_cstr0] at this
  exact this

/-- The loop of the run `-w 2147483647` over `abaBuild` when call 1073741825
draws "a" and every other call draws "ab": the position reaches 2147483646,
wraps to -2147483648 with the next "ab", becomes odd with the "a", and climbs
to 2147483647, where the loop ends. -/
theorem overflow_loop (rnd : RandomSource) (c : Config)
    (hmode : deref c.Keyset = NUL) (hps : c.pickSize = 2) (hdlm : c.dlm = none)
    (hr0 : ∀ k, k ≠ 1073741825 → rnd k 2 = 0) (hr1 : rnd 1073741825 2 = 1) (f : Nat) :
    genLoop abaBuild rnd c 2147483647 (f + 3221225473) 0 1 [] =
      some { code := 0, stdout := overflowOutput ++ ['\n'], stderr := [],
             draws := 3221225473 } := by
  have hd : delimText c = [] := by unfold delimText; rw [hdlm]
  have hwd : ∀ pd, wordDelim c pd = [] := by intro pd; unfold wordDelim; rw [hdlm]
  rw [show f + 3221225473 = f + 1 + 2147483647 + 1 + 1 + 1073741822 + 1 by omega]
  rw [aba_step_ab rnd c 2147483647 hmode hps (f + 1 + 2147483647 + 1 + 1 + 1073741822) 0 1 []
    (by norm_num) (hr0 1 (by norm_num))]
  rw [show toInt32 (0 + 2) = 2 by decide, show (1 : Nat) + 1 = 2 by rfl]
  rw [aba_rounds_ab rnd c 2147483647 hmode hps 1073741822 (f + 1 + 2147483647 + 1 + 1) 2 2
    ([] ++ wordDelim c 0 ++ ['a', 'b'])
    (fun j hj => hr0 _ (by omega)) (by norm_num) (by norm_num) (by norm_num)
    (fun j _ => by omega)]
  rw [show (2 : Int) + 2 * ((1073741822 : Nat) : Int) = 2147483646 by norm_num,
    show (2 : Nat) + 1073741822 = 1073741824 by rfl]
  rw [aba_step_ab rnd c 2147483647 hmode hps (f + 1 + 2147483647 + 1) 2147483646 1073741824
    ([] ++ wordDelim c 0 ++ ['a', 'b'] ++
      (List.replicate 1073741822 (delimText c ++ ['a', 'b'])).flatten)
    (by norm_num) (hr0 _ (by norm_num))]
  rw [show toInt32 (2147483646 + 2) = -2147483648 by decide,
    show (1073741824 : Nat) + 1 = 1073741825 by rfl]
  rw [aba_step_a rnd c 2147483647 hmode hps (f + 1 + 2147483647) (-2147483648) 1073741825
    ([] ++ wordDelim c 0 ++ ['a', 'b'] ++
      (List.replicate 1073741822 (delimText c ++ ['a', 'b'])).flatten ++
      wordDelim c 2147483646 ++ ['a', 'b'])
    (by norm_num) hr1]
  rw [show toInt32 (-2147483648 + 1) = -2147483647 by decide,
    show (1073741825 : Nat) + 1 = 1073741826 by rfl]
  rw [aba_rounds_ab rnd c 2147483647 hmode hps 2147483647 (f + 1) (-2147483647) 1073741826
    ([] ++ wordDelim c 0 ++ ['a', 'b'] ++
      (List.replicate 1073741822 (delimText c ++ ['a', 'b'])).flatten ++
      wordDelim c 2147483646 ++ ['a', 'b'] ++ wordDelim c (-2147483648) ++ ['a'])
    (fun j hj => hr0 _ (by omega)) (by norm_num) (by norm_num) (by norm_num)
    (fun j _ => by omega)]
  rw [show (-2147483647 : Int) + 2 * ((2147483647 : Nat) : Int) = 2147483647 by norm_num,
    show (1073741826 : Nat) + 2147483647 = 3221225473 by rfl]
  rw [genLoop, if_neg (by norm_num)]
  simp only [hd, hwd, List.nil_append, List.append_nil, overflowOutput, List.append_assoc]

theorem overflowRnd_inRange : InRange overflowRnd := by
  intro k upper h
  unfold overflowRnd
  split
  · exact Nat.mod_lt _ h
  · exact h

set_option maxRecDepth 100000 in
theorem overflow_accepted :
    processArgs abaBuild State.init overflowArgs = .ok overflowState := by
  decide

theorem abaBuild_wellFormed :
    abaBuild.credgen_words_txt = encodeWords abaWords ++ NUL :: [] ∧ WellFormed abaWords := by
  refine ⟨by decide, ?_⟩
  unfold WellFormed
  decide

theorem overflowOutput_length : overflowOutput.length = 6442450943 := by
  rw [overflowOutput.eq_1, List.length_append, List.length_append, List.length_append,
    List.length_append, length_flatten_replicate, length_flatten_replicate]
  rfl

/-- C2 at a failing input: the run `credgen -w 2147483647` over the dictionary
"ab", "a", when call 1073741825 of the random source selects "a" and every other call selects
"ab": the arguments are accepted, the draws are in range, the target length is
2147483647, and the run prints 3221225472 words whose lengths add up to
6442450943.  The position wrapped from 2147483646 to -2147483648 after the
first 1073741824 words, when the sum 2147483648 had already passed the target,
and the loop went on for 2147483648 more words. -/
theorem word_overshoot_overflow :
    abaBuild.credgen_words_txt = encodeWords abaWords ++ NUL :: [] ∧ WellFormed abaWords ∧
    processArgs abaBuild State.init overflowArgs = .ok overflowState ∧
    incompatible overflowState = false ∧ deref (setDefaults overflowState).Keyset = NUL ∧
    InRange overflowRnd ∧
    chooseLength overflowRnd (setDefaults overflowState) = 2147483647 ∧
    (∀ fuel, 3221225472 < fuel →
      main abaBuild overflowRnd fuel overflowArgs =
        some { code := 0, stdout := overflowOutput ++ ['\n'], stderr := [],
               draws := 3221225473 }) ∧
    overflowOutput =
      ([['a', 'b']] ++ List.replicate 1073741822 ['a', 'b'] ++ [['a', 'b']] ++ [['a']] ++
        List.replicate 2147483647 ['a', 'b']).flatten ∧
    overflowOutput.length = 6442450943 ∧
    ¬ (overflowOutput.length < 2147483647 + 2) := by
  have hlen := overflowOutput_length
  refine ⟨abaBuild_wellFormed.1, abaBuild_wellFormed.2, overflow_accepted, by decide, by decide,
    overflowRnd_inRange, by decide, ?_, ?_, hlen, by rw [hlen]; norm_num⟩
  · intro fuel hf
    obtain ⟨f, rfl⟩ : ∃ f, fuel = f + 3221225473 := ⟨fuel - 3221225473, by omega⟩
    rw [main_eq_genLoop abaBuild overflowRnd _ overflowArgs overflowState overflow_accepted
      (by decide) (by decide)]
    rw [show chooseLength overflowRnd (setDefaults overflowState) = 2147483647 by decide]
    exact overflow_loop overflowRnd (setDefaults overflowState) (by decide) (by decide)
      (by decide) (fun k hk => by simp [overflowRnd, hk]) (by decide) f
  · rw [overflowOutput.eq_1, List.flatten_append, List.flatten_append, List.flatten_append,
      List.flatten_append, List.flatten_singleton, List.flatten_singleton]

/-- The loop of the run `-w -d 2147483647` over `abaBuild` when call
3221225472 draws "a" and every other call draws "ab": the position wraps from
2147483646 to -2147483648, climbs back to exactly 0, where the next word is
printed without a delimiter, and then reaches 2147483647. -/
theorem delim_overflow_loop (rnd : RandomSource) (c : Config)
    (hmode : deref c.Keyset = NUL) (hps : c.pickSize = 2) (hdlm : c.dlm = some DLM_NORMAL)
    (hr0 : ∀ k, k ≠ 3221225472 → rnd k 2 = 0) (hr1 : rnd 3221225472 2 = 1) (f : Nat) :
    genLoop abaBuild rnd c 2147483647 (f + 3221225473) 0 1 [] =
      some { code := 0, stdout := delimOverflowOutput ++ ['\n'], stderr := [],
             draws := 3221225473 } := by
  have hd : delimText c = [' '] := by
    unfold delimText; rw [hdlm]; decide
  have hw0 : wordDelim c 0 = [] := wordDelim_zero c
  have hw1 : wordDelim c 2147483646 = [' '] := by
    rw [wordDelim_of_ne c (by norm_num), hd]
  rw [show f + 3221225473 =
    f + 1 + 1 + 1073741822 + 1 + 1073741824 + 1 + 1073741822 + 1 by omega]
  rw [aba_step_ab rnd c 2147483647 hmode hps
    (f + 1 + 1 + 1073741822 + 1 + 1073741824 + 1 + 1073741822) 0 1 []
    (by norm_num) (hr0 1 (by norm_num))]
  rw [show toInt32 (0 + 2) = 2 by decide, show (1 : Nat) + 1 = 2 by rfl]
  rw [aba_rounds_ab rnd c 2147483647 hmode hps 1073741822
    (f + 1 + 1 + 1073741822 + 1 + 1073741824 + 1) 2 2
    ([] ++ wordDelim c 0 ++ ['a', 'b'])
    (fun j hj => hr0 _ (by omega)) (by norm_num) (by norm_num) (by norm_num)
    (fun j _ => by omega)]
  rw [show (2 : Int) + 2 * ((1073741822 : Nat) : Int) = 2147483646 by norm_num,
    show (2 : Nat) + 1073741822 = 1073741824 by rfl]
  rw [aba_step_ab rnd c 2147483647 hmode hps
    (f + 1 + 1 + 1073741822 + 1 + 1073741824) 2147483646 1073741824
    ([] ++ wordDelim c 0 ++ ['a', 'b'] ++
      (List.replicate 1073741822 (delimText c ++ ['a', 'b'])).flatten)
    (by norm_num) (hr0 _ (by norm_num))]
  rw [show toInt32 (2147483646 + 2) = -2147483648 by decide,
    show (1073741824 : Nat) + 1 = 1073741825 by rfl]
  rw [aba_rounds_ab rnd c 2147483647 hmode hps 1073741824
    (f + 1 + 1 + 1073741822 + 1) (-2147483648) 1073741825
    ([] ++ wordDelim c 0 ++ ['a', 'b'] ++
      (List.replicate 1073741822 (delimText c ++ ['a', 'b'])).flatten ++
      wordDelim c 2147483646 ++ ['a', 'b'])
    (fun j hj => hr0 _ (by omega)) (by norm_num) (by norm_num) (by norm_num)
    (fun j _ => by omega)]
  rw [show (-2147483648 : Int) + 2 * ((1073741824 : Nat) : Int) = 0 by norm_num,
    show (1073741825 : Nat) + 1073741824 = 2147483649 by rfl]
  rw [aba_step_ab rnd c 2147483647 hmode hps (f + 1 + 1 + 1073741822) 0 2147483649
    ([] ++ wordDelim c 0 ++ ['a', 'b'] ++
      (List.replicate 1073741822 (delimText c ++ ['a', 'b'])).flatten ++
      wordDelim c 2147483646 ++ ['a', 'b'] ++
      (List.replicate 1073741824 (delimText c ++ ['a', 'b'])).flatten)
    (by norm_num) (hr0 _ (by norm_num))]
  rw [show toInt32 (0 + 2) = 2 by decide, show (2147483649 : Nat) + 1 = 2147483650 by rfl]
  rw [aba_rounds_ab rnd c 2147483647 hmode hps 1073741822 (f + 1 + 1) 2 2147483650
    ([] ++ wordDelim c 0 ++ ['a', 'b'] ++
      (List.replicate 1073741822 (delimText c ++ ['a', 'b'])).flatten ++
      wordDelim c 2147483646 ++ ['a', 'b'] ++
      (List.replicate 1073741824 (delimText c ++ ['a', 'b'])).flatten ++
      wordDelim c 0 ++ ['a', 'b'])
    (fun j hj => hr0 _ (by omega)) (by norm_num) (by norm_num) (by norm_num)
    (fun j _ => by omega)]
  rw [show (2 : Int) + 2 * ((1073741822 : Nat) : Int) = 2147483646 by norm_num,
    show (2147483650 : Nat) + 1073741822 = 3221225472 by rfl]
  rw [aba_step_a rnd c 2147483647 hmode hps (f + 1) 2147483646 3221225472
    ([] ++ wordDelim c 0 ++ ['a', 'b'] ++
      (List.replicate 1073741822 (delimText c ++ ['a', 'b'])).flatten ++
      wordDelim c 2147483646 ++ ['a', 'b'] ++
      (List.replicate 1073741824 (delimText c ++ ['a', 'b'])).flatten ++
      wordDelim c 0 ++ ['a', 'b'] ++
      (List.replicate 1073741822 (delimText c ++ ['a', 'b'])).flatten)
    (by norm_num) hr1]
  rw [show toInt32 (2147483646 + 1) = 2147483647 by decide,
    show (3221225472 : Nat) + 1 = 3221225473 by rfl]
  rw [genLoop, if_neg (by norm_num)]
  rw [hd, hw0, hw1, delimOverflowOutput.eq_1]
  simp only [List.nil_append, List.append_nil, List.append_assoc]

theorem delimOverflowRnd_inRange : InRange delimOverflowRnd := by
  intro k upper h
  unfold delimOverflowRnd
  split
  · exact Nat.mod_lt _ h
  · exact h

set_option maxRecDepth 100000 in
theorem delimOverflow_accepted :
    processArgs abaBuild State.init delimOverflowArgs = .ok delimOverflowState := by
  decide

theorem flatMap_replicate (n : Nat) (x : List Char) (f : List Char → List Char) :
    (List.replicate n x).flatMap f = (List.replicate n (f x)).flatten := by
  induction n with
  | zero => rfl
  | succ m ih => rw [List.replicate_succ, List.replicate_succ, List.flatMap_cons, ih,
      List.flatten_cons]

theorem delimOverflowOutput_length : delimOverflowOutput.length = 9663676413 := by
  rw [delimOverflowOutput.eq_1]
  repeat rw [List.length_append]
  rw [length_flatten_replicate, length_flatten_replicate]
  rfl

theorem delimOverflowJoined_length :
    (List.intercalate [' '] delimOverflowWords).length = 9663676414 := by
  rw [delimOverflowWords.eq_1, intercalate_cons_flatMap, List.flatMap_append, flatMap_replicate,
    List.flatMap_cons, List.flatMap_nil]
  repeat rw [List.length_append]
  rw [length_flatten_replicate]
  rfl

/-- C4 at a failing input: the run `credgen -w -d 2147483647` over the
dictionary "ab", "a", when call 3221225472 of the random source selects "a" and every other call selects
"ab": the arguments are accepted with the delimiter " ", the draws are in
range, and the run ends with exit code 0 after printing the 3221225472 drawn
words with only 3221225470 delimiters.  The word printed when the position
had wrapped and come back to 0 follows its predecessor directly, so the
credential is one character shorter than the drawn words joined by the
delimiter and differs from it. -/
theorem word_delimiter_overflow :
    abaBuild.credgen_words_txt = encodeWords abaWords ++ NUL :: [] ∧ WellFormed abaWords ∧
    processArgs abaBuild State.init delimOverflowArgs = .ok delimOverflowState ∧
    incompatible delimOverflowState = false ∧
    deref (setDefaults delimOverflowState).Keyset = NUL ∧
    (setDefaults delimOverflowState).dlm = some [' '] ∧
    InRange delimOverflowRnd ∧
    (∀ fuel, 3221225472 < fuel →
      main abaBuild delimOverflowRnd fuel delimOverflowArgs =
        some { code := 0, stdout := delimOverflowOutput ++ ['\n'], stderr := [],
               draws := 3221225473 }) ∧
    delimOverflowWords.length = 3221225472 ∧
    delimOverflowOutput.length = 9663676413 ∧
    (List.intercalate [' '] delimOverflowWords).length = 9663676414 ∧
    delimOverflowOutput ≠ List.intercalate [' '] delimOverflowWords := by
  refine ⟨abaBuild_wellFormed.1, abaBuild_wellFormed.2, delimOverflow_accepted, by decide,
    by decide, by decide, delimOverflowRnd_inRange, ?_, ?_, delimOverflowOutput_length,
    delimOverflowJoined_length, ?_⟩
  · intro fuel hf
    obtain ⟨f, rfl⟩ : ∃ f, fuel = f + 3221225473 := ⟨fuel - 3221225473, by omega⟩
    rw [main_eq_genLoop abaBuild delimOverflowRnd _ delimOverflowArgs delimOverflowState
      delimOverflow_accepted (by decide) (by decide)]
    rw [show chooseLength delimOverflowRnd (setDefaults delimOverflowState) = 2147483647
      by decide]
    exact delim_overflow_loop delimOverflowRnd (setDefaults delimOverflowState) (by decide)
      (by decide) (by decide) (fun k hk => by simp [delimOverflowRnd, hk]) (by decide) f
  · rw [delimOverflowWords.eq_1, List.length_cons, List.length_append, List.length_replicate]
    rfl
  · intro h
    have h1 := delimOverflowOutput_length
    rw [h, delimOverflowJoined_length] at h1
    exact absurd h1 (by norm_num)

end Credgen

namespace Credgen

/-! ## What every finished generation run looks like -/

/-- Every generation run that ends, ends with exit code 0 and has printed
characters that come from the delimiter, from the drawn Keyset positions or
from the drawn records, followed by one newline; `P` is any property these
sources have.  The loop needs the dictionary lookup to succeed in word mode,
which `hword` provides. -/
theorem genLoop_finished (b : Build) (rnd : RandomSource) (c : Config) (L : Int)
    (P : Char → Prop)
    (hcd : ∀ pd, ∀ ch ∈ charDelim c pd, P ch) (hwd : ∀ pd, ∀ ch ∈ wordDelim c pd, P ch)
    (hchar : deref c.Keyset ≠ NUL → ∀ k, P (c.Keyset.getD (rnd k c.pickSize) NUL))
    (hword : deref c.Keyset = NUL → ∀ k, ∃ tmp,
      (nthword b.credgen_words_txt (rnd k c.pickSize)).1 = some tmp ∧ ∀ ch ∈ cstr tmp, P ch) :
    ∀ (fuel : Nat) (pd : Int) (k : Nat) (out : List Char) (o : Outcome),
      genLoop b rnd c L fuel pd k out = some o →
      o.code = 0 ∧ o.stderr = [] ∧ k ≤ o.draws ∧
      ∃ cred, o.stdout = out ++ cred ++ ['\n'] ∧ ∀ ch ∈ cred, P ch := by
  intro fuel
  induction fuel with
  | zero => intro pd k out o h; simp [genLoop] at h
  | succ n ih =>
    intro pd k out o h
    rw [genLoop] at h
    by_cases hlt : pd < L
    · rw [if_pos hlt] at h
      by_cases hmode : deref c.Keyset ≠ NUL
      · rw [if_pos hmode] at h
        obtain ⟨h1, h2, h3, cred, h4, h5⟩ := ih _ _ _ o h
        refine ⟨h1, h2, by omega,
          charDelim c pd ++ [c.Keyset.getD (rnd k c.pickSize) NUL] ++ cred, ?_, ?_⟩
        · rw [h4]; simp only [List.append_assoc]
        · intro ch hch
          rcases List.mem_append.mp hch with hx | hx
          · rcases List.mem_append.mp hx with hy | hy
            · exact hcd pd ch hy
            · rw [List.mem_singleton.mp hy]; exact hchar hmode k
          · exact h5 ch hx
      · rw [if_neg hmode] at h
        obtain ⟨tmp, htmp, hP⟩ := hword (not_not.mp hmode) k
        simp only [htmp] at h
        obtain ⟨h1, h2, h3, cred, h4, h5⟩ := ih _ _ _ o h
        refine ⟨h1, h2, by omega, wordDelim c pd ++ cstr tmp ++ cred, ?_, ?_⟩
        · rw [h4]; simp only [List.append_assoc]
        · intro ch hch
          rcases List.mem_append.mp hch with hx | hx
          · rcases List.mem_append.mp hx with hy | hy
            · exact hwd pd ch hy
            · exact hP ch hy
          · exact h5 ch hx
    · rw [if_neg hlt] at h
      simp only [Option.some.injEq] at h
      subst h
      exact ⟨rfl, rfl, le_refl _, [], by simp, by simp⟩

/-! ## How the argument loop can end a run -/

theorem acquireOr_error {at_ len : Nat} {ks : KeysetState} {o : Outcome}
    (h : acquireOr at_ len ks = .error o) : o = excessive := by
  unfold acquireOr at h
  cases ha : acquire at_ len ks with
  | none => rw [ha] at h; exact (Except.error.inj h).symm
  | some k => rw [ha] at h; simp at h

theorem Except_bind_error {ε α β : Type} {x : Except ε α} {f : α → Except ε β} {e : ε}
    (h : x.bind f = .error e) : x = .error e ∨ ∃ a, x = .ok a ∧ f a = .error e := by
  cases x with
  | error e2 => left; simpa [Except.bind] using h
  | ok a => right; exact ⟨a, rfl, h⟩

theorem Except_map_error {ε α β : Type} {x : Except ε α} {f : α → β} {e : ε}
    (h : x.map f = .error e) : x = .error e := by
  cases x with
  | error e2 => simpa [Except.map] using h
  | ok a => simp [Except.map] at h

theorem acquireClasses_error (arg : List Char) :
    ∀ (flags : List Char) (ks : KeysetState) (o : Outcome),
      acquireClasses arg flags ks = .error o → o = excessive ∨ o = unrecognized arg := by
  intro flags
  induction flags with
  | nil => intro ks o h; simp [acquireClasses] at h
  | cons c rest ih =>
    intro ks o h
    rw [acquireClasses] at h
    have step : ∀ (at_ len : Nat),
        (acquireOr at_ len ks).bind (acquireClasses arg rest) = .error o →
        o = excessive ∨ o = unrecognized arg := by
      intro at_ len hb
      rcases Except_bind_error hb with h1 | ⟨k, _, h2⟩
      · exact Or.inl (acquireOr_error h1)
      · exact ih k o h2
    split at h
    · simp at h
    split at h
    · exact step _ _ h
    split at h
    · exact step _ _ h
    split at h
    · exact step _ _ h
    split at h
    · exact step _ _ h
    split at h
    · exact step _ _ h
    · exact Or.inr (Except.error.inj h).symm

theorem acquireEasy_error {ks : KeysetState} {o : Outcome}
    (h : acquireEasy ks = .error o) : o = excessive := by
  unfold acquireEasy at h
  rcases Except_bind_error h with h1 | ⟨k1, _, h⟩
  · exact acquireOr_error h1
  rcases Except_bind_error h with h1 | ⟨k2, _, h⟩
  · exact acquireOr_error h1
  rcases Except_bind_error h with h1 | ⟨k3, _, h⟩
  · exact acquireOr_error h1
  rcases Except_bind_error h with h1 | ⟨k4, _, h⟩
  · exact acquireOr_error h1
  exact acquireOr_error h

/-- A run that ends in the argument loop has made no draw; it has exit code
1 and an empty standard output, unless the argument is `-h` or `-v`, where
the exit code is 0. -/
theorem processArg_error (b : Build) {s : State} {arg : List Char} {o : Outcome}
    (h : processArg b s arg = .error o) :
    o.draws = 0 ∧ ((o.code = 1 ∧ o.stdout = []) ∨
      (o.code = 0 ∧ (cstr arg = ['-', 'h'] ∨ cstr arg = ['-', 'v']))) := by
  have hbad : ∀ msg : String, o = bad msg → o.draws = 0 ∧ ((o.code = 1 ∧ o.stdout = []) ∨
      (o.code = 0 ∧ (cstr arg = ['-', 'h'] ∨ cstr arg = ['-', 'v']))) := by
    intro msg hm; subst hm; exact ⟨rfl, Or.inl ⟨rfl, rfl⟩⟩
  have hexc : o = excessive → o.draws = 0 ∧ ((o.code = 1 ∧ o.stdout = []) ∨
      (o.code = 0 ∧ (cstr arg = ['-', 'h'] ∨ cstr arg = ['-', 'v']))) := hbad _
  have hunr : o = unrecognized arg → o.draws = 0 ∧ ((o.code = 1 ∧ o.stdout = []) ∨
      (o.code = 0 ∧ (cstr arg = ['-', 'h'] ∨ cstr arg = ['-', 'v']))) := by
    intro hm; subst hm; exact ⟨rfl, Or.inl ⟨rfl, rfl⟩⟩
  unfold processArg at h
  split at h
  · rename_i hh
    have := (Except.error.inj h).symm
    subst this
    exact ⟨rfl, Or.inr ⟨rfl, Or.inl hh⟩⟩
  split at h
  · rename_i hv
    have := (Except.error.inj h).symm
    subst this
    exact ⟨rfl, Or.inr ⟨rfl, Or.inr hv⟩⟩
  split at h
  · simp at h
  split at h
  · exact hexc (acquireEasy_error (Except_map_error h))
  by_cases hdash : arg.getD 0 NUL = '-'
  · rw [if_pos hdash] at h
    by_cases hd : arg.getD 1 NUL = 'd'
    · rw [if_pos hd] at h
      by_cases hn : arg.getD 2 NUL = 'n'
      · rw [if_pos hn] at h
        by_cases heq : arg.getD 3 NUL ≠ '='
        · rw [if_pos heq] at h; exact hbad _ (Except.error.inj h).symm
        rw [if_neg heq] at h
        by_cases hlt : atoi (arg.drop 4) < 1
        · rw [if_pos hlt] at h; exact hbad _ (Except.error.inj h).symm
        rw [if_neg hlt] at h
        simp at h
      · rw [if_neg hn] at h
        dsimp only at h
        generalize (if arg.getD 2 NUL = '=' then arg.drop 3 else DLM_NORMAL) = dlm at h
        by_cases hlen : strlen dlm < 1
        · rw [if_pos hlen] at h; exact hbad _ (Except.error.inj h).symm
        rw [if_neg hlen] at h
        simp at h
    · rw [if_neg hd] at h
      by_cases h1 : arg.getD 1 NUL = NUL
      · rw [if_pos h1] at h; exact hunr (Except.error.inj h).symm
      rw [if_neg h1] at h
      rcases acquireClasses_error arg _ _ _ (Except_map_error h) with hx | hx
      · exact hexc hx
      · exact hunr hx
  · rw [if_neg hdash] at h
    by_cases hmin : s.minpl = 0
    · rw [if_pos hmin] at h
      by_cases hle : atoi arg ≤ 0
      · rw [if_pos hle] at h; exact hbad _ (Except.error.inj h).symm
      rw [if_neg hle] at h
      simp at h
    · rw [if_neg hmin] at h
      by_cases hmax : s.maxpl = 0
      · rw [if_pos hmax] at h
        by_cases hle : atoi arg ≤ 0 ∨ atoi arg < s.minpl
        · rw [if_pos hle] at h; exact hbad _ (Except.error.inj h).symm
        rw [if_neg hle] at h
        simp at h
      · rw [if_neg hmax] at h; exact hbad _ (Except.error.inj h).symm

theorem processArgs_error (b : Build) :
    ∀ (args : List (List Char)) (s : State) (o : Outcome), processArgs b s args = .error o →
      o.draws = 0 ∧ ((o.code = 1 ∧ o.stdout = []) ∨
        (o.code = 0 ∧ ∃ a ∈ args, cstr a = ['-', 'h'] ∨ cstr a = ['-', 'v'])) := by
  intro args
  induction args with
  | nil => intro s o h; simp [processArgs] at h
  | cons arg rest ih =>
    intro s o h
    rw [processArgs] at h
    cases hp : processArg b s arg with
    | error o2 =>
      rw [hp] at h
      have := (Except.error.inj h)
      subst this
      obtain ⟨h1, h2⟩ := processArg_error b hp
      refine ⟨h1, ?_⟩
      rcases h2 with h2 | ⟨h2, h3⟩
      · exact Or.inl h2
      · exact Or.inr ⟨h2, arg, List.mem_cons_self _ _, h3⟩
    | ok s2 =>
      rw [hp] at h
      obtain ⟨h1, h2⟩ := ih s2 o h
      refine ⟨h1, ?_⟩
      rcases h2 with h2 | ⟨h2, a, ha, h3⟩
      · exact Or.inl h2
      · exact Or.inr ⟨h2, a, List.mem_cons_of_mem _ ha, h3⟩

/-! ## Exit codes and the output contract -/

theorem keyset_draw_mem (rnd : RandomSource) {s : State} {content : List Char}
    (h : StateInv s content) (hmode : deref (setDefaults s).Keyset ≠ NUL) (hr : InRange rnd)
    (k : Nat) :
    (setDefaults s).Keyset.getD (rnd k (setDefaults s).pickSize) NUL ∈
      cstr (setDefaults s).Keyset := by
  have hp := setDefaults_pickSize_char h hmode
  have hne := (setDefaults_mode h).mp hmode
  have hpos : 0 < (setDefaults s).pickSize := by
    rw [hp]; exact List.length_pos.mpr hne
  have hlt := hr k _ hpos
  rw [setDefaults_cstr h, setDefaults_Keyset h, ofContent_getD _ (by rw [← hp]; exact hlt)]
  exact List.get_mem _ _ _

theorem charDelim_subset (c : Config) (pd : Int) : ∀ ch ∈ charDelim c pd, ch ∈ delimText c := by
  intro ch hch
  unfold charDelim at hch
  unfold delimText
  cases hd : c.dlm with
  | none => rw [hd] at hch; simp at hch
  | some d =>
    rw [hd] at hch
    simp only at hch ⊢
    split at hch
    · exact hch
    · simp at hch

theorem wordDelim_subset (c : Config) (pd : Int) : ∀ ch ∈ wordDelim c pd, ch ∈ delimText c := by
  intro ch hch
  unfold wordDelim at hch
  unfold delimText
  cases hd : c.dlm with
  | none => rw [hd] at hch; simp at hch
  | some d =>
    rw [hd] at hch
    simp only at hch ⊢
    split at hch
    · exact hch
    · simp at hch

/-- What a generation run that ends has done, in either mode. -/
theorem generate_finished (b : Build) (rnd : RandomSource) (args : List (List Char)) (s : State)
    (ws : List (List Char)) (rest : List Char)
    (hok : processArgs b State.init args = .ok s) (hcompat : incompatible s = false)
    (hblob : b.credgen_words_txt = encodeWords ws ++ NUL :: rest) (hwf : WellFormed ws)
    (hr : InRange rnd) (fuel : Nat) (o : Outcome) (hrun : main b rnd fuel args = some o) :
    o.code = 0 ∧ o.stderr = [] ∧ 1 ≤ o.draws ∧
    ∃ cred, o.stdout = cred ++ ['\n'] ∧
      ∀ ch ∈ cred, ch ∈ delimText (setDefaults s) ∨ ch ∈ cstr (setDefaults s).Keyset ∨
        ∃ w ∈ ws, ch ∈ w := by
  have hinv := StateInv_accepted b hok
  obtain ⟨_, h2, _⟩ := setDefaults_range hinv
  rw [main_eq_genLoop b rnd fuel args s hok hcompat h2] at hrun
  have := genLoop_finished b rnd (setDefaults s) _
    (fun ch => ch ∈ delimText (setDefaults s) ∨ ch ∈ cstr (setDefaults s).Keyset ∨
      ∃ w ∈ ws, ch ∈ w)
    (fun pd ch hch => Or.inl (charDelim_subset _ pd ch hch))
    (fun pd ch hch => Or.inl (wordDelim_subset _ pd ch hch))
    (fun hmode k => Or.inr (Or.inl (keyset_draw_mem rnd hinv hmode hr k)))
    (fun hmode k => by
      obtain ⟨tmp, hidx, _, hn, hc, _, _⟩ :=
        (word_mode_draw b rnd args s ws rest hok hmode hr hblob hwf).2.2.2 k
      exact ⟨tmp, hn, fun ch hch => Or.inr (Or.inr ⟨_, List.get_mem ws _ hidx, hc ▸ hch⟩)⟩)
    fuel 0 1 [] o hrun
  obtain ⟨q1, q2, q3, cred, q4, q5⟩ := this
  exact ⟨q1, q2, q3, cred, by simpa using q4, q5⟩

/-- C13 (internal error is unreachable): for every argument list, every
well-formed dictionary and every in-range random source, after the argument
loop and the defaults `minpl ≤ maxpl` holds, in word mode every draw is below
the dictionary size computed by `-w` and `nthword` finds a record for it, and
no run ends with exit code 2. -/
theorem internal_error_unreachable (b : Build) (rnd : RandomSource) (args : List (List Char))
    (ws : List (List Char)) (rest : List Char)
    (hblob : b.credgen_words_txt = encodeWords ws ++ NUL :: rest) (hwf : WellFormed ws)
    (hr : InRange rnd) :
    (∀ s, processArgs b State.init args = .ok s →
      (setDefaults s).minpl ≤ (setDefaults s).maxpl) ∧
    (∀ s, processArgs b State.init args = .ok s → deref (setDefaults s).Keyset = NUL →
      (setDefaults s).pickSize = s.wordspace ∧
      ∀ k, rnd k (setDefaults s).pickSize < (setDefaults s).pickSize ∧
        (nthword b.credgen_words_txt (rnd k (setDefaults s).pickSize)).1 ≠ none) ∧
    ∀ fuel o, main b rnd fuel args = some o → o.code ≠ 2 := by
  refine ⟨fun s hok => (setDefaults_range (StateInv_accepted b hok)).2.1, ?_, ?_⟩
  · intro s hok hmode
    refine ⟨(word_mode_config (StateInv_accepted b hok) hmode).2.2, fun k => ?_⟩
    obtain ⟨tmp, _, hlt, hn, _⟩ :=
      (word_mode_draw b rnd args s ws rest hok hmode hr hblob hwf).2.2.2 k
    exact ⟨hlt, by rw [hn]; simp⟩
  · intro fuel o hrun
    cases hp : processArgs b State.init args with
    | error e =>
      have he : main b rnd fuel args = some e := by unfold main; rw [hp]
      rw [he] at hrun
      have := Option.some.inj hrun
      subst this
      rcases (processArgs_error b args _ _ hp).2 with ⟨h1, _⟩ | ⟨h1, _⟩ <;> rw [h1] <;> decide
    | ok s =>
      by_cases hc : incompatible s = true
      · have he : main b rnd fuel args = some (bad "incompatible with -w\n") := by
          unfold main; rw [hp]
          show generate b rnd fuel s = _
          unfold generate; rw [if_pos hc]
        rw [he] at hrun
        have := Option.some.inj hrun
        subst this
        decide
      · have h0 := (generate_finished b rnd args s ws rest hp (by simpa using hc) hblob hwf hr
          fuel o hrun).1
        rw [h0]; decide

theorem demoRnd_blob : demoBuild.credgen_words_txt = encodeWords demoWords ++ NUL :: [] := by
  decide

set_option maxRecDepth 100000 in
theorem demoWord_accepted :
    processArgs demoBuild State.init demoWordArgs = .ok demoWordState := by
  decide

set_option maxRecDepth 100000 in
/-- The run `credgen -w -d 12` over the dictionary cat, dog, elephant ends
with exit code 0, not 2. -/
theorem internal_error_unreachable_witness :
    WellFormed demoWords ∧ InRange demoRnd ∧
    main demoBuild demoRnd 30 demoWordArgs =
      some { code := 0, stdout := "dog elephant cat\n".toList, stderr := [], draws := 4 } ∧
    (0 : Nat) ≠ 2 :=
  have hrun : main demoBuild demoRnd 30 demoWordArgs =
      some { code := 0, stdout := "dog elephant cat\n".toList, stderr := [], draws := 4 } := by
    decide
  ⟨demoWords_wellFormed, demoRnd_inRange, hrun,
    (internal_error_unreachable demoBuild demoRnd demoWordArgs demoWords [] demoRnd_blob
      demoWords_wellFormed demoRnd_inRange).2.2 30 _ hrun⟩

/-- C17 as amended (output contract): an accepted generation run that ends
has exit code 0, has written nothing to standard error, and its standard
output is the credential followed by a single newline and nothing else; the
credential is made of delimiter text, Keyset characters and dictionary
records.  The output is exactly one line when neither the delimiter nor a
dictionary record contains a newline character. -/
theorem output_contract (b : Build) (rnd : RandomSource) (args : List (List Char)) (s : State)
    (ws : List (List Char)) (rest : List Char)
    (hok : processArgs b State.init args = .ok s) (hcompat : incompatible s = false)
    (hblob : b.credgen_words_txt = encodeWords ws ++ NUL :: rest) (hwf : WellFormed ws)
    (hr : InRange rnd) (fuel : Nat) (o : Outcome) (hrun : main b rnd fuel args = some o) :
    o.code = 0 ∧ o.stderr = [] ∧
    ∃ cred, o.stdout = cred ++ ['\n'] ∧
      (∀ ch ∈ cred, ch ∈ delimText (setDefaults s) ∨ ch ∈ cstr (setDefaults s).Keyset ∨
        ∃ w ∈ ws, ch ∈ w) ∧
      ('\n' ∉ delimText (setDefaults s) → (∀ w ∈ ws, '\n' ∉ w) →
        '\n' ∉ cred ∧ o.stdout.count '\n' = 1) := by
  obtain ⟨h1, h2, _, cred, h4, h5⟩ :=
    generate_finished b rnd args s ws rest hok hcompat hblob hwf hr fuel o hrun
  refine ⟨h1, h2, cred, h4, h5, fun hd hw => ?_⟩
  have hinv := StateInv_accepted b hok
  have hq : '\n' ∉ cstr (setDefaults s).Keyset := by
    rw [setDefaults_cstr hinv]
    intro hx
    have := (effectiveContent_props hinv).2 _ hx
    exact absurd this (by decide)
  have hnot : '\n' ∉ cred := by
    intro hx
    rcases h5 _ hx with h | h | ⟨w, hwm, h⟩
    · exact hd h
    · exact hq h
    · exact hw w hwm h
  refine ⟨hnot, ?_⟩
  rw [h4, List.count_append, List.count_eq_zero_of_not_mem hnot]
  rfl

set_option maxRecDepth 100000 in
/-- The run `credgen -w -d 12` over the dictionary cat, dog, elephant: one
line. -/
theorem output_contract_witness :
    incompatible demoWordState = false ∧ WellFormed demoWords ∧ InRange demoRnd ∧
    main demoBuild demoRnd 30 demoWordArgs =
      some { code := 0, stdout := "dog elephant cat\n".toList, stderr := [], draws := 4 } ∧
    ∃ cred, "dog elephant cat\n".toList = cred ++ ['\n'] :=
  have hrun : main demoBuild demoRnd 30 demoWordArgs =
      some { code := 0, stdout := "dog elephant cat\n".toList, stderr := [], draws := 4 } := by
    decide
  ⟨by decide, demoWords_wellFormed, demoRnd_inRange, hrun,
    (output_contract demoBuild demoRnd demoWordArgs demoWordState demoWords [] demoWord_accepted
      (by decide) demoRnd_blob demoWords_wellFormed demoRnd_inRange 30 _ hrun).2.2.imp
        (fun _ h => h.1)⟩

set_option maxRecDepth 100000 in
/-- C17 as stated fails: `-d=dlm` accepts a delimiter that is a newline
character, and the run `credgen -a -d=<newline> -dn=2 5` then ends with exit
code 0 having written three lines. -/
theorem output_contract_counterexample :
    main demoBuild demoRnd 10 newlineArgs =
      some { code := 0, stdout := ['k', 'r', '\n', 'y', 'f', '\n', 'm', '\n'], stderr := [],
             draws := 6 } ∧
    List.count '\n' ['k', 'r', '\n', 'y', 'f', '\n', 'm', '\n'] = 3 := by
  decide

end Credgen

namespace Credgen

/-! ## The rounds of the argument loop, case by case -/

/-- What an accepted round of the argument loop has done, by the kind of the
argument. -/
theorem processArg_ok_cases (b : Build) {s s1 : State} {arg : List Char}
    (hok : processArg b s arg = .ok s1) :
    (cstr arg = ['-', 'w'] ∧
      s1 = { s with wordspace := (nthword b.credgen_words_txt UINT_MAX).2 }) ∨
    (cstr arg = ['-', 'e'] ∧ ∃ ks1, acquireEasy s.ks = .ok ks1 ∧
      s1 = { s with min_default := MIN_EASY, max_default := MAX_EASY, ks := ks1 }) ∨
    (isFreqArg arg = true ∧ 1 ≤ atoi (arg.drop 4) ∧ s1 = { s with dln := atoi (arg.drop 4) }) ∨
    (isDelimSpecArg arg = true ∧ ∃ dlm, 1 ≤ strlen dlm ∧ s1 = { s with dlm := some dlm }) ∨
    (arg.getD 0 NUL = '-' ∧ arg.getD 1 NUL ≠ 'd' ∧ arg.getD 1 NUL ≠ NUL ∧
      cstr arg ≠ ['-', 'w'] ∧ cstr arg ≠ ['-', 'e'] ∧
      ∃ ks1, acquireClasses arg (arg.drop 1) s.ks = .ok ks1 ∧ s1 = { s with ks := ks1 }) ∨
    (isLengthArg arg = true ∧ s.minpl = 0 ∧ 0 < atoi arg ∧ s1 = { s with minpl := atoi arg }) ∨
    (isLengthArg arg = true ∧ s.minpl ≠ 0 ∧ s.maxpl = 0 ∧ 0 < atoi arg ∧ s.minpl ≤ atoi arg ∧
      s1 = { s with maxpl := atoi arg }) := by
  unfold processArg at hok
  split at hok
  · simp at hok
  split at hok
  · simp at hok
  split at hok
  · rename_i hw
    exact Or.inl ⟨hw, (Except.ok.inj hok).symm⟩
  rename_i hnw
  split at hok
  · rename_i he
    obtain ⟨k, hk, rfl⟩ := Except_map_ok hok
    exact Or.inr (Or.inl ⟨he, k, hk, rfl⟩)
  rename_i hne
  by_cases hdash : arg.getD 0 NUL = '-'
  · rw [if_pos hdash] at hok
    by_cases hd : arg.getD 1 NUL = 'd'
    · rw [if_pos hd] at hok
      by_cases hn : arg.getD 2 NUL = 'n'
      · rw [if_pos hn] at hok
        by_cases heq : arg.getD 3 NUL ≠ '='
        · rw [if_pos heq] at hok; simp at hok
        rw [if_neg heq] at hok
        by_cases hlt : atoi (arg.drop 4) < 1
        · rw [if_pos hlt] at hok; simp at hok
        rw [if_neg hlt] at hok
        refine Or.inr (Or.inr (Or.inl ⟨?_, not_lt.mp hlt, (Except.ok.inj hok).symm⟩))
        simp only [isFreqArg, hdash, hd, hn, beq_self_eq_true, Bool.and_self]
      · rw [if_neg hn] at hok
        dsimp only at hok
        generalize (if arg.getD 2 NUL = '=' then arg.drop 3 else DLM_NORMAL) = dlm at hok
        by_cases hlen : strlen dlm < 1
        · rw [if_pos hlen] at hok; simp at hok
        rw [if_neg hlen] at hok
        refine Or.inr (Or.inr (Or.inr (Or.inl ⟨?_, dlm, not_lt.mp hlen,
          (Except.ok.inj hok).symm⟩)))
        simp only [isDelimSpecArg, hdash, hd, beq_self_eq_true, Bool.and_self, Bool.true_and,
          bne_iff_ne, ne_eq]
        exact hn
    · rw [if_neg hd] at hok
      by_cases h1 : arg.getD 1 NUL = NUL
      · rw [if_pos h1] at hok; simp at hok
      rw [if_neg h1] at hok
      obtain ⟨k, hk, rfl⟩ := Except_map_ok hok
      exact Or.inr (Or.inr (Or.inr (Or.inr (Or.inl ⟨hdash, hd, h1, hnw, hne, k, hk, rfl⟩))))
  · rw [if_neg hdash] at hok
    have hl : isLengthArg arg = true := (isLengthArg_iff arg).mpr hdash
    by_cases hmin : s.minpl = 0
    · rw [if_pos hmin] at hok
      by_cases hle : atoi arg ≤ 0
      · rw [if_pos hle] at hok; simp at hok
      rw [if_neg hle] at hok
      exact Or.inr (Or.inr (Or.inr (Or.inr (Or.inr (Or.inl
        ⟨hl, hmin, not_le.mp hle, (Except.ok.inj hok).symm⟩)))))
    · rw [if_neg hmin] at hok
      by_cases hmax : s.maxpl = 0
      · rw [if_pos hmax] at hok
        by_cases hle : atoi arg ≤ 0 ∨ atoi arg < s.minpl
        · rw [if_pos hle] at hok; simp at hok
        rw [if_neg hle] at hok
        have h2 : 0 < atoi arg ∧ s.minpl ≤ atoi arg := by
          constructor
          · exact not_le.mp (fun hx => hle (Or.inl hx))
          · exact not_lt.mp (fun hx => hle (Or.inr hx))
        exact Or.inr (Or.inr (Or.inr (Or.inr (Or.inr (Or.inr
          ⟨hl, hmin, hmax, h2.1, h2.2, (Except.ok.inj hok).symm⟩)))))
      · rw [if_neg hmax] at hok; simp at hok

/-! ## The length selector -/

theorem length_selector_aux (c : Config) (h1 : 1 ≤ c.minpl) (h2 : c.minpl ≤ c.maxpl)
    (h3 : c.maxpl ≤ INT_MAX) :
    (lengthRange c : Int) = c.maxpl - c.minpl + 1 ∧ 1 ≤ lengthRange c ∧
    ∀ r, r < lengthRange c → lengthOf c r = c.minpl + (r : Int) := by
  unfold INT_MAX at h3
  have hrange : (lengthRange c : Int) = c.maxpl - c.minpl + 1 := by
    unfold lengthRange toUInt32 toInt32; omega
  refine ⟨hrange, by omega, fun r hr => ?_⟩
  have hr2 : (r : Int) < c.maxpl - c.minpl + 1 := by rw [← hrange]; exact_mod_cast hr
  unfold lengthOf toUInt32 toInt32
  omega

theorem chooseLength_eq (rnd : RandomSource) (c : Config) :
    chooseLength rnd c = lengthOf c (rnd 0 (lengthRange c)) := rfl

/-- C14 (length selector): for `1 ≤ minpl ≤ maxpl ≤ INT_MAX`, with the 32-bit
wrap-around arithmetic of the statement `pass_len = minpl + randint(maxpl + 1
- minpl)`, the range passed to `randint` is `maxpl - minpl + 1` (also for
`maxpl = INT_MAX`), the selected length is `minpl + r` for the draw `r`, it
lies in `[minpl, maxpl]`, and `r ↦ length` is one-to-one from
`[0, maxpl - minpl + 1)` onto `[minpl, maxpl]`. -/
theorem length_selector (c : Config) (h1 : 1 ≤ c.minpl) (h2 : c.minpl ≤ c.maxpl)
    (h3 : c.maxpl ≤ INT_MAX) :
    (lengthRange c : Int) = c.maxpl - c.minpl + 1 ∧ 1 ≤ lengthRange c ∧
    (∀ rnd : RandomSource, chooseLength rnd c = lengthOf c (rnd 0 (lengthRange c))) ∧
    (∀ r, r < lengthRange c →
      lengthOf c r = c.minpl + (r : Int) ∧ c.minpl ≤ lengthOf c r ∧ lengthOf c r ≤ c.maxpl) ∧
    (∀ r1 r2, r1 < lengthRange c → r2 < lengthRange c → lengthOf c r1 = lengthOf c r2 →
      r1 = r2) ∧
    (∀ l : Int, c.minpl ≤ l → l ≤ c.maxpl → ∃ r, r < lengthRange c ∧ lengthOf c r = l) := by
  unfold INT_MAX at h3
  obtain ⟨hrange, hpos, hlen⟩ := length_selector_aux c h1 h2 (by unfold INT_MAX; exact h3)
  refine ⟨hrange, hpos, fun rnd => rfl, ?_, ?_, ?_⟩
  · intro r hr
    have hr2 : (r : Int) < c.maxpl - c.minpl + 1 := by rw [← hrange]; exact_mod_cast hr
    rw [hlen r hr]
    omega
  · intro r1 r2 hr1 hr2 he
    rw [hlen r1 hr1, hlen r2 hr2] at he
    omega
  · intro l hl1 hl2
    refine ⟨(l - c.minpl).toNat, by omega, ?_⟩
    rw [hlen _ (by omega)]
    omega

/-- The configuration of `credgen -w 2147483647`, where `maxpl = INT_MAX`,
satisfies the hypotheses of `length_selector`: the range is 1 and the length
2147483647. -/
theorem length_selector_witness :
    (setDefaults overflowState).minpl = 2147483647 ∧
    (setDefaults overflowState).maxpl = INT_MAX ∧
    lengthRange (setDefaults overflowState) = 1 ∧
    lengthOf (setDefaults overflowState) 0 = 2147483647 := by
  have h := length_selector (setDefaults overflowState) (by decide) (by decide) (by decide)
  refine ⟨by decide, by decide, by decide, ?_⟩
  rw [(h.2.2.2.1 0 (by decide)).1]
  decide

/-! ## The ranges of the draws -/

theorem pickSize_pos {s : State} {content : List Char} (h : StateInv s content) :
    1 ≤ (setDefaults s).pickSize := by
  by_cases hmode : deref (setDefaults s).Keyset ≠ NUL
  · rw [setDefaults_pickSize_char h hmode]
    exact List.length_pos.mpr ((setDefaults_mode h).mp hmode)
  · obtain ⟨_, h2, h3⟩ := word_mode_config h (not_not.mp hmode)
    rw [h3]
    exact Nat.pos_of_ne_zero h2

theorem genLoop_congr (b : Build) (rnd rnd2 : RandomSource) (c : Config) (L : Int)
    (h : ∀ k, rnd k c.pickSize = rnd2 k c.pickSize) :
    ∀ (fuel : Nat) (pd : Int) (k : Nat) (out : List Char),
      genLoop b rnd c L fuel pd k out = genLoop b rnd2 c L fuel pd k out := by
  intro fuel
  induction fuel with
  | zero => intro pd k out; rfl
  | succ n ih =>
    intro pd k out
    rw [genLoop, genLoop, h k]
    split
    · split
      · exact ih _ _ _
      · split
        · rfl
        · exact ih _ _ _
    · rfl

/-- C18 (non-empty random ranges): for every argument list that reaches the
generation part, the bound of the length draw is `maxpl + 1 - minpl ≥ 1` and
the bound of every generation draw is `pickSize ≥ 1`, which is the length of
the Keyset text in character mode and the non-zero dictionary size in word
mode.  Hence the program never calls `randint` with bound 0: for every
argument list, two random sources that agree on all bounds `≥ 1` give the
same run. -/
theorem random_ranges_nonempty (b : Build) (args : List (List Char)) :
    (∀ s, processArgs b State.init args = .ok s →
      1 ≤ lengthRange (setDefaults s) ∧
      (lengthRange (setDefaults s) : Int) = (setDefaults s).maxpl + 1 - (setDefaults s).minpl ∧
      1 ≤ (setDefaults s).pickSize ∧
      (deref (setDefaults s).Keyset ≠ NUL →
        (setDefaults s).pickSize = strlen (setDefaults s).Keyset) ∧
      (deref (setDefaults s).Keyset = NUL →
        (setDefaults s).pickSize = s.wordspace ∧ s.wordspace ≠ 0)) ∧
    ∀ (rnd rnd2 : RandomSource) (fuel : Nat),
      (∀ k upper, 1 ≤ upper → rnd k upper = rnd2 k upper) →
      main b rnd fuel args = main b rnd2 fuel args := by
  have hfacts : ∀ s, processArgs b State.init args = .ok s →
      1 ≤ lengthRange (setDefaults s) ∧
      (lengthRange (setDefaults s) : Int) = (setDefaults s).maxpl + 1 - (setDefaults s).minpl ∧
      1 ≤ (setDefaults s).pickSize := by
    intro s hok
    have hinv := StateInv_accepted b hok
    obtain ⟨h1, h2, h3⟩ := setDefaults_range hinv
    obtain ⟨q1, q2, _⟩ := length_selector_aux (setDefaults s) h1 h2 h3
    exact ⟨q2, by rw [q1]; ring, pickSize_pos hinv⟩
  refine ⟨fun s hok => ?_, fun rnd rnd2 fuel hagree => ?_⟩
  · have hinv := StateInv_accepted b hok
    obtain ⟨q1, q2, q3⟩ := hfacts s hok
    refine ⟨q1, q2, q3, fun hmode => ?_, fun hmode => ?_⟩
    · rw [setDefaults_pickSize_char hinv hmode]
      show _ = (cstr (setDefaults s).Keyset).length
      rw [setDefaults_cstr hinv]
    · exact ⟨(word_mode_config hinv hmode).2.2, (word_mode_config hinv hmode).2.1⟩
  · unfold main
    cases hp : processArgs b State.init args with
    | error e => rfl
    | ok s =>
      obtain ⟨q1, _, q3⟩ := hfacts s hp
      show generate b rnd fuel s = generate b rnd2 fuel s
      unfold generate
      have hc : chooseLength rnd (setDefaults s) = chooseLength rnd2 (setDefaults s) := by
        rw [chooseLength_eq, chooseLength_eq, hagree 0 _ q1]
      rw [hc, genLoop_congr b rnd rnd2 (setDefaults s) _ (fun k => hagree k _ q3)]

set_option maxRecDepth 100000 in
/-- For `credgen -w -d 12` over the dictionary cat, dog, elephant the bounds
are 1 (the length) and 3 (the dictionary size). -/
theorem random_ranges_nonempty_witness :
    lengthRange (setDefaults demoWordState) = 1 ∧ (setDefaults demoWordState).pickSize = 3 ∧
    1 ≤ lengthRange (setDefaults demoWordState) ∧ 1 ≤ (setDefaults demoWordState).pickSize :=
  have h := (random_ranges_nonempty demoBuild demoWordArgs).1 demoWordState demoWord_accepted
  ⟨by decide, by decide, h.1, h.2.2.1⟩

/-! ## The delimiter frequency -/

theorem processArgs_dlm_none (b : Build) :
    ∀ (args : List (List Char)) (s s1 : State),
      (∀ a ∈ args, isDelimSpecArg a = false) → processArgs b s args = .ok s1 →
      s1.dlm = s.dlm := by
  intro args
  induction args with
  | nil =>
    intro s s1 _ hok
    simp only [processArgs, Except.ok.injEq] at hok
    subst hok; rfl
  | cons arg rest ih =>
    intro s s1 hno hok
    rw [processArgs] at hok
    cases hp : processArg b s arg with
    | error o => rw [hp] at hok; simp at hok
    | ok s2 =>
      rw [hp] at hok
      have h2 := ih s2 s1 (fun a ha => hno a (List.mem_cons_of_mem _ ha)) hok
      have hna := hno arg (List.mem_cons_self _ _)
      rw [h2]
      rcases processArg_ok_cases b hp with ⟨_, rfl⟩ | ⟨_, _, _, rfl⟩ | ⟨_, _, rfl⟩ |
        ⟨hd, _⟩ | ⟨_, _, _, _, _, _, _, rfl⟩ | ⟨_, _, _, rfl⟩ | ⟨_, _, _, _, _, rfl⟩
      · rfl
      · rfl
      · rfl
      · rw [hna] at hd; exact absurd hd (by decide)
      · rfl
      · rfl
      · rfl

theorem processArgs_dln (b : Build) :
    ∀ (args : List (List Char)) (s s1 : State), processArgs b s args = .ok s1 →
      s1.dln = s.dln ∨
      ∃ a ∈ args, isFreqArg a = true ∧ s1.dln = atoi (a.drop 4) ∧ 1 ≤ s1.dln := by
  intro args
  induction args with
  | nil =>
    intro s s1 hok
    simp only [processArgs, Except.ok.injEq] at hok
    subst hok; exact Or.inl rfl
  | cons arg rest ih =>
    intro s s1 hok
    rw [processArgs] at hok
    cases hp : processArg b s arg with
    | error o => rw [hp] at hok; simp at hok
    | ok s2 =>
      rw [hp] at hok
      rcases ih s2 s1 hok with h2 | ⟨a, ha, h3⟩
      · rcases processArg_ok_cases b hp with ⟨_, rfl⟩ | ⟨_, _, _, rfl⟩ | ⟨hf, h1, rfl⟩ |
          ⟨_, _, _, rfl⟩ | ⟨_, _, _, _, _, _, _, rfl⟩ | ⟨_, _, _, rfl⟩ | ⟨_, _, _, _, _, rfl⟩
        · exact Or.inl h2
        · exact Or.inl h2
        · exact Or.inr ⟨arg, List.mem_cons_self _ _, hf, h2, by rw [h2]; exact h1⟩
        · exact Or.inl h2
        · exact Or.inl h2
        · exact Or.inl h2
        · exact Or.inl h2
      · exact Or.inr ⟨a, List.mem_cons_of_mem _ ha, h3⟩

set_option maxRecDepth 100000 in
theorem freqOnly_accepted (b : Build) :
    processArgs b State.init freqOnlyArgs = .ok freqOnlyState := by
  have h : processArgs b State.init freqOnlyArgs =
      processArgs demoBuild State.init freqOnlyArgs := rfl
  rw [h]
  decide

/-- C19 (the delimiter-frequency modulus is never zero): after an accepted
argument list the frequency variable is 0 (never set) or the value `n ≥ 1` of
a `-dn=n` argument.  When a delimiter is configured, the frequency the loop
divides by is that user value, or the default 5 if none was given, and is
`≥ 1`.  When no delimiter is configured the loop evaluates no modulus and
prints no delimiter; in particular, if the list has no `-d`/`-d=dlm` argument
then, with or without `-dn=n`, a character-mode run prints the drawn
characters only. -/
theorem delimiter_frequency_nonzero (b : Build) (args : List (List Char)) (s : State)
    (hok : processArgs b State.init args = .ok s) :
    (s.dln = 0 ∨ ∃ a ∈ args, isFreqArg a = true ∧ s.dln = atoi (a.drop 4) ∧ 1 ≤ s.dln) ∧
    (∀ d, (setDefaults s).dlm = some d →
      1 ≤ (setDefaults s).dln ∧
      (((setDefaults s).dln = s.dln ∧ 1 ≤ s.dln) ∨
        ((setDefaults s).dln = DLN_NORMAL ∧ s.dln = 0)) ∧
      ∀ pd, charDelim (setDefaults s) pd =
        if pd ≠ 0 ∧ Int.tmod pd (setDefaults s).dln = 0 then cstr d else []) ∧
    ((setDefaults s).dlm = none → ∀ pd, charDelim (setDefaults s) pd = []) ∧
    ((∀ a ∈ args, isDelimSpecArg a = false) →
      (setDefaults s).dlm = none ∧
      ∀ rnd, InRange rnd → incompatible s = false → deref (setDefaults s).Keyset ≠ NUL →
        ∃ L : Nat, ∀ fuel, L < fuel →
          main b rnd fuel args =
            some { code := 0, stdout := (List.range L).map (charAt rnd (setDefaults s)) ++ ['\n'],
                   stderr := [], draws := L + 1 }) := by
  have hinv := StateInv_accepted b hok
  refine ⟨?_, ?_, fun hnone pd => charDelim_none hnone pd, ?_⟩
  · rcases processArgs_dln b args _ _ hok with h | h
    · exact Or.inl h
    · exact Or.inr h
  · intro d hd
    have h1 := setDefaults_dln hinv (by rw [hd]; simp)
    have hs : s.dlm.isSome = true := by
      have : s.dlm = some d := hd
      rw [this]; rfl
    refine ⟨h1, ?_, fun pd => ?_⟩
    · by_cases h0 : s.dln = 0
      · right
        refine ⟨?_, h0⟩
        show (if s.dlm.isSome ∧ s.dln = 0 then DLN_NORMAL else s.dln) = _
        rw [if_pos ⟨hs, h0⟩]
      · left
        have hn := hinv.dln_nonneg
        refine ⟨?_, by omega⟩
        show (if s.dlm.isSome ∧ s.dln = 0 then DLN_NORMAL else s.dln) = _
        rw [if_neg (fun hx => h0 hx.2)]
    · unfold charDelim
      rw [hd]
  · intro hno
    have hnone : (setDefaults s).dlm = none := by
      have := processArgs_dlm_none b args _ _ hno hok
      exact this
    refine ⟨hnone, fun rnd hr hcompat hmode => ?_⟩
    obtain ⟨L, _, _, _, hrun⟩ := main_char b rnd args s hok hcompat hmode hr
    refine ⟨L, fun fuel hf => ?_⟩
    have hfun : charPiece rnd (setDefaults s) = fun i => [charAt rnd (setDefaults s) i] := by
      funext i
      rw [charPiece_eq, charDelim_none hnone, List.nil_append]
    rw [hrun fuel hf, hfun, flatMap_singleton_map]

set_option maxRecDepth 100000 in
/-- The run `credgen -a -dn=3 4` has a frequency but no delimiter: it prints
four characters and a newline. -/
theorem delimiter_frequency_nonzero_witness :
    freqOnlyState.dln = 3 ∧ (setDefaults freqOnlyState).dlm = none ∧
    ∃ L : Nat, ∀ fuel, L < fuel →
      main demoBuild demoRnd fuel freqOnlyArgs =
        some { code := 0,
               stdout := (List.range L).map (charAt demoRnd (setDefaults freqOnlyState)) ++ ['\n'],
               stderr := [], draws := L + 1 } :=
  have h := delimiter_frequency_nonzero demoBuild freqOnlyArgs freqOnlyState
    (freqOnly_accepted demoBuild)
  ⟨by decide, (h.2.2.2 (by decide)).1,
    (h.2.2.2 (by decide)).2 demoRnd demoRnd_inRange (by decide) (by decide)⟩

/-! ## The Keyset that was acquired -/

theorem classSlice_length (c : Char) :
    (classSlice c).length =
      if c = 'a' then 26 else if c = 'A' then 26 else if c = '1' then 10
      else if c = 's' then 11 else if c = 'S' then 21 else 0 := by
  unfold classSlice
  split
  · decide
  split
  · decide
  split
  · decide
  split
  · decide
  split
  · decide
  · rfl

/-- C20 (the Keyset size equals what was acquired): after an accepted
argument list that requested characters, the Keyset text is the
concatenation, in argument order and with repetitions kept, of the slices
the class letters and `-e` stand for; the size used for drawing is its
length, the sum of the requested class lengths, at most 1023; position `i`
of the buffer holds character `i` of that concatenation for every `i` below
the size, an in-range draw is always below the size, and every position
below the size is the value of some in-range draw. -/
theorem keyset_size_acquired (b : Build) (args : List (List Char)) (s : State)
    (hok : processArgs b State.init args = .ok s) (hreq : requested args ≠ []) :
    requested args = args.flatMap requestedBy ∧
    (∀ c : Char, (classSlice c).length =
      if c = 'a' then 26 else if c = 'A' then 26 else if c = '1' then 10
      else if c = 's' then 11 else if c = 'S' then 21 else 0) ∧
    cstr (setDefaults s).Keyset = requested args ∧
    (setDefaults s).pickSize = strlen (setDefaults s).Keyset ∧
    (setDefaults s).pickSize = (requested args).length ∧
    (setDefaults s).pickSize = (args.map (fun a => (requestedBy a).length)).sum ∧
    (setDefaults s).pickSize ≤ KEYSET_SIZE - 1 ∧
    (∀ i (hi : i < (requested args).length),
      (setDefaults s).Keyset.getD i NUL = (requested args).get ⟨i, hi⟩) ∧
    (setDefaults s).Keyset.getD (setDefaults s).pickSize NUL = NUL ∧
    (∀ rnd, InRange rnd → ∀ k,
      rnd k (setDefaults s).pickSize < (setDefaults s).pickSize) ∧
    (∀ i, i < (setDefaults s).pickSize → ∀ k, ∃ rnd,
      InRange rnd ∧ rnd k (setDefaults s).pickSize = i) := by
  have hinv := StateInv_accepted b hok
  have heff : effectiveContent (requested args) s.wordspace = requested args := by
    unfold effectiveContent
    rw [if_neg (fun hx => hreq hx.1)]
  have hmode : deref (setDefaults s).Keyset ≠ NUL := by
    rw [setDefaults_mode hinv, heff]; exact hreq
  have hcs : cstr (setDefaults s).Keyset = requested args := by
    rw [setDefaults_cstr hinv, heff]
  have hps : (setDefaults s).pickSize = (requested args).length := by
    rw [setDefaults_pickSize_char hinv hmode, heff]
  have hkey := setDefaults_Keyset hinv
  rw [heff] at hkey
  have hlen := hinv.holds.2.1
  refine ⟨rfl, classSlice_length, hcs, ?_, hps, ?_, by rw [hps]; exact hlen, ?_, ?_, ?_, ?_⟩
  · show _ = (cstr (setDefaults s).Keyset).length
    rw [hcs, hps]
  · rw [hps]
    show (args.flatMap requestedBy).length = _
    rw [List.flatMap_def, List.length_flatten, List.map_map]
    rfl
  · intro i hi
    rw [hkey]
    exact ofContent_getD i hi
  · rw [hkey, hps, List.getD_eq_getElem?_getD]
    show ((requested args ++ List.replicate (KEYSET_SIZE - (requested args).length) NUL)[
      (requested args).length]?).getD NUL = NUL
    rw [List.getElem?_append_right (le_refl _), Nat.sub_self, List.getElem?_replicate]
    split <;> rfl
  · intro rnd hr k
    exact hr k _ (by rw [hps]; exact List.length_pos.mpr hreq)
  · intro i hi k
    refine ⟨fun _ upper => if i < upper then i else 0, ?_, ?_⟩
    · intro k2 upper hu
      show (if i < upper then i else 0) < upper
      split
      · assumption
      · exact hu
    · show (if i < (setDefaults s).pickSize then i else 0) = i
      rw [if_pos hi]

set_option maxRecDepth 100000 in
/-- The arguments `-a -d=-- -dn=3 7 9` request the lowercase class: the
Keyset text is a-z and the size used for drawing is 26. -/
theorem keyset_size_acquired_witness :
    requested demoCharArgs ≠ [] ∧ cstr (setDefaults demoCharState).Keyset = slice 0 26 ∧
    (setDefaults demoCharState).pickSize = 26 :=
  have h := keyset_size_acquired demoBuild demoCharArgs demoCharState demoChar_accepted
    (by decide)
  ⟨by decide, h.2.2.1.trans (by decide), h.2.2.2.2.1.trans (by decide)⟩

end Credgen

namespace Credgen

/-! ## Capacity -/

theorem main_of_error (b : Build) (rnd : RandomSource) (fuel : Nat) (args : List (List Char))
    (o : Outcome) (h : processArgs b State.init args = .error o) :
    main b rnd fuel args = some o := by
  unfold main; rw [h]

theorem main_rejected (b : Build) (rnd : RandomSource) (fuel : Nat) (args : List (List Char))
    (hnohv : ∀ a ∈ args, cstr a ≠ ['-', 'h'] ∧ cstr a ≠ ['-', 'v'])
    (hbad : ∀ s, processArgs b State.init args = .ok s → incompatible s = true) :
    ∃ o, main b rnd fuel args = some o ∧ o.code = 1 ∧ o.stdout = [] ∧ o.draws = 0 := by
  cases hp : processArgs b State.init args with
  | error e =>
    refine ⟨e, main_of_error b rnd fuel args e hp, ?_⟩
    obtain ⟨h1, h2⟩ := processArgs_error b args _ _ hp
    rcases h2 with ⟨h2, h3⟩ | ⟨_, a, ha, h3⟩
    · exact ⟨h2, h3, h1⟩
    · rcases h3 with h3 | h3
      · exact absurd h3 (hnohv a ha).1
      · exact absurd h3 (hnohv a ha).2
  | ok s =>
    refine ⟨bad "incompatible with -w\n", ?_, rfl, rfl, rfl⟩
    unfold main; rw [hp]
    show generate b rnd fuel s = _
    unfold generate; rw [if_pos (hbad s hp)]

/-- C11 (capacity invariant): in every state the argument loop reaches, the
number of characters appended to the Keyset is the fill level, equals the
total length of the requested classes and is at most 1023, so it never
exceeds the 1024 slots of the buffer.  An argument list without `-h`/`-v`
whose requested classes add up to more than 1023 characters (in particular to
more than 1024) ends with exit code 1, an empty standard output and no
random draw. -/
theorem capacity_invariant (b : Build) (args : List (List Char)) :
    (∀ s, processArgs b State.init args = .ok s →
      s.ks.dst = (requested args).length ∧ (requested args).length ≤ KEYSET_SIZE - 1 ∧
      s.ks.dst ≤ KEYSET_SIZE ∧ s.ks.Keyset.length = KEYSET_SIZE ∧
      s.ks.Keyset.take s.ks.dst = requested args) ∧
    ((∀ a ∈ args, cstr a ≠ ['-', 'h'] ∧ cstr a ≠ ['-', 'v']) →
      KEYSET_SIZE - 1 < (requested args).length →
      ∀ (rnd : RandomSource) (fuel : Nat),
        ∃ o, main b rnd fuel args = some o ∧ o.code = 1 ∧ o.stdout = [] ∧ o.draws = 0) := by
  constructor
  · intro s hok
    obtain ⟨hks, hlen, _⟩ := (StateInv_accepted b hok).holds
    have hl := ofContent_length hlen
    rw [hks]
    refine ⟨rfl, hlen, ?_, hl, ?_⟩
    · show (requested args).length ≤ KEYSET_SIZE
      exact le_trans hlen (Nat.sub_le _ _)
    · show (requested args ++ _).take (requested args).length = _
      rw [List.take_left]
  · intro hnohv hbig rnd fuel
    apply main_rejected b rnd fuel args hnohv
    intro s hok
    have := (StateInv_accepted b hok).holds.2.1
    omega

set_option maxRecDepth 100000 in
/-- The argument `-aaaa...a` with forty letters requests 1040 characters and
is refused. -/
theorem capacity_invariant_witness :
    (∀ a ∈ fortyArgs, cstr a ≠ ['-', 'h'] ∧ cstr a ≠ ['-', 'v']) ∧
    KEYSET_SIZE - 1 < (requested fortyArgs).length ∧
    ∃ o, main demoBuild demoRnd 5 fortyArgs = some o ∧ o.code = 1 ∧ o.stdout = [] ∧
      o.draws = 0 :=
  ⟨by decide, by decide,
    (capacity_invariant demoBuild fortyArgs).2 (by decide) (by decide) demoRnd 5⟩

/-! ## Word mode against classes and frequency -/

theorem isFreqArg_iff (arg : List Char) :
    isFreqArg arg = true ↔
      arg.getD 0 NUL = '-' ∧ arg.getD 1 NUL = 'd' ∧ arg.getD 2 NUL = 'n' := by
  simp only [isFreqArg, Bool.and_eq_true, beq_iff_eq, and_assoc]

theorem isDelimSpecArg_iff (arg : List Char) :
    isDelimSpecArg arg = true ↔
      arg.getD 0 NUL = '-' ∧ arg.getD 1 NUL = 'd' ∧ arg.getD 2 NUL ≠ 'n' := by
  simp only [isDelimSpecArg, Bool.and_eq_true, beq_iff_eq, bne_iff_ne, ne_eq, and_assoc]

/-- Whatever the kind of an accepted argument, the frequency stays or becomes
`≥ 1`, and becomes `≥ 1` when the argument is `-dn...`. -/
theorem processArg_dln_pos (b : Build) {s s1 : State} {arg : List Char}
    (hok : processArg b s arg = .ok s1) :
    (1 ≤ s.dln → 1 ≤ s1.dln) ∧ (isFreqArg arg = true → 1 ≤ s1.dln) ∧
    (isFreqArg arg = false → s1.dln = s.dln) := by
  rcases processArg_ok_cases b hok with ⟨hw, rfl⟩ | ⟨he, _, _, rfl⟩ | ⟨hf, h1, rfl⟩ |
    ⟨hd, _, _, rfl⟩ | ⟨_, hnd, _, _, _, _, _, rfl⟩ | ⟨hl, _, _, rfl⟩ | ⟨hl, _, _, _, _, rfl⟩
  · refine ⟨fun h => h, fun hf => ?_, fun _ => rfl⟩
    have := cstr_getD_one hw
    rw [((isFreqArg_iff arg).mp hf).2.1] at this
    exact absurd this (by decide)
  · refine ⟨fun h => h, fun hf => ?_, fun _ => rfl⟩
    have := cstr_getD_one he
    rw [((isFreqArg_iff arg).mp hf).2.1] at this
    exact absurd this (by decide)
  · exact ⟨fun _ => h1, fun _ => h1, fun hx => by rw [hf] at hx; exact absurd hx (by decide)⟩
  · refine ⟨fun h => h, fun hf => ?_, fun _ => rfl⟩
    exact absurd ((isFreqArg_iff arg).mp hf).2.2 ((isDelimSpecArg_iff arg).mp hd).2.2
  · exact ⟨fun h => h, fun hf => absurd ((isFreqArg_iff arg).mp hf).2.1 hnd, fun _ => rfl⟩
  · exact ⟨fun h => h,
      fun hf => absurd ((isFreqArg_iff arg).mp hf).1 ((isLengthArg_iff arg).mp hl), fun _ => rfl⟩
  · exact ⟨fun h => h,
      fun hf => absurd ((isFreqArg_iff arg).mp hf).1 ((isLengthArg_iff arg).mp hl), fun _ => rfl⟩

theorem processArgs_dln_pos (b : Build) :
    ∀ (args : List (List Char)) (s s1 : State), processArgs b s args = .ok s1 →
      ((1 ≤ s.dln ∨ ∃ a ∈ args, isFreqArg a = true) → 1 ≤ s1.dln) ∧
      ((∀ a ∈ args, isFreqArg a = false) → s1.dln = s.dln) := by
  intro args
  induction args with
  | nil =>
    intro s s1 hok
    simp only [processArgs, Except.ok.injEq] at hok
    subst hok
    refine ⟨fun h => ?_, fun _ => rfl⟩
    rcases h with h | ⟨a, ha, _⟩
    · exact h
    · simp at ha
  | cons arg rest ih =>
    intro s s1 hok
    rw [processArgs] at hok
    cases hp : processArg b s arg with
    | error o => rw [hp] at hok; simp at hok
    | ok s2 =>
      rw [hp] at hok
      obtain ⟨p1, p2, p3⟩ := processArg_dln_pos b hp
      obtain ⟨q1, q2⟩ := ih s2 s1 hok
      refine ⟨fun h => ?_, fun h => ?_⟩
      · rcases h with h | ⟨a, ha, hf⟩
        · exact q1 (Or.inl (p1 h))
        · rcases List.mem_cons.mp ha with rfl | ha2
          · exact q1 (Or.inl (p2 hf))
          · exact q1 (Or.inr ⟨a, ha2, hf⟩)
      · rw [q2 (fun a ha => h a (List.mem_cons_of_mem _ ha)),
          p3 (h arg (List.mem_cons_self _ _))]

theorem processArgs_wordspace_set (b : Build) :
    ∀ (args : List (List Char)) (s s1 : State), processArgs b s args = .ok s1 →
      (∃ a ∈ args, cstr a = ['-', 'w']) →
      s1.wordspace = (nthword b.credgen_words_txt UINT_MAX).2 := by
  intro args
  induction args with
  | nil => intro s s1 _ h; obtain ⟨a, ha, _⟩ := h; simp at ha
  | cons arg rest ih =>
    intro s s1 hok hw
    rw [processArgs] at hok
    cases hp : processArg b s arg with
    | error o => rw [hp] at hok; simp at hok
    | ok s2 =>
      rw [hp] at hok
      obtain ⟨a, ha, haw⟩ := hw
      rcases List.mem_cons.mp ha with rfl | ha2
      · have h2 : s2.wordspace = (nthword b.credgen_words_txt UINT_MAX).2 := by
          rcases processArg_ok_cases b hp with ⟨_, rfl⟩ | ⟨he, _⟩ | ⟨hf, _⟩ |
            ⟨hd, _⟩ | ⟨_, _, _, hnw, _⟩ | ⟨hl, _⟩ | ⟨hl, _⟩
          · rfl
          · rw [haw] at he; exact absurd he (by decide)
          · have := cstr_getD_one haw
            rw [((isFreqArg_iff a).mp hf).2.1] at this
            exact absurd this (by decide)
          · have := cstr_getD_one haw
            rw [((isDelimSpecArg_iff a).mp hd).2.1] at this
            exact absurd this (by decide)
          · exact absurd haw hnw
          · exact absurd (cstr_getD_zero haw) ((isLengthArg_iff a).mp hl)
          · exact absurd (cstr_getD_zero haw) ((isLengthArg_iff a).mp hl)
        rcases processArgs_wordspace b rest s2 s1 hok with h | h
        · exact h.trans h2
        · exact h
      · exact ih s2 s1 hok ⟨a, ha2, haw⟩

theorem classSlice_ne_nil {c : Char} (h : ['a', 'A', '1', 's', 'S'].contains c = true) :
    classSlice c ≠ [] := by
  have hc : c = 'a' ∨ c = 'A' ∨ c = '1' ∨ c = 's' ∨ c = 'S' := by
    simpa using h
  rcases hc with rfl | rfl | rfl | rfl | rfl <;> decide

theorem requestedBy_ne_nil {arg : List Char}
    (h : isClassArg arg = true ∨ cstr arg = ['-', 'e']) : requestedBy arg ≠ [] := by
  unfold requestedBy
  by_cases he : cstr arg = ['-', 'e']
  · rw [if_pos he]; decide
  · rw [if_neg he]
    rcases h with h | h
    · simp only [isClassArg, Bool.and_eq_true, beq_iff_eq] at h
      obtain ⟨h0, h1⟩ := h
      have hc : arg.getD 1 NUL = 'a' ∨ arg.getD 1 NUL = 'A' ∨ arg.getD 1 NUL = '1' ∨
          arg.getD 1 NUL = 's' ∨ arg.getD 1 NUL = 'S' := by
        simpa using h1
      have hnd : arg.getD 1 NUL ≠ 'd' := by
        rcases hc with h | h | h | h | h <;> rw [h] <;> decide
      have hnn : arg.getD 1 NUL ≠ NUL := by
        rcases hc with h | h | h | h | h <;> rw [h] <;> decide
      rw [if_pos ⟨h0, hnd⟩]
      cases arg with
      | nil => exact absurd rfl hnn
      | cons x t =>
        cases t with
        | nil => exact absurd rfl hnn
        | cons y u =>
          have hy : y = (x :: y :: u).getD 1 NUL := rfl
          rw [← hy] at hnn h1
          simp only [List.drop_succ_cons, List.drop_zero]
          rw [cstr_cons_of_ne hnn, List.flatMap_cons]
          intro hx
          exact classSlice_ne_nil h1 (List.append_eq_nil.mp hx).1
    · exact absurd h he

theorem requested_ne_nil {args : List (List Char)}
    (h : ∃ a ∈ args, isClassArg a = true ∨ cstr a = ['-', 'e']) : requested args ≠ [] := by
  obtain ⟨a, ha, hk⟩ := h
  unfold requested
  intro hx
  exact requestedBy_ne_nil hk (List.flatMap_eq_nil_iff.mp hx a ha)

theorem wordspace_ne_zero (b : Build) (ws : List (List Char)) (rest : List Char)
    (hblob : b.credgen_words_txt = encodeWords ws ++ NUL :: rest) (hwf : WellFormed ws)
    (hne : ws ≠ []) : (nthword b.credgen_words_txt UINT_MAX).2 ≠ 0 := by
  rw [hblob, wordspace_wellformed ws rest hwf]
  have := List.length_pos.mpr hne
  split
  · decide
  · exact Nat.pos_iff_ne_zero.mp this

/-- C12 (word-mode incompatibility): with a dictionary of at least one
record, every argument list without `-h`/`-v` that contains `-w` together
with a class argument, `-e` or a `-dn...` argument ends with exit code 1, an
empty standard output and no random draw, whatever the order of the
arguments.  An accepted list made only of `-w`, delimiter arguments and
lengths, with at least one `-w`, passes the test and runs in word mode. -/
theorem word_mode_incompatible (b : Build) (args : List (List Char))
    (ws : List (List Char)) (rest : List Char)
    (hblob : b.credgen_words_txt = encodeWords ws ++ NUL :: rest) (hwf : WellFormed ws)
    (hne : ws ≠ []) (hw : ∃ a ∈ args, cstr a = ['-', 'w']) :
    ((∀ a ∈ args, cstr a ≠ ['-', 'h'] ∧ cstr a ≠ ['-', 'v']) →
      ((∃ a ∈ args, isClassArg a = true ∨ cstr a = ['-', 'e']) ∨
        ∃ a ∈ args, isFreqArg a = true) →
      ∀ (rnd : RandomSource) (fuel : Nat),
        ∃ o, main b rnd fuel args = some o ∧ o.code = 1 ∧ o.stdout = [] ∧ o.draws = 0) ∧
    ((∀ a ∈ args, cstr a = ['-', 'w'] ∨ isDelimSpecArg a = true ∨ isLengthArg a = true) →
      ∀ s, processArgs b State.init args = .ok s →
        incompatible s = false ∧ s.wordspace ≠ 0 ∧ deref (setDefaults s).Keyset = NUL ∧
        (setDefaults s).pickSize = s.wordspace) := by
  have hW := wordspace_ne_zero b ws rest hblob hwf hne
  constructor
  · intro hnohv hconf rnd fuel
    apply main_rejected b rnd fuel args hnohv
    intro s hok
    have hinv := StateInv_accepted b hok
    have hwsp : s.wordspace ≠ 0 := by
      rw [processArgs_wordspace_set b args _ _ hok hw]; exact hW
    have hrest : deref s.ks.Keyset ≠ NUL ∨ s.dln > 0 := by
      rcases hconf with hc | hf
      · left
        rw [hinv.holds.1, Ne, ofContent_deref hinv.holds.2.2]
        exact requested_ne_nil hc
      · right
        have := (processArgs_dln_pos b args _ _ hok).1 (Or.inr hf)
        omega
    unfold incompatible
    rcases hrest with h | h
    · simp [hwsp, h]
    · simp [hwsp, h]
  · intro hkinds s hok
    have hinv := StateInv_accepted b hok
    have hwsp : s.wordspace ≠ 0 := by
      rw [processArgs_wordspace_set b args _ _ hok hw]; exact hW
    have hreq : requested args = [] := by
      unfold requested
      rw [List.flatMap_eq_nil_iff]
      intro a ha
      rcases hkinds a ha with h | h | h
      · exact requestedBy_w h
      · unfold requestedBy
        have hd := (isDelimSpecArg_iff a).mp h
        rw [if_neg (fun hx => by
          have := cstr_getD_one hx
          rw [hd.2.1] at this
          exact absurd this (by decide)), if_neg (fun hx => hx.2 hd.2.1)]
      · unfold requestedBy
        have hl := (isLengthArg_iff a).mp h
        rw [if_neg (fun hx => hl (cstr_getD_zero hx)), if_neg (fun hx => hl hx.1)]
    have hdln : s.dln = 0 := by
      refine (processArgs_dln_pos b args _ _ hok).2 (fun a ha => ?_)
      cases hf : isFreqArg a with
      | false => rfl
      | true =>
        exfalso
        have hfa := (isFreqArg_iff a).mp hf
        rcases hkinds a ha with h | h | h
        · have := cstr_getD_one h
          rw [hfa.2.1] at this
          exact absurd this (by decide)
        · exact ((isDelimSpecArg_iff a).mp h).2.2 hfa.2.2
        · exact (isLengthArg_iff a).mp h hfa.1
    have hkey : deref s.ks.Keyset = NUL := by
      rw [hinv.holds.1, ofContent_deref hinv.holds.2.2]
      exact hreq
    have hmode : deref (setDefaults s).Keyset = NUL := by
      by_contra hx
      have := (setDefaults_mode hinv).mp hx
      unfold effectiveContent at this
      rw [if_neg (fun hy => hwsp hy.2)] at this
      exact this hreq
    refine ⟨?_, hwsp, hmode, (word_mode_config hinv hmode).2.2⟩
    unfold incompatible
    simp [hkey, hdln]

set_option maxRecDepth 100000 in
/-- Over the dictionary cat, dog, elephant the arguments `-w -a` are
refused with exit code 1. -/
theorem word_mode_incompatible_witness :
    WellFormed demoWords ∧ demoWords ≠ [] ∧ (∃ a ∈ wordClassArgs, cstr a = ['-', 'w']) ∧
    ∃ o, main demoBuild demoRnd 5 wordClassArgs = some o ∧ o.code = 1 ∧ o.stdout = [] ∧
      o.draws = 0 :=
  ⟨demoWords_wellFormed, by decide, ⟨['-', 'w'], by decide, by decide⟩,
    (word_mode_incompatible demoBuild wordClassArgs demoWords [] demoRnd_blob
      demoWords_wellFormed (by decide) ⟨['-', 'w'], by decide, by decide⟩).1 (by decide)
      (Or.inl ⟨['-', 'a'], by decide, by decide⟩) demoRnd 5⟩

/-! ## A word-mode loop that does not end -/

/-- Over `abaBuild` with target `INT_MAX`, when every draw selects "ab" and
the position is even, the loop uses up any amount of fuel: the position stays
even, also across the wrap, and never reaches the odd target. -/
theorem aba_even_diverges (rnd : RandomSource) (c : Config)
    (hmode : deref c.Keyset = NUL) (hps : c.pickSize = 2) (hr : ∀ k, rnd k 2 = 0) :
    ∀ (fuel : Nat) (pd : Int) (k : Nat) (out : List Char),
      -2147483648 ≤ pd → pd ≤ 2147483647 → pd % 2 = 0 →
      genLoop abaBuild rnd c 2147483647 fuel pd k out = none := by
  intro fuel
  induction fuel with
  | zero => intro pd k out _ _ _; rfl
  | succ n ih =>
    intro pd k out hlo hhi hev
    rw [aba_step_ab rnd c 2147483647 hmode hps n pd k out (by omega) (hr k)]
    have hr2 := toInt32_range (pd + 2)
    refine ih _ _ _ hr2.1 (by have := hr2.2; omega) ?_
    unfold toInt32
    omega

/-- C16 at a failing input: the run `credgen -w 2147483647` over the
well-formed dictionary "ab", "a", when every call of the random source
returns 0: the arguments are accepted, the draws are in range, the target
length is 2147483647, every round draws "ab", and no amount of fuel lets the
loop end.  The position is even in every round; from 2147483646 the
addition of 2 leaves `int` and the position becomes -2147483648, so it does
not increase there and never reaches the odd target. -/
theorem word_loop_diverges :
    abaBuild.credgen_words_txt = encodeWords abaWords ++ NUL :: [] ∧ WellFormed abaWords ∧
    processArgs abaBuild State.init overflowArgs = .ok overflowState ∧
    incompatible overflowState = false ∧ deref (setDefaults overflowState).Keyset = NUL ∧
    InRange zeroRnd ∧
    chooseLength zeroRnd (setDefaults overflowState) = 2147483647 ∧
    (nthword abaBuild.credgen_words_txt 0).1 = some abaBuild.credgen_words_txt ∧
    cstr abaBuild.credgen_words_txt = ['a', 'b'] ∧
    toInt32 (2147483646 + (strlen abaBuild.credgen_words_txt : Int)) = -2147483648 ∧
    ∀ fuel, main abaBuild zeroRnd fuel overflowArgs = none := by
  refine ⟨abaBuild_wellFormed.1, abaBuild_wellFormed.2, overflow_accepted, by decide, by decide,
    fun _ _ h => h, by decide, abaBuild_nth0, abaBuild_cstr0, by decide, ?_⟩
  intro fuel
  rw [main_eq_genLoop abaBuild zeroRnd _ overflowArgs overflowState overflow_accepted
    (by decide) (by decide)]
  rw [show chooseLength zeroRnd (setDefaults overflowState) = 2147483647 by decide]
  exact aba_even_diverges zeroRnd (setDefaults overflowState) (by decide) (by decide)
    (fun _ => rfl) fuel 0 1 [] (by norm_num) (by norm_num) (by norm_num)

/-! ## Easy mode and its expansion -/

theorem generate_easyRel (b : Build) (rnd : RandomSource) (fuel : Nat) {s t : State}
    (h : EasyRel s t) :
    incompatible s = incompatible t ∧ setDefaults s = setDefaults t ∧
    (setDefaults s).minpl = 8 ∧ (setDefaults s).maxpl = 12 ∧
    generate b rnd fuel s = generate b rnd fuel t := by
  obtain ⟨h1, h2, h3, h4, h5, h6, h7, h8, h9, h10⟩ := h
  have hi : incompatible s = incompatible t := by
    unfold incompatible; rw [h1, h2, h3]
  have hk : defaultKeyset s = defaultKeyset t := by
    unfold defaultKeyset; rw [h1, h3]
  have hd : setDefaults s = setDefaults t := by
    unfold setDefaults
    rw [hk, h3, h4, h2, h5, h6, h7, h8, h9, h10]
    simp [MIN_EASY, MAX_EASY]
  have hmin : (setDefaults s).minpl = 8 := by
    show (if s.minpl = 0 then s.min_default else s.minpl) = 8
    rw [if_pos h5, h7]; rfl
  have hmax : (setDefaults s).maxpl = 12 := by
    show (if s.maxpl = 0 then (if s.minpl = 0 then s.max_default else s.minpl) else s.maxpl)
      = 12
    rw [if_pos h6, if_pos h5, h8]; rfl
  refine ⟨hi, hd, hmin, hmax, ?_⟩
  unfold generate
  rw [hi, hd]

/-- An option run from two related states: the same refusal, or related
states again. -/
theorem processArg_easyRel (b : Build) {s t : State} (h : EasyRel s t) (arg : List Char)
    (harg : arg.getD 0 NUL = '-') :
    (∀ o, processArg b s arg = .error o → processArg b t arg = .error o) ∧
    (∀ s1, processArg b s arg = .ok s1 →
      ∃ t1, processArg b t arg = .ok t1 ∧ EasyRel s1 t1) := by
  obtain ⟨h1, h2, h3, h4, h5, h6, h7, h8, h9, h10⟩ := h
  unfold processArg
  by_cases hh : cstr arg = ['-', 'h']
  · rw [if_pos hh, if_pos hh]
    exact ⟨fun o ho => ho, fun s1 hs => by simp at hs⟩
  rw [if_neg hh, if_neg hh]
  by_cases hv : cstr arg = ['-', 'v']
  · rw [if_pos hv, if_pos hv]
    exact ⟨fun o ho => ho, fun s1 hs => by simp at hs⟩
  rw [if_neg hv, if_neg hv]
  by_cases hw : cstr arg = ['-', 'w']
  · rw [if_pos hw, if_pos hw]
    refine ⟨fun o ho => by simp at ho, fun s1 hs => ⟨_, rfl, ?_⟩⟩
    simp only [Except.ok.injEq] at hs
    subst hs
    exact ⟨h1, h2, rfl, h4, h5, h6, h7, h8, h9, h10⟩
  rw [if_neg hw, if_neg hw]
  by_cases he : cstr arg = ['-', 'e']
  · rw [if_pos he, if_pos he, ← h1]
    cases hq : acquireEasy s.ks with
    | error e => exact ⟨fun o ho => ho, fun s1 hs => by simp [Except.map] at hs⟩
    | ok ks1 =>
      refine ⟨fun o ho => by simp [Except.map] at ho, fun s1 hs => ⟨_, rfl, ?_⟩⟩
      simp only [Except.map, Except.ok.injEq] at hs
      subst hs
      exact ⟨rfl, h2, h3, h4, h5, h6, rfl, rfl, h9, h10⟩
  rw [if_neg he, if_neg he, if_pos harg, if_pos harg]
  by_cases hd : arg.getD 1 NUL = 'd'
  · rw [if_pos hd, if_pos hd]
    by_cases hn : arg.getD 2 NUL = 'n'
    · rw [if_pos hn, if_pos hn]
      by_cases h3e : arg.getD 3 NUL ≠ '='
      · rw [if_pos h3e, if_pos h3e]
        exact ⟨fun o ho => ho, fun s1 hs => by simp at hs⟩
      rw [if_neg h3e, if_neg h3e]
      by_cases hlt : atoi (arg.drop 4) < 1
      · rw [if_pos hlt, if_pos hlt]
        exact ⟨fun o ho => ho, fun s1 hs => by simp at hs⟩
      rw [if_neg hlt, if_neg hlt]
      refine ⟨fun o ho => by simp at ho, fun s1 hs => ⟨_, rfl, ?_⟩⟩
      simp only [Except.ok.injEq] at hs
      subst hs
      exact ⟨h1, rfl, h3, h4, h5, h6, h7, h8, h9, h10⟩
    · rw [if_neg hn, if_neg hn]
      dsimp only
      generalize (if arg.getD 2 NUL = '=' then arg.drop 3 else DLM_NORMAL) = dlm
      by_cases hl : strlen dlm < 1
      · rw [if_pos hl, if_pos hl]
        exact ⟨fun o ho => ho, fun s1 hs => by simp at hs⟩
      rw [if_neg hl, if_neg hl]
      refine ⟨fun o ho => by simp at ho, fun s1 hs => ⟨_, rfl, ?_⟩⟩
      simp only [Except.ok.injEq] at hs
      subst hs
      exact ⟨h1, h2, h3, rfl, h5, h6, h7, h8, h9, h10⟩
  · rw [if_neg hd, if_neg hd]
    by_cases hz : arg.getD 1 NUL = NUL
    · rw [if_pos hz, if_pos hz]
      exact ⟨fun o ho => ho, fun s1 hs => by simp at hs⟩
    rw [if_neg hz, if_neg hz, ← h1]
    cases hq : acquireClasses arg (arg.drop 1) s.ks with
    | error e => exact ⟨fun o ho => ho, fun s1 hs => by simp [Except.map] at hs⟩
    | ok ks1 =>
      refine ⟨fun o ho => by simp [Except.map] at ho, fun s1 hs => ⟨_, rfl, ?_⟩⟩
      simp only [Except.map, Except.ok.injEq] at hs
      subst hs
      exact ⟨rfl, h2, h3, h4, h5, h6, h7, h8, h9, h10⟩

theorem processArgs_easyRel (b : Build) :
    ∀ (opts : List (List Char)) (s t : State), EasyRel s t →
      (∀ a ∈ opts, a.getD 0 NUL = '-') →
      (∀ o, processArgs b s opts = .error o → processArgs b t opts = .error o) ∧
      (∀ s1, processArgs b s opts = .ok s1 →
        ∃ t1, processArgs b t opts = .ok t1 ∧ EasyRel s1 t1) := by
  intro opts
  induction opts with
  | nil =>
    intro s t h _
    refine ⟨fun o ho => by simp [processArgs] at ho, fun s1 hs => ⟨t, rfl, ?_⟩⟩
    simp only [processArgs, Except.ok.injEq] at hs
    subst hs
    exact h
  | cons arg rest ih =>
    intro s t h hopt
    obtain ⟨pe, po⟩ := processArg_easyRel b h arg (hopt arg (List.mem_cons_self _ _))
    rw [processArgs, processArgs]
    cases hp : processArg b s arg with
    | error e =>
      rw [pe e hp]
      exact ⟨fun o ho => ho, fun s1 hs => by simp at hs⟩
    | ok s2 =>
      obtain ⟨t2, ht2, hrel⟩ := po s2 hp
      rw [ht2]
      exact ih s2 t2 hrel (fun a ha => hopt a (List.mem_cons_of_mem _ ha))

set_option maxRecDepth 100000 in
theorem easy_accepted (b : Build) :
    processArg b State.init ['-', 'e'] = .ok easyState := by
  have h : processArg b State.init ['-', 'e'] = processArg demoBuild State.init ['-', 'e'] :=
    rfl
  rw [h]
  decide

set_option maxRecDepth 100000 in
theorem easyExpansion_accepted (b : Build) (opts : List (List Char)) :
    processArgs b State.init (easyExpansion ++ opts) = processArgs b easyExpandedState opts := by
  have h : processArgs b State.init easyExpansion = .ok easyExpandedState := by
    have h0 : processArgs b State.init easyExpansion =
        processArgs demoBuild State.init easyExpansion := rfl
    rw [h0]
    decide
  have happ : ∀ (xs : List (List Char)) (s s1 : State), processArgs b s xs = .ok s1 →
      processArgs b s (xs ++ opts) = processArgs b s1 opts := by
    intro xs
    induction xs with
    | nil =>
      intro s s1 hs
      simp only [processArgs, Except.ok.injEq] at hs
      subst hs
      rfl
    | cons x rest ih =>
      intro s s1 hs
      rw [processArgs] at hs
      rw [List.cons_append, processArgs]
      cases hp : processArg b s x with
      | error e => rw [hp] at hs; simp at hs
      | ok s2 =>
        rw [hp] at hs
        exact ih s2 s1 hs
  exact happ _ _ _ h

theorem easyRel_start : EasyRel easyState easyExpandedState :=
  ⟨rfl, rfl, rfl, rfl, rfl, rfl, rfl, rfl, rfl, rfl⟩

/-- C15 (easy mode equals its expansion): for every list `opts` of option
arguments (each begins with `-`, none is a positional length), the argument
lists `-e opts` and `-aaaA1 8 12 opts` give the same run for every random
source and fuel: the same outcome of `main`, hence the same output and exit
code.  When one list is accepted so is the other, with the same Keyset
buffer, the same configuration after the defaults, minimum length 8 and
maximum length 12. -/
theorem easy_mode_expansion (b : Build) (opts : List (List Char))
    (hopt : ∀ a ∈ opts, a.getD 0 NUL = '-') :
    (∀ (rnd : RandomSource) (fuel : Nat),
      main b rnd fuel (['-', 'e'] :: opts) = main b rnd fuel (easyExpansion ++ opts)) ∧
    (∀ s, processArgs b State.init (['-', 'e'] :: opts) = .ok s →
      ∃ t, processArgs b State.init (easyExpansion ++ opts) = .ok t ∧
        s.ks = t.ks ∧ setDefaults s = setDefaults t ∧
        (setDefaults s).minpl = 8 ∧ (setDefaults s).maxpl = 12) ∧
    (∀ t, processArgs b State.init (easyExpansion ++ opts) = .ok t →
      ∃ s, processArgs b State.init (['-', 'e'] :: opts) = .ok s ∧
        s.ks = t.ks ∧ setDefaults s = setDefaults t ∧
        (setDefaults t).minpl = 8 ∧ (setDefaults t).maxpl = 12) := by
  have hE : processArgs b State.init (['-', 'e'] :: opts) = processArgs b easyState opts := by
    rw [processArgs, easy_accepted b]
  have hX := easyExpansion_accepted b opts
  obtain ⟨pe, po⟩ := processArgs_easyRel b opts _ _ easyRel_start hopt
  refine ⟨fun rnd fuel => ?_, fun s hs => ?_, fun t ht => ?_⟩
  · unfold main
    rw [hE, hX]
    cases hp : processArgs b easyState opts with
    | error e => rw [pe e hp]
    | ok s =>
      obtain ⟨t, ht, hrel⟩ := po s hp
      rw [ht]
      exact (generate_easyRel b rnd fuel hrel).2.2.2.2
  · rw [hE] at hs
    obtain ⟨t, ht, hrel⟩ := po s hs
    obtain ⟨_, g2, g3, g4, _⟩ := generate_easyRel b (fun _ _ => 0) 0 hrel
    exact ⟨t, by rw [hX]; exact ht, hrel.1, g2, g3, g4⟩
  · rw [hX] at ht
    cases hp : processArgs b easyState opts with
    | error e => rw [pe e hp] at ht; simp at ht
    | ok s =>
      obtain ⟨t1, ht1, hrel⟩ := po s hp
      rw [ht1] at ht
      simp only [Except.ok.injEq] at ht
      subst ht
      obtain ⟨_, g2, g3, g4, _⟩ := generate_easyRel b (fun _ _ => 0) 0 hrel
      exact ⟨s, by rw [hE]; exact hp, hrel.1, g2, by rw [← g2]; exact g3, by rw [← g2]; exact g4⟩

set_option maxRecDepth 100000 in
/-- With the options `-d -S` after it, `-e` and `-aaaA1 8 12` give the same
run, which ends with exit code 0. -/
theorem easy_mode_expansion_witness :
    (∀ a ∈ delimSymbolOpts, a.getD 0 NUL = '-') ∧
    (main demoBuild demoRnd 20 (['-', 'e'] :: delimSymbolOpts)).map (fun o => o.code) =
      some 0 ∧
    main demoBuild demoRnd 20 (['-', 'e'] :: delimSymbolOpts) =
      main demoBuild demoRnd 20 (easyExpansion ++ delimSymbolOpts) :=
  ⟨by decide, by decide,
    (easy_mode_expansion demoBuild delimSymbolOpts (by decide)).1 demoRnd 20⟩

end Credgen
